import Mathlib

/-!
# Piece generation of the buffer kernel (`buffer_inserter.hpp`)

A shallow embedding of `boost::geometry::detail::buffer::buffer_range`
(`add_join`, `get_join_type`, `iterate`) and of the per-geometry policies
`dispatch::buffer_inserter<ring_tag | linestring_tag>`.

* Coordinates are exact rationals.
* Everything a function hands to a collaborator (the piece collection, the
  distance / join / end-cap strategies, the side generator, the simplifier, the
  intersection primitive) and every join classification it starts is recorded,
  in program order, as a `Call`; the list of calls is the state that is
  threaded through the functions where the source threads `Collection&`.
* The collaborators are the fields of `Strategies`; the local variables that the
  source declares without initialiser start with the contents given in `Unset`.
* Dereferencing an iterator outside its range (`*begin` of an empty range,
  `*(end - 2)` of a range of one point) has no defined result: `none`.
-/

namespace boost.geometry

/-- A two-dimensional point (`get<0>`, `get<1>`). -/
structure Point where
  x : ℚ
  y : ℚ
deriving DecidableEq

/-- The robust (rescaled, integral) image of a point, used only for the
equality test of consecutive input points. -/
structure RobustPoint where
  x : Int
  y : Int
deriving DecidableEq

namespace strategy.buffer

/-- `strategy::buffer::buffer_side_selector`. -/
inductive buffer_side_selector where
  | buffer_side_left
  | buffer_side_right
deriving DecidableEq

/-- `strategy::buffer::join_selector`. -/
inductive join_selector where
  | join_convex
  | join_concave
  | join_continue
  | join_spike
deriving DecidableEq

/-- `strategy::buffer::piece_type`, the tags used by the piece generation. -/
inductive piece_type where
  | buffered_segment
  | buffered_join
  | buffered_concave
  | buffered_circle
deriving DecidableEq

end strategy.buffer

open strategy.buffer

/-- One call leaving the piece generation, with its arguments.

* `start_new_ring`, `add_piece_*`, `add_endcap`: the methods of the piece
  collection (`add_piece` has one constructor per overload used);
* `distance_apply`, `join_apply`, `end_apply`, `buffer_side_apply`, `simplify`:
  the strategies and the simplification;
* `line_line_intersection`: the intersection primitive consulted by `add_join`;
* `add_join`: the start of one join classification (the arguments `add_join`
  receives), recorded so that a classification that emits nothing is still
  visible;
* `get_turns`, `discard_rings`, `discard_turns`, `enrich`, `traverse`, `reverse`,
  `assign`: the methods of the piece collection that the top-level
  `buffer_inserter` calls after the piece generation;
* `visit_pieces`: one invocation of the piece visitor, with its phase. -/
inductive Call where
  | start_new_ring
  | add_piece_segment (t : piece_type) (p1 p2 : Point) (front back : Point)
      (first : Bool)
  | add_piece_3 (t : piece_type) (p1 p2 p3 : Point)
  | add_piece_range (t : piece_type) (p : Point) (range : List Point)
  | add_piece_closed (t : piece_type) (range : List Point) (b : Bool)
  | add_endcap (range : List Point) (p : Point)
  | distance_apply (p1 p2 : Point) (side : buffer_side_selector)
  | join_apply (ip vertex perp1 perp2 : Point) (d : ℚ)
  | end_apply (penultimate perp1 ultimate perp2 : Point)
      (side : buffer_side_selector)
  | buffer_side_apply (p1 p2 : Point) (side : buffer_side_selector)
  | simplify (range : List Point) (d : ℚ)
  | line_line_intersection (pi pj qi qj : Point)
  | add_join (phase : Nat) (penultimate_input previous_input : Point)
      (prev_perp1 prev_perp2 : Point) (input : Point) (perp1 perp2 : Point)
      (side : buffer_side_selector)
  | get_turns
  | discard_rings
  | discard_turns
  | enrich
  | traverse
  | reverse
  | assign
  | visit_pieces (phase : Nat)
deriving DecidableEq

/-- The collaborators of the piece generation that are template parameters or
live outside `buffer_inserter.hpp`:

* the distance strategy (`apply`, `negative`, `simplify_distance`), the join
  strategy and the end-cap strategy;
* the robust policy (`recalculate`);
* the side strategy selected by the coordinate system (`side_strategy::apply`,
  an `int`), the parallel test `parallel_continue` and
  `line_line_intersection::apply` (its last argument is the content of the
  output variable on entry, its second result the content on return);
* the per-edge side generator `strategy::buffer::buffer_side::apply`, which
  yields the two offset end points (`front`, `back`) of an edge;
* `geometry::simplify`. -/
structure Strategies where
  distance_apply : Point → Point → buffer_side_selector → ℚ
  distance_negative : Bool
  simplify_distance : ℚ
  join_apply : Point → Point → Point → Point → ℚ → List Point
  end_apply : Point → Point → Point → Point → buffer_side_selector → List Point
  recalculate : Point → RobustPoint
  side_apply : Point → Point → Point → Int
  parallel_continue : ℚ → ℚ → ℚ → ℚ → Bool
  line_line_intersection : Point → Point → Point → Point → Point →
    join_selector × Point
  buffer_side_apply : Point → Point → buffer_side_selector → Point × Point
  simplify : List Point → ℚ → List Point

/-- The indeterminate contents of the local variables that the source declares
without an initialiser (`output_point_type intersection_point;`,
`point_type second_point, penultimate_point, ultimate_point;`,
`output_point_type first_p1, first_p2, last_p1, last_p2;`,
`output_point_type first;`). -/
structure Unset where
  intersection_point : Point
  second_point : Point
  penultimate_point : Point
  ultimate_point : Point
  first_p1 : Point
  first_p2 : Point
  last_p1 : Point
  last_p2 : Point
  first : Point

/-- The mathematical functions used by the circle generation
(`geometry::math::pi`, `cos`, `sin`), over the rationals that stand for the
promoted coordinate type. -/
structure Trig where
  pi : ℚ
  cos : ℚ → ℚ
  sin : ℚ → ℚ

/-- The piece visitor (`VisitPiecesPolicy`): an object with a state of its own
whose `apply` is shown the collection by `const&` (here: the calls made so far)
and a phase, and may change the visitor only. -/
structure VisitPiecesPolicy (σ : Type) where
  apply : σ → List Call → Nat → σ

namespace detail.buffer

/-- Modelled from the spec: `parallel_continue` (`parallel_continue.hpp`, not
under src/), the "secondary parallel/opposite test on adjacent edge vectors":
two parallel vectors continue each other when they point in the same direction,
that is when their dot product is positive. -/
def parallel_continue (dx1 dy1 dx2 dy2 : ℚ) : Bool :=
  decide (dx1 * dx2 + dy1 * dy2 > 0)

/-- The 2x2 determinant used by the intersection primitive. -/
def determinant (a b c d : ℚ) : ℚ := a * d - b * c

/-- Modelled from the spec: `line_line_intersection::apply`
(`line_line_intersection.hpp`, not under src/), the "exact line intersection of
the two offset supporting lines" through `pi, pj` and through `qi, qj`.  The
last argument is the content of the output variable `ip` on entry.  When the
lines are parallel it reports whether the segments continue each other or form
a spike and leaves `ip` as it was; otherwise it reports `join_convex` and
stores the intersection point in `ip`. -/
def line_line_intersection (pi pj qi qj : Point) (ip : Point) :
    join_selector × Point :=
  let denominator :=
    determinant (pi.x - pj.x) (pi.y - pj.y) (qi.x - qj.x) (qi.y - qj.y)
  if denominator = 0 then
    (if parallel_continue (qj.x - qi.x) (qj.y - qi.y) (pj.x - pi.x) (pj.y - pi.y)
      then join_selector.join_continue else join_selector.join_spike, ip)
  else
    let d1 := determinant pi.x pi.y pj.x pj.y
    let d2 := determinant qi.x qi.y qj.x qj.y
    (join_selector.join_convex,
      ⟨determinant d1 (pi.x - pj.x) d2 (qi.x - qj.x) / denominator,
       determinant d1 (pi.y - pj.y) d2 (qi.y - qj.y) / denominator⟩)

namespace buffer_range

/-- `buffer_range::get_join_type` (lines 121-142). -/
def get_join_type (S : Strategies) (p0 p1 p2 : Point) : join_selector :=
  let side := S.side_apply p0 p1 p2
  if side = -1 then join_selector.join_convex
  else if side = 1 then join_selector.join_concave
  else if S.parallel_continue (p2.x - p1.x) (p2.y - p1.y) (p1.x - p0.x) (p1.y - p0.y)
    then join_selector.join_continue
  else join_selector.join_spike

/-- `buffer_range::add_join` (lines 58-119): the calls are appended to
`collection`. -/
def add_join (S : Strategies) (u : Unset) (collection : List Call) (phase : Nat)
    (penultimate_input previous_input prev_perp1 prev_perp2 input perp1 perp2 : Point)
    (side : buffer_side_selector) : List Call :=
  let entered := collection ++ [Call.add_join phase penultimate_input previous_input
    prev_perp1 prev_perp2 input perp1 perp2 side]
  let join0 := get_join_type S penultimate_input previous_input input
  let r : (join_selector × Point) × List Call :=
    if join0 = join_selector.join_convex then
      (S.line_line_intersection perp1 perp2 prev_perp1 prev_perp2 u.intersection_point,
        entered ++ [Call.line_line_intersection perp1 perp2 prev_perp1 prev_perp2])
    else ((join0, u.intersection_point), entered)
  let join := r.1.1
  let intersection_point := r.1.2
  let c := r.2
  match join with
  | join_selector.join_continue => c
  | join_selector.join_concave =>
      c ++ [Call.add_piece_3 piece_type.buffered_concave previous_input prev_perp2 perp1]
  | join_selector.join_spike =>
      c ++ [Call.end_apply penultimate_input prev_perp2 previous_input perp1 side,
            Call.add_endcap
              (S.end_apply penultimate_input prev_perp2 previous_input perp1 side)
              previous_input]
  | join_selector.join_convex =>
      c ++ [Call.distance_apply previous_input input side,
            Call.join_apply intersection_point previous_input prev_perp2 perp1
              (S.distance_apply previous_input input side),
            Call.add_piece_range piece_type.buffered_join previous_input
              (S.join_apply intersection_point previous_input prev_perp2 perp1
                (S.distance_apply previous_input input side))]

/-- The variables of `buffer_range::iterate` that live across loop iterations
(`*prev` is kept as the point it refers to). -/
structure Walk where
  collection : List Call
  prev : Point
  previous_robust_input : RobustPoint
  first : Bool
  second_point : Point
  penultimate_point : Point
  ultimate_point : Point
  first_p1 : Point
  first_p2 : Point
  last_p1 : Point
  last_p2 : Point

/-- One pass through the body of the `for` loop of `buffer_range::iterate`
(lines 207-246), `it` being the point `*it`. -/
def iterate_body (S : Strategies) (u : Unset) (phase : Nat)
    (side : buffer_side_selector) (w : Walk) (it : Point) : Walk :=
  let robust_input := S.recalculate it
  if w.previous_robust_input ≠ robust_input then
    let generated_side := S.buffer_side_apply w.prev it side
    let c1 := w.collection ++ [Call.buffer_side_apply w.prev it side]
    let c2 :=
      if w.first = false then
        add_join S u c1 phase w.penultimate_point w.prev w.last_p1 w.last_p2 it
          generated_side.1 generated_side.2 side
      else c1
    let c3 := c2 ++ [Call.add_piece_segment piece_type.buffered_segment w.prev it
      generated_side.1 generated_side.2 w.first]
    { collection := c3
      prev := it
      previous_robust_input := robust_input
      first := false
      second_point := if w.first then it else w.second_point
      penultimate_point := w.prev
      ultimate_point := it
      first_p1 := if w.first then generated_side.1 else w.first_p1
      first_p2 := if w.first then generated_side.2 else w.first_p2
      last_p1 := generated_side.1
      last_p2 := generated_side.2 }
  else
    { w with previous_robust_input := robust_input }

/-- The `for` loop of `buffer_range::iterate` over the points after `*begin`. -/
def iterate_loop (S : Strategies) (u : Unset) (phase : Nat)
    (side : buffer_side_selector) : Walk → List Point → Walk
  | w, [] => w
  | w, it :: rest => iterate_loop S u phase side (iterate_body S u phase side w it) rest

/-- `buffer_range::iterate` (lines 153-247) over the points `[begin, end)`.  The
four output points are passed in with their contents on entry and returned with
their contents on return, next to the collection.  An empty range has no
`*begin`: `none`. -/
def iterate (S : Strategies) (u : Unset) (collection : List Call) (phase : Nat)
    (range : List Point) (side : buffer_side_selector)
    (first_p1 first_p2 last_p1 last_p2 : Point) : Option Walk :=
  match range with
  | [] => none
  | b :: rest =>
      some (iterate_loop S u phase side
        { collection := collection
          prev := b
          previous_robust_input := S.recalculate b
          first := true
          second_point := u.second_point
          penultimate_point := u.penultimate_point
          ultimate_point := u.ultimate_point
          first_p1 := first_p1
          first_p2 := first_p2
          last_p1 := last_p1
          last_p2 := last_p2 } rest)

end buffer_range

namespace buffer_point

/-- The `for` loop of `buffer_point::generate_points` (lines 287-297).  The
first argument is the number of iterations still to run
(`point_buffer_count - i`); `i`, `a`, `first` and `range_out` are the variables
of the loop. -/
def generate_points_loop (M : Trig) (point : Point) (buffer_distance diff : ℚ) :
    Nat → Nat → ℚ → Point → List Point → Point × List Point
  | 0, _, _, first, range_out => (first, range_out)
  | n + 1, i, a, first, range_out =>
      let p : Point :=
        ⟨point.x + buffer_distance * M.cos a, point.y + buffer_distance * M.sin a⟩
      generate_points_loop M point buffer_distance diff n (i + 1) (a - diff)
        (if i = 0 then p else first) (range_out ++ [p])

/-- `buffer_point::generate_points` (lines 273-301): the points are appended to
`range_out`. -/
def generate_points (M : Trig) (u : Unset) (point : Point) (buffer_distance : ℚ)
    (range_out : List Point) : List Point :=
  let two : ℚ := 2
  let two_pi := two * M.pi
  let point_buffer_count : Nat := 88
  let diff := two_pi / (point_buffer_count : ℚ)
  let r := generate_points_loop M point buffer_distance diff point_buffer_count 0 0
    u.first range_out
  r.2 ++ [r.1]

/-- `buffer_point::generate_circle` (lines 312-326). -/
def generate_circle (S : Strategies) (M : Trig) (u : Unset) (point : Point)
    (collection : List Call) : List Call :=
  collection ++
    [Call.distance_apply point point buffer_side_selector.buffer_side_left,
     Call.add_piece_closed piece_type.buffered_circle
       (generate_points M u point
         (S.distance_apply point point buffer_side_selector.buffer_side_left) [])
       false]

end buffer_point

namespace buffer_multi

/-- `buffer_multi::apply` (lines 345-359): the policy of the element kind,
applied to the elements in order on the one collection. -/
def apply {α : Type} (policy : α → List Call → Option (List Call)) :
    List α → List Call → Option (List Call)
  | [], collection => some collection
  | it :: rest, collection =>
      match policy it collection with
      | none => none
      | some c => apply policy rest c

end buffer_multi

/-- `visit_pieces_default_policy` (lines 362-367): it has no state and its
`apply` does nothing. -/
def visit_pieces_default_policy : VisitPiecesPolicy Unit where
  apply := fun v _ _ => v

end detail.buffer

namespace dispatch.buffer_inserter

open detail.buffer

namespace ring_tag

/-- `buffer_inserter<ring_tag>::iterate` (lines 435-463): the walk and the
closing join.  `*(end - 2)`, `*(end - 1)` and `*(begin + 1)` exist only in a
range of at least two points: `none` otherwise. -/
def iterate (S : Strategies) (u : Unset) (collection : List Call)
    (range : List Point) (side : buffer_side_selector) : Option (List Call) :=
  match buffer_range.iterate S u collection 0 range side
      u.first_p1 u.first_p2 u.last_p1 u.last_p2 with
  | none => none
  | some w =>
    match range.dropLast.getLast?, range.getLast?, range.tail.head? with
    | some end_2, some end_1, some begin_1 =>
        some (buffer_range.add_join S u w.collection 0
          end_2 end_1 w.last_p1 w.last_p2 begin_1 w.first_p1 w.first_p2 side)
    | _, _, _ => none

/-- `buffer_inserter<ring_tag>::apply` (lines 473-511). -/
def apply (S : Strategies) (u : Unset) (ring : List Point)
    (collection : List Call) : Option (List Call) :=
  if ring.length > 3 then
    let simplified := S.simplify ring S.simplify_distance
    let c := collection ++ [Call.simplify ring S.simplify_distance]
    if S.distance_negative then
      iterate S u c simplified.reverse buffer_side_selector.buffer_side_right
    else
      iterate S u c simplified buffer_side_selector.buffer_side_left
  else some collection

end ring_tag

namespace linestring_tag

/-- `buffer_inserter<linestring_tag>::first_perpendicular_point`
(lines 526-536). -/
def first_perpendicular_point (S : Strategies) (p1 p2 : Point) : Point :=
  (S.buffer_side_apply p1 p2 buffer_side_selector.buffer_side_right).1

/-- `buffer_inserter<linestring_tag>::iterate` (lines 547-578); the second
component of the result is the content of the in-out argument `first_p1` on
return. -/
def iterate (S : Strategies) (u : Unset) (collection : List Call) (phase : Nat)
    (range : List Point) (side : buffer_side_selector) (first_p1 : Point) :
    Option (List Call × Point) :=
  match range.getLast?, range.dropLast.getLast? with
  | some ultimate_point, some penultimate_point =>
    let r : Point × List Call :=
      if side = buffer_side_selector.buffer_side_right then (first_p1, collection)
      else (first_perpendicular_point S ultimate_point penultimate_point,
        collection ++ [Call.buffer_side_apply ultimate_point penultimate_point
          buffer_side_selector.buffer_side_right])
    let reverse_p1 := r.1
    match buffer_range.iterate S u r.2 phase range side
        first_p1 u.first_p2 u.last_p1 u.last_p2 with
    | none => none
    | some w =>
        some (w.collection ++
          [Call.end_apply penultimate_point w.last_p2 ultimate_point reverse_p1 side,
           Call.add_endcap
             (S.end_apply penultimate_point w.last_p2 ultimate_point reverse_p1 side)
             ultimate_point],
          w.first_p1)
  | _, _ => none

/-- `buffer_inserter<linestring_tag>::apply` (lines 588-612). -/
def apply (S : Strategies) (u : Unset) (linestring : List Point)
    (collection : List Call) : Option (List Call) :=
  if linestring.length > 1 then
    let simplified := S.simplify linestring S.simplify_distance
    let c := collection ++ [Call.simplify linestring S.simplify_distance,
      Call.start_new_ring]
    match iterate S u c 0 simplified buffer_side_selector.buffer_side_left
        u.first_p1 with
    | none => none
    | some r0 =>
      match iterate S u r0.1 1 simplified.reverse
          buffer_side_selector.buffer_side_right r0.2 with
      | none => none
      | some r1 => some r1.1
  else some collection

end linestring_tag

namespace point_tag

/-- `buffer_inserter<point_tag>::apply` (lines 404-413). -/
def apply (S : Strategies) (M : Trig) (u : Unset) (point : Point)
    (collection : List Call) : List Call :=
  buffer_point.generate_circle S M u point (collection ++ [Call.start_new_ring])

end point_tag

namespace polygon_tag

/-- `buffer_inserter<polygon_tag>::iterate` (lines 640-652) over the rings
`[begin, end)`. -/
def iterate (S : Strategies) (u : Unset) :
    List (List Point) → List Call → Option (List Call)
  | [], collection => some collection
  | it :: rest, collection =>
      match ring_tag.apply S u it (collection ++ [Call.start_new_ring]) with
      | none => none
      | some c => iterate S u rest c

/-- `buffer_inserter<polygon_tag>::apply_interior_rings` (lines 664-673). -/
def apply_interior_rings (S : Strategies) (u : Unset)
    (interior_rings : List (List Point)) (collection : List Call) :
    Option (List Call) :=
  iterate S u interior_rings collection

/-- `buffer_inserter<polygon_tag>::apply` (lines 684-699) for the polygon with
the given exterior ring and interior rings. -/
def apply (S : Strategies) (u : Unset) (exterior_ring : List Point)
    (interior_rings : List (List Point)) (collection : List Call) :
    Option (List Call) :=
  match ring_tag.apply S u exterior_ring (collection ++ [Call.start_new_ring]) with
  | none => none
  | some c => apply_interior_rings S u interior_rings c

end polygon_tag

end dispatch.buffer_inserter

/-- An input geometry, by kind. -/
inductive Geometry where
  | point (p : Point)
  | linestring (points : List Point)
  | ring (points : List Point)
  | polygon (exterior_ring : List Point) (interior_rings : List (List Point))
  | multi_point (points : List Point)
  | multi_linestring (linestrings : List (List Point))
  | multi_polygon (polygons : List (List Point × List (List Point)))

/-- Modelled from the spec: whether the geometry's tag casts to `areal_tag`
(the tag hierarchy of `core/tags.hpp` is not under src/): the areal kinds are
ring, polygon and multi-polygon. -/
def Geometry.is_areal : Geometry → Bool
  | Geometry.ring _ => true
  | Geometry.polygon _ _ => true
  | Geometry.multi_polygon _ => true
  | _ => false

namespace dispatch.buffer_inserter

open detail.buffer

/-- The call `dispatch::buffer_inserter<tag, ...>::apply` of the top-level
function (lines 756-765): the policy of the geometry's kind; for a
multi-geometry `buffer_inserter<multi_tag>` (lines 703-723), which is
`buffer_multi` with the policy of the element kind. -/
def apply_by_tag (S : Strategies) (M : Trig) (u : Unset) :
    Geometry → List Call → Option (List Call)
  | Geometry.point p, collection => some (point_tag.apply S M u p collection)
  | Geometry.linestring l, collection => linestring_tag.apply S u l collection
  | Geometry.ring r, collection => ring_tag.apply S u r collection
  | Geometry.polygon e i, collection => polygon_tag.apply S u e i collection
  | Geometry.multi_point ps, collection =>
      buffer_multi.apply (fun p c => some (point_tag.apply S M u p c)) ps collection
  | Geometry.multi_linestring ls, collection =>
      buffer_multi.apply (fun l c => linestring_tag.apply S u l c) ls collection
  | Geometry.multi_polygon polys, collection =>
      buffer_multi.apply (fun poly c => polygon_tag.apply S u poly.1 poly.2 c) polys
        collection

end dispatch.buffer_inserter

/-- The top-level `buffer_inserter` with a piece visitor (lines 740-795).  The
collection starts empty; `v` is the visitor's state on entry.  The result is
the calls made and the visitor's state on return. -/
def buffer_inserter {σ : Type} (S : Strategies) (M : Trig) (u : Unset)
    (geometry_input : Geometry) (visit_pieces_policy : VisitPiecesPolicy σ) (v : σ) :
    Option (List Call × σ) :=
  match dispatch.buffer_inserter.apply_by_tag S M u geometry_input [] with
  | none => none
  | some generated =>
    let c1 := generated ++ [Call.get_turns]
    let v1 := visit_pieces_policy.apply v c1 0
    let c2 := c1 ++ [Call.visit_pieces 0, Call.discard_rings, Call.discard_turns,
      Call.enrich, Call.traverse]
    let c3 := if S.distance_negative && geometry_input.is_areal
      then c2 ++ [Call.reverse] else c2
    let c4 := c3 ++ [Call.assign]
    let v2 := visit_pieces_policy.apply v1 c4 1
    some (c4 ++ [Call.visit_pieces 1], v2)

/-- The top-level `buffer_inserter` without a visitor argument (lines 807-817):
it passes the default visitor. -/
def buffer_inserter_default (S : Strategies) (M : Trig) (u : Unset)
    (geometry_input : Geometry) : Option (List Call × Unit) :=
  buffer_inserter S M u geometry_input detail.buffer.visit_pieces_default_policy ()

/-! ## Models of the Cartesian collaborators, used for concrete evaluation -/

namespace strategy.side

/-- Modelled from the spec: the Cartesian side strategy
(`strategy::side::side_by_triangle`, not under src/), the "turning predicate"
over three points: `1` when `p` lies to the left of the directed line
`p1 → p2`, `-1` when it lies to the right, `0` when the three are collinear
(x to the right, y upwards: `(4,4)` is to the left of `(0,0) → (4,0)`).  With the
offsets taken on the left of the walk, the corner that `get_join_type` calls
convex, side `-1`, is the right turn: the one where the two offset segments
part and a join has to fill the gap. -/
def side_by_triangle (p1 p2 p : Point) : Int :=
  let s := (p2.x - p1.x) * (p.y - p1.y) - (p2.y - p1.y) * (p.x - p1.x)
  if s = 0 then 0 else if s > 0 then 1 else -1

end strategy.side

namespace strategy.buffer

/-- Modelled from the spec: the side generator `buffer_side::apply`
(`strategies/cartesian/buffer_side.hpp`, not under src/), the "perpendicular
offset geometry per edge": the edge `p1 → p2` translated perpendicularly, to
the left of its direction (x to the right, y upwards: `(0,0) → (4,0)` moves
towards `(0,1)`), by the distance the distance strategy gives for the edge and
side.  The edge length is `Rat.sqrt` of the squared length, exact whenever the
length is rational. -/
def buffer_side (distance_apply : Point → Point → buffer_side_selector → ℚ)
    (p1 p2 : Point) (side : buffer_side_selector) : Point × Point :=
  let dx := p2.x - p1.x
  let dy := p2.y - p1.y
  let length := Rat.sqrt (dx * dx + dy * dy)
  let px := -dy / length
  let py := dx / length
  let d := distance_apply p1 p2 side
  (⟨p1.x + px * d, p1.y + py * d⟩, ⟨p2.x + px * d, p2.y + py * d⟩)

/-- Modelled from the spec: a strategy set over Cartesian coordinates (the
strategies are not under src/): a distance strategy with the one distance `d`
on both sides (`apply` gives its absolute value, `negative` its sign), the
models above for the geometric primitives, the integer grid as robust policy
and a simplification that leaves the range as it is; the join and end-cap
strategies are arguments. -/
def cartesian (d : ℚ) (join_apply : Point → Point → Point → Point → ℚ → List Point)
    (end_apply : Point → Point → Point → Point → buffer_side_selector → List Point) :
    Strategies where
  distance_apply := fun _ _ _ => |d|
  distance_negative := decide (d < 0)
  simplify_distance := |d| / 100
  join_apply := join_apply
  end_apply := end_apply
  recalculate := fun p => ⟨⌊p.x⌋, ⌊p.y⌋⟩
  side_apply := strategy.side.side_by_triangle
  parallel_continue := detail.buffer.parallel_continue
  line_line_intersection := detail.buffer.line_line_intersection
  buffer_side_apply := buffer_side (fun _ _ _ => |d|)
  simplify := fun range _ => range

end strategy.buffer

/-! ## Vocabulary of the statements -/

/-- The point `p` moved by the vector `v`. -/
def Point.translate (p v : Point) : Point := ⟨p.x + v.x, p.y + v.y⟩

/-- The cross product of `b - a` and `c - b`: the turn made at `b` on the way
`a → b → c` (zero exactly when the three points are collinear). -/
def turn (a b c : Point) : ℚ :=
  (b.x - a.x) * (c.y - b.y) - (b.y - a.y) * (c.x - b.x)

/-- The dot product of the edge vectors `b - a` and `c - b`. -/
def edge_dot (a b c : Point) : ℚ :=
  (b.x - a.x) * (c.x - b.x) + (b.y - a.y) * (c.y - b.y)

/-- The point `p` lies on the line through `a` and `b`. -/
def on_line (p a b : Point) : Prop :=
  (b.x - a.x) * (p.y - a.y) - (b.y - a.y) * (p.x - a.x) = 0

/-- What a call contributes to the chain of offset points of one output ring: a
segment piece with its two offset end points, or a join classification with
the offset end points of the edge it arrives from and of the edge it departs
on. -/
inductive Link where
  | segment (front back : Point)
  | join (prev_perp1 prev_perp2 perp1 perp2 : Point)
deriving DecidableEq

/-- The chain link of a call, if it has one. -/
def Call.link : Call → Option Link
  | Call.add_piece_segment _ _ _ front back _ => some (Link.segment front back)
  | Call.add_join _ _ _ prev_perp1 prev_perp2 _ perp1 perp2 _ =>
      some (Link.join prev_perp1 prev_perp2 perp1 perp2)
  | _ => none

/-- The chain links of a sequence of calls, in order. -/
def links (calls : List Call) : List Link := calls.filterMap Call.link

/-- `Linked a b`: link `b` continues link `a` end to end.  A join continues a
segment when it arrives from that segment's offset points, a segment continues
a join when the join departs on that segment's offset points; two segments or
two joins in a row are not connected. -/
def Linked : Link → Link → Prop
  | Link.segment front back, Link.join prev_perp1 prev_perp2 _ _ =>
      prev_perp1 = front ∧ prev_perp2 = back
  | Link.join _ _ perp1 perp2, Link.segment front back =>
      perp1 = front ∧ perp2 = back
  | _, _ => False

instance : DecidableRel Linked := fun a b => by
  cases a <;> cases b <;> unfold Linked <;> infer_instance

/-- The input edges `(p1, p2)` of the segment pieces among the calls, in order. -/
def segment_edges (calls : List Call) : List (Point × Point) :=
  calls.filterMap fun c =>
    match c with
    | Call.add_piece_segment _ p1 p2 _ _ _ => some (p1, p2)
    | _ => none

/-- The two offset end points `(front, back)` of the segment pieces among the
calls, in order. -/
def segment_offsets (calls : List Call) : List (Point × Point) :=
  calls.filterMap fun c =>
    match c with
    | Call.add_piece_segment _ _ _ front back _ => some (front, back)
    | _ => none

/-- The reference input points of the end caps among the calls, in order. -/
def endcap_points (calls : List Call) : List Point :=
  calls.filterMap fun c =>
    match c with
    | Call.add_endcap _ p => some p
    | _ => none

/-- The calls on the piece collection that add a piece, with the kind of piece. -/
inductive Piece where
  | segment
  | join
  | concave
  | circle
  | endcap
deriving DecidableEq

/-- The piece a call adds to the collection, if it adds one. -/
def Call.piece : Call → Option Piece
  | Call.add_piece_segment _ _ _ _ _ _ => some Piece.segment
  | Call.add_piece_3 piece_type.buffered_concave _ _ _ => some Piece.concave
  | Call.add_piece_range piece_type.buffered_join _ _ => some Piece.join
  | Call.add_piece_closed _ _ _ => some Piece.circle
  | Call.add_endcap _ _ => some Piece.endcap
  | _ => none

/-- The kinds of the pieces added by a sequence of calls, in order. -/
def pieces (calls : List Call) : List Piece := calls.filterMap Call.piece

/-- The number of join classifications started among the calls. -/
def join_classifications (calls : List Call) : Nat :=
  (calls.filter fun c =>
    match c with
    | Call.add_join _ _ _ _ _ _ _ _ _ => true
    | _ => false).length

/-- The side a call is made for, for the calls that carry one. -/
def Call.side : Call → Option buffer_side_selector
  | Call.buffer_side_apply _ _ side => some side
  | Call.add_join _ _ _ _ _ _ _ _ side => some side
  | Call.distance_apply _ _ side => some side
  | Call.end_apply _ _ _ _ side => some side
  | _ => none

/-- The sides of the calls that carry one, in order. -/
def sides (calls : List Call) : List buffer_side_selector := calls.filterMap Call.side

/-- The calls an offset walk on `side` can make: the side generator, a join
classification and what it leads to (intersection, concave piece, end cap of a
spike, distance and join strategy, join piece) and a segment piece, each for
that side when it carries one.  Starting a new ring, simplifying and adding a
circle are not among them. -/
def Call.of_walk (side : buffer_side_selector) : Call → Prop
  | Call.buffer_side_apply _ _ s => s = side
  | Call.add_join _ _ _ _ _ _ _ _ s => s = side
  | Call.distance_apply _ _ s => s = side
  | Call.end_apply _ _ _ _ s => s = side
  | Call.line_line_intersection _ _ _ _ => True
  | Call.join_apply _ _ _ _ _ => True
  | Call.add_piece_segment piece_type.buffered_segment _ _ _ _ _ => True
  | Call.add_piece_3 piece_type.buffered_concave _ _ _ => True
  | Call.add_piece_range piece_type.buffered_join _ _ => True
  | Call.add_endcap _ _ => True
  | _ => False

/-- The number of edges a walk over `range` retains when the robust image of
the point before the range is `r`: the points whose robust image differs from
that of their predecessor. -/
def retained_from (S : Strategies) (r : RobustPoint) : List Point → Nat
  | [] => 0
  | p :: rest =>
      (if r ≠ S.recalculate p then 1 else 0) + retained_from S (S.recalculate p) rest

/-- The number of consecutive pairs of `range` with different robust images. -/
def retained_edges (S : Strategies) : List Point → Nat
  | [] => 0
  | b :: rest => retained_from S (S.recalculate b) rest

/-- The variables of `buffer_range::iterate` on entering the loop: `prev` is
`*begin`, nothing has been retained yet. -/
def walk_start (S : Strategies) (u : Unset) (collection : List Call) (b : Point)
    (first_p1 first_p2 last_p1 last_p2 : Point) : detail.buffer.buffer_range.Walk :=
  { collection := collection
    prev := b
    previous_robust_input := S.recalculate b
    first := true
    second_point := u.second_point
    penultimate_point := u.penultimate_point
    ultimate_point := u.ultimate_point
    first_p1 := first_p1
    first_p2 := first_p2
    last_p1 := last_p1
    last_p2 := last_p2 }

/-- What the loop of `buffer_range::iterate` keeps true of the calls `T` it has
added so far: before the first retained edge no chain link was added; after it
the links form a chain that starts with the first retained edge's segment and
ends with the last retained edge's segment. -/
def WalkInv (c : List Call) (w : detail.buffer.buffer_range.Walk) : Prop :=
  ∃ T, w.collection = c ++ T ∧
    (w.first = true → links T = []) ∧
    (w.first = false →
      (∃ M, links T = Link.segment w.first_p1 w.first_p2 :: M) ∧
      (∃ M, links T = M ++ [Link.segment w.last_p1 w.last_p2]) ∧
      List.Chain' Linked (links T))

/-- The walk variables `w` with the calls `c` put in front of its collection. -/
def prepend_calls (c : List Call) (w : detail.buffer.buffer_range.Walk) :
    detail.buffer.buffer_range.Walk :=
  { w with collection := c ++ w.collection }

/-- The retained edges of a walk that stands at the point `prev` (the last
retained point) with the robust image `r` of the point just before `range`: a
point of `range` ends a retained edge when its robust image differs from that of
its predecessor, and the edge runs to it from the last retained point. -/
def retained_edge_list (S : Strategies) :
    Point → RobustPoint → List Point → List (Point × Point)
  | _, _, [] => []
  | prev, r, p :: rest =>
      if r ≠ S.recalculate p then (prev, p) :: retained_edge_list S p (S.recalculate p) rest
      else retained_edge_list S prev (S.recalculate p) rest

/-- The segment piece of the edge `e`: the edge, and the two offset end points
the side generator computes for it on `side`. -/
def segment_piece (S : Strategies) (side : buffer_side_selector) (e : Point × Point)
    (first : Bool) : Call :=
  Call.add_piece_segment piece_type.buffered_segment e.1 e.2
    (S.buffer_side_apply e.1 e.2 side).1 (S.buffer_side_apply e.1 e.2 side).2 first

/-- The calls of a walk for the retained edges `es` that follow a retained edge
starting at `pen` with offset end points `l1, l2`: per edge the side generator,
the join with the edge before (`add_join` and all it calls), the segment
piece. -/
def walk_calls_after (S : Strategies) (u : Unset) (phase : Nat)
    (side : buffer_side_selector) : Point → Point → Point → List (Point × Point) → List Call
  | _, _, _, [] => []
  | pen, l1, l2, e :: es =>
      [Call.buffer_side_apply e.1 e.2 side] ++
      detail.buffer.buffer_range.add_join S u [] phase pen e.1 l1 l2 e.2
        (S.buffer_side_apply e.1 e.2 side).1 (S.buffer_side_apply e.1 e.2 side).2 side ++
      [segment_piece S side e false] ++
      walk_calls_after S u phase side e.1 (S.buffer_side_apply e.1 e.2 side).1
        (S.buffer_side_apply e.1 e.2 side).2 es

/-- The calls of a walk that retains the edges `es`: for the first edge the side
generator and the segment piece, for every further edge the side generator, the
join with the edge before, the segment piece. -/
def walk_calls (S : Strategies) (u : Unset) (phase : Nat) (side : buffer_side_selector) :
    List (Point × Point) → List Call
  | [] => []
  | e :: es =>
      [Call.buffer_side_apply e.1 e.2 side, segment_piece S side e true] ++
      walk_calls_after S u phase side e.1 (S.buffer_side_apply e.1 e.2 side).1
        (S.buffer_side_apply e.1 e.2 side).2 es

/-- The offset end points of the first of the edges `es`, or `d` when there is
none. -/
def first_offsets (S : Strategies) (side : buffer_side_selector)
    (es : List (Point × Point)) (d : Point × Point) : Point × Point :=
  match es.head? with
  | some e => S.buffer_side_apply e.1 e.2 side
  | none => d

/-- The offset end points of the last of the edges `es`, or `d` when there is
none. -/
def last_offsets (S : Strategies) (side : buffer_side_selector)
    (es : List (Point × Point)) (d : Point × Point) : Point × Point :=
  match es.getLast? with
  | some e => S.buffer_side_apply e.1 e.2 side
  | none => d

/-- Whether the call adds a segment piece. -/
def Call.is_segment : Call → Bool
  | Call.add_piece_segment _ _ _ _ _ _ => true
  | _ => false

/-- Whether the call adds a segment piece or starts a join classification. -/
def Call.is_skeleton : Call → Bool
  | Call.add_piece_segment _ _ _ _ _ _ => true
  | Call.add_join _ _ _ _ _ _ _ _ _ => true
  | _ => false

/-- The segment pieces of the edges `es`, the first of them flagged as first. -/
def segment_pieces (S : Strategies) (side : buffer_side_selector) :
    List (Point × Point) → List Call
  | [] => []
  | e :: es => segment_piece S side e true :: es.map fun e' => segment_piece S side e' false

/-- The join classification between the edge `e0` and the edge `e` after it: on
the start of `e0`, the start of `e` and the end of `e`, with the offset end
points of `e0` and those of `e`. -/
def join_between (S : Strategies) (phase : Nat) (side : buffer_side_selector)
    (e0 e : Point × Point) : Call :=
  Call.add_join phase e0.1 e.1
    (S.buffer_side_apply e0.1 e0.2 side).1 (S.buffer_side_apply e0.1 e0.2 side).2 e.2
    (S.buffer_side_apply e.1 e.2 side).1 (S.buffer_side_apply e.1 e.2 side).2 side

/-- For the edges `es` that follow the edge `e0`: per edge the join
classification with the edge before it, then its segment piece. -/
def skeleton_after (S : Strategies) (phase : Nat) (side : buffer_side_selector) :
    Point × Point → List (Point × Point) → List Call
  | _, [] => []
  | e0, e :: es =>
      join_between S phase side e0 e :: segment_piece S side e false ::
        skeleton_after S phase side e es

/-- The segment pieces and join classifications in the order segment, join,
segment, ..., join, segment. -/
def skeleton (S : Strategies) (phase : Nat) (side : buffer_side_selector) :
    List (Point × Point) → List Call
  | [] => []
  | e :: es => segment_piece S side e true :: skeleton_after S phase side e es

/-- The calls that only the top-level `buffer_inserter` makes: the collection's
post-processing and the piece visitor. -/
def Call.is_top_level : Call → Bool
  | Call.get_turns => true
  | Call.discard_rings => true
  | Call.discard_turns => true
  | Call.enrich => true
  | Call.traverse => true
  | Call.reverse => true
  | Call.assign => true
  | Call.visit_pieces _ => true
  | _ => false

/-- The calls of a ring policy for `ring`: the simplification of the ring and
the calls of an offset walk. -/
def Call.of_ring_policy (ring : List Point) (x : Call) : Prop :=
  (∃ d, x = Call.simplify ring d) ∨ ∃ side, x.of_walk side

/-- The invocations of the piece visitor among the calls, by phase, in order. -/
def visits (calls : List Call) : List Nat :=
  calls.filterMap fun c =>
    match c with
    | Call.visit_pieces phase => some phase
    | _ => none

/-- The edges `(p1, p2)` the side generator was called for among the calls, in
order. -/
def side_generator_edges (calls : List Call) : List (Point × Point) :=
  calls.filterMap fun c =>
    match c with
    | Call.buffer_side_apply p1 p2 _ => some (p1, p2)
    | _ => none

/-- The steps of the top-level `buffer_inserter` on the collection after the
piece generation: `get_turns`, `discard_rings`, `discard_turns`, `enrich`,
`traverse`, `reverse` and `assign`. -/
def Call.is_assembly : Call → Bool
  | Call.get_turns => true
  | Call.discard_rings => true
  | Call.discard_turns => true
  | Call.enrich => true
  | Call.traverse => true
  | Call.reverse => true
  | Call.assign => true
  | _ => false

/-- The angle of vertex `i` of the circle of a point, in the words of the
spec: `-i * 2 * pi / 88`. -/
def circle_angle (M : Trig) (i : Nat) : ℚ := -(i : ℚ) * 2 * M.pi / 88

/-- Vertex `i` of the circle around `p` at distance `d`, in the words of the
spec: `(x + d * cos (-i * 2 * pi / 88), y + d * sin (-i * 2 * pi / 88))`. -/
def circle_vertex (M : Trig) (p : Point) (d : ℚ) (i : Nat) : Point :=
  ⟨p.x + d * M.cos (circle_angle M i), p.y + d * M.sin (circle_angle M i)⟩

/-- Whether the call is an `add_piece` of the piece collection. -/
def Call.is_add_piece : Call → Bool
  | Call.add_piece_segment _ _ _ _ _ _ => true
  | Call.add_piece_3 _ _ _ _ => true
  | Call.add_piece_range _ _ _ => true
  | Call.add_piece_closed _ _ _ => true
  | _ => false

/-- Whether the call is an `add_endcap` of the piece collection. -/
def Call.is_add_endcap : Call → Bool
  | Call.add_endcap _ _ => true
  | _ => false

/-- Whether the call is an operation of the piece collection (a member function
of `buffered_piece_collection`), as opposed to a call of a strategy, of the
visitor or of a geometric primitive. -/
def Call.on_collection : Call → Bool
  | Call.start_new_ring => true
  | Call.add_piece_segment _ _ _ _ _ _ => true
  | Call.add_piece_3 _ _ _ _ => true
  | Call.add_piece_range _ _ _ => true
  | Call.add_piece_closed _ _ _ => true
  | Call.add_endcap _ _ => true
  | Call.get_turns => true
  | Call.discard_rings => true
  | Call.discard_turns => true
  | Call.enrich => true
  | Call.traverse => true
  | Call.reverse => true
  | Call.assign => true
  | _ => false

/-! ## Example strategies and inputs for concrete evaluation -/

/-- A join strategy: the corner through the intersection point (a miter). -/
def miter_join (ip _vertex perp1 perp2 : Point) (_d : ℚ) : List Point :=
  [perp1, ip, perp2]

/-- An end-cap strategy: the straight connection of the two offset points. -/
def flat_end (_penultimate perp1 _ultimate perp2 : Point)
    (_side : buffer_side_selector) : List Point :=
  [perp1, perp2]

/-- Some contents for the locals declared without initialiser. -/
def unset_zero : Unset :=
  ⟨⟨0, 0⟩, ⟨0, 0⟩, ⟨0, 0⟩, ⟨0, 0⟩, ⟨0, 0⟩, ⟨0, 0⟩, ⟨0, 0⟩, ⟨0, 0⟩, ⟨0, 0⟩⟩

/-- The square ring of side 4 in clockwise order (closed: the last point repeats
the first). -/
def square_cw : List Point := [⟨0, 0⟩, ⟨0, 4⟩, ⟨4, 4⟩, ⟨4, 0⟩, ⟨0, 0⟩]

/-- The square ring `[(0,0),(4,0),(4,4),(0,4),(0,0)]`, in counter-clockwise
order. -/
def square_ccw : List Point := [⟨0, 0⟩, ⟨4, 0⟩, ⟨4, 4⟩, ⟨0, 4⟩, ⟨0, 0⟩]

/-- The point lies in the closed square `[0,4] x [0,4]`, the region enclosed by
the square rings `square_cw` and `square_ccw`. -/
def in_square (p : Point) : Prop := 0 ≤ p.x ∧ p.x ≤ 4 ∧ 0 ≤ p.y ∧ p.y ≤ 4

instance : DecidablePred in_square := fun p => by
  unfold in_square; infer_instance

/-- A linestring that runs from `(0,0)` to `(2,0)` and straight back to `(1,0)`:
its middle point is a spike. -/
def spike_line : List Point := [⟨0, 0⟩, ⟨2, 0⟩, ⟨1, 0⟩]

/-- An example of rational stand-ins for `pi`, `cos` and `sin` (truncated
series). -/
def trig_example : Trig where
  pi := 22 / 7
  cos := fun a => 1 - a * a / 2
  sin := fun a => a - a * a * a / 6

/-- An example of a piece visitor: its state is the list of the phases it was
invoked with and of the number of calls it was shown. -/
def recording_visitor : VisitPiecesPolicy (List (Nat × Nat)) where
  apply := fun v collection phase => v ++ [(phase, collection.length)]

/-- A ring of three points. -/
def triangle_open : List Point := [⟨0, 0⟩, ⟨0, 4⟩, ⟨4, 0⟩]

/-- A clockwise ring whose last but one point `(0, 7/10)` has the robust image of
the closing point `(0, 0)` on the integer grid: the walk skips the closing
point, and its last retained edge runs from `(12/5, 0)` to `(0, 7/10)`. -/
def skipped_closing_ring : List Point :=
  [⟨0, 0⟩, ⟨0, 4⟩, ⟨12 / 5, 4⟩, ⟨12 / 5, 0⟩, ⟨0, 7 / 10⟩, ⟨0, 0⟩]

/-- The calls of the ring policy on `skipped_closing_ring` at distance 1 up to
the closing join: the simplification and the walk with its four retained
edges. -/
def skipped_closing_ring_walk (j : Point → Point → Point → Point → ℚ → List Point) :
    List Call :=
  [Call.simplify skipped_closing_ring (1 / 100),
   Call.buffer_side_apply ⟨0, 0⟩ ⟨0, 4⟩ buffer_side_selector.buffer_side_left,
   Call.add_piece_segment piece_type.buffered_segment ⟨0, 0⟩ ⟨0, 4⟩ ⟨-1, 0⟩ ⟨-1, 4⟩ true,
   Call.buffer_side_apply ⟨0, 4⟩ ⟨12 / 5, 4⟩ buffer_side_selector.buffer_side_left,
   Call.add_join 0 ⟨0, 0⟩ ⟨0, 4⟩ ⟨-1, 0⟩ ⟨-1, 4⟩ ⟨12 / 5, 4⟩ ⟨0, 5⟩ ⟨12 / 5, 5⟩
     buffer_side_selector.buffer_side_left,
   Call.line_line_intersection ⟨0, 5⟩ ⟨12 / 5, 5⟩ ⟨-1, 0⟩ ⟨-1, 4⟩,
   Call.distance_apply ⟨0, 4⟩ ⟨12 / 5, 4⟩ buffer_side_selector.buffer_side_left,
   Call.join_apply ⟨-1, 5⟩ ⟨0, 4⟩ ⟨-1, 4⟩ ⟨0, 5⟩ 1,
   Call.add_piece_range piece_type.buffered_join ⟨0, 4⟩
     (j ⟨-1, 5⟩ ⟨0, 4⟩ ⟨-1, 4⟩ ⟨0, 5⟩ 1),
   Call.add_piece_segment piece_type.buffered_segment ⟨0, 4⟩ ⟨12 / 5, 4⟩ ⟨0, 5⟩ ⟨12 / 5, 5⟩
     false,
   Call.buffer_side_apply ⟨12 / 5, 4⟩ ⟨12 / 5, 0⟩ buffer_side_selector.buffer_side_left,
   Call.add_join 0 ⟨0, 4⟩ ⟨12 / 5, 4⟩ ⟨0, 5⟩ ⟨12 / 5, 5⟩ ⟨12 / 5, 0⟩ ⟨17 / 5, 4⟩ ⟨17 / 5, 0⟩
     buffer_side_selector.buffer_side_left,
   Call.line_line_intersection ⟨17 / 5, 4⟩ ⟨17 / 5, 0⟩ ⟨0, 5⟩ ⟨12 / 5, 5⟩,
   Call.distance_apply ⟨12 / 5, 4⟩ ⟨12 / 5, 0⟩ buffer_side_selector.buffer_side_left,
   Call.join_apply ⟨17 / 5, 5⟩ ⟨12 / 5, 4⟩ ⟨12 / 5, 5⟩ ⟨17 / 5, 4⟩ 1,
   Call.add_piece_range piece_type.buffered_join ⟨12 / 5, 4⟩
     (j ⟨17 / 5, 5⟩ ⟨12 / 5, 4⟩ ⟨12 / 5, 5⟩ ⟨17 / 5, 4⟩ 1),
   Call.add_piece_segment piece_type.buffered_segment ⟨12 / 5, 4⟩ ⟨12 / 5, 0⟩
     ⟨17 / 5, 4⟩ ⟨17 / 5, 0⟩ false,
   Call.buffer_side_apply ⟨12 / 5, 0⟩ ⟨0, 7 / 10⟩ buffer_side_selector.buffer_side_left,
   Call.add_join 0 ⟨12 / 5, 4⟩ ⟨12 / 5, 0⟩ ⟨17 / 5, 4⟩ ⟨17 / 5, 0⟩ ⟨0, 7 / 10⟩
     ⟨53 / 25, -24 / 25⟩ ⟨-7 / 25, -13 / 50⟩ buffer_side_selector.buffer_side_left,
   Call.line_line_intersection ⟨53 / 25, -24 / 25⟩ ⟨-7 / 25, -13 / 50⟩ ⟨17 / 5, 4⟩
     ⟨17 / 5, 0⟩,
   Call.distance_apply ⟨12 / 5, 0⟩ ⟨0, 7 / 10⟩ buffer_side_selector.buffer_side_left,
   Call.join_apply ⟨17 / 5, -4 / 3⟩ ⟨12 / 5, 0⟩ ⟨17 / 5, 0⟩ ⟨53 / 25, -24 / 25⟩ 1,
   Call.add_piece_range piece_type.buffered_join ⟨12 / 5, 0⟩
     (j ⟨17 / 5, -4 / 3⟩ ⟨12 / 5, 0⟩ ⟨17 / 5, 0⟩ ⟨53 / 25, -24 / 25⟩ 1),
   Call.add_piece_segment piece_type.buffered_segment ⟨12 / 5, 0⟩ ⟨0, 7 / 10⟩
     ⟨53 / 25, -24 / 25⟩ ⟨-7 / 25, -13 / 50⟩ false]

/-- An example of a simplification, after the last point kept: a point within
the tolerance of the last point kept is dropped. -/
def simplify_radial_from (tolerance : ℚ) : Point → List Point → List Point
  | _, [] => []
  | last, p :: rest =>
      if (p.x - last.x) * (p.x - last.x) + (p.y - last.y) * (p.y - last.y)
          ≤ tolerance * tolerance
        then simplify_radial_from tolerance last rest
        else p :: simplify_radial_from tolerance p rest

/-- An example of a simplification: the first point is kept, and then every
point that is farther than the tolerance from the last point kept. -/
def simplify_radial (range : List Point) (tolerance : ℚ) : List Point :=
  match range with
  | [] => []
  | b :: rest => b :: simplify_radial_from tolerance b rest

/-- The Cartesian strategy set with the simplification `simplify_radial`. -/
def cartesian_radial (d : ℚ) (join_apply : Point → Point → Point → Point → ℚ → List Point)
    (end_apply : Point → Point → Point → Point → buffer_side_selector → List Point) :
    Strategies :=
  { strategy.buffer.cartesian d join_apply end_apply with simplify := simplify_radial }

/-- A closed ring of four points, a sliver: `(4, 1/200)` is within the
simplification tolerance `1/100` of `(4, 0)`. -/
def sliver_ring : List Point := [⟨0, 0⟩, ⟨4, 0⟩, ⟨4, 1 / 200⟩, ⟨0, 0⟩]

/-- An example of rational stand-ins for `pi`, `cos` and `sin` with `cos 0 = 1`,
`sin 0 = 0` and `cos a * cos a + sin a * sin a = 1` for every `a`. -/
def trig_rational : Trig where
  pi := 22 / 7
  cos := fun a => (1 - a * a) / (1 + a * a)
  sin := fun a => 2 * a / (1 + a * a)

/-- A linestring whose last point `(4, 9/10)` has the robust image of the point
before it, `(4, 0)`, on the integer grid. -/
def skipped_end_line : List Point := [⟨0, 0⟩, ⟨4, 0⟩, ⟨4, 9 / 10⟩]

/-! ## Theorems -/

open strategy.buffer detail.buffer detail.buffer.buffer_range dispatch.buffer_inserter

/-! ### Square roots used by the concrete evaluations -/

theorem sqrt_sixteen : Rat.sqrt 16 = 4 := by
  have h : Rat.sqrt (4 * 4) = |4| := Rat.sqrt_eq 4
  rw [abs_of_nonneg (by norm_num)] at h
  have e : (16 : ℚ) = 4 * 4 := by norm_num
  rw [e]; exact h

theorem sqrt_four : Rat.sqrt 4 = 2 := by
  have h : Rat.sqrt (2 * 2) = |2| := Rat.sqrt_eq 2
  rw [abs_of_nonneg (by norm_num)] at h
  have e : (4 : ℚ) = 2 * 2 := by norm_num
  rw [e]; exact h

theorem sqrt_one : Rat.sqrt 1 = 1 := by
  have h : Rat.sqrt (1 * 1) = |1| := Rat.sqrt_eq 1
  rw [abs_of_nonneg (by norm_num), mul_one] at h
  exact h

theorem sqrt_144_25 : Rat.sqrt (144 / 25) = 12 / 5 := by
  have h : Rat.sqrt ((12 / 5) * (12 / 5)) = |12 / 5| := Rat.sqrt_eq (12 / 5)
  rw [abs_of_nonneg (by norm_num)] at h
  have e : (144 / 25 : ℚ) = (12 / 5) * (12 / 5) := by norm_num
  rw [e]; exact h

theorem sqrt_25_4 : Rat.sqrt (25 / 4) = 5 / 2 := by
  have h : Rat.sqrt ((5 / 2) * (5 / 2)) = |5 / 2| := Rat.sqrt_eq (5 / 2)
  rw [abs_of_nonneg (by norm_num)] at h
  have e : (25 / 4 : ℚ) = (5 / 2) * (5 / 2) := by norm_num
  rw [e]; exact h

theorem sqrt_81_100 : Rat.sqrt (81 / 100) = 9 / 10 := by
  have h : Rat.sqrt ((9 / 10) * (9 / 10)) = |9 / 10| := Rat.sqrt_eq (9 / 10)
  rw [abs_of_nonneg (by norm_num)] at h
  have e : (81 / 100 : ℚ) = (9 / 10) * (9 / 10) := by norm_num
  rw [e]; exact h

theorem sqrt_1681_100 : Rat.sqrt (1681 / 100) = 41 / 10 := by
  have h : Rat.sqrt ((41 / 10) * (41 / 10)) = |41 / 10| := Rat.sqrt_eq (41 / 10)
  rw [abs_of_nonneg (by norm_num)] at h
  have e : (1681 / 100 : ℚ) = (41 / 10) * (41 / 10) := by norm_num
  rw [e]; exact h

/-! ### Lists of calls, retained edges -/

theorem links_append (A B : List Call) : links (A ++ B) = links A ++ links B := by
  simp [links, List.filterMap_append]

theorem segment_edges_append (A B : List Call) :
    segment_edges (A ++ B) = segment_edges A ++ segment_edges B := by
  simp [segment_edges, List.filterMap_append]

theorem join_classifications_append (A B : List Call) :
    join_classifications (A ++ B) = join_classifications A + join_classifications B := by
  simp [join_classifications, List.filter_append]

/-- A call of a walk that carries a side carries the side of the walk. -/
theorem of_walk_side (side : buffer_side_selector) (x : Call) (h : x.of_walk side)
    (s : buffer_side_selector) (hs : x.side = some s) : s = side := by
  cases x <;> simp_all [Call.side, Call.of_walk]

theorem sides_of_walk (side : buffer_side_selector) (T : List Call)
    (h : ∀ x ∈ T, x.of_walk side) : ∀ s ∈ sides T, s = side := by
  intro s hs
  simp only [sides, List.mem_filterMap] at hs
  obtain ⟨x, hx, hxs⟩ := hs
  exact of_walk_side side x (h x hx) s hxs

theorem zip_tail_append_two (l : List Point) (y z : Point) :
    (l ++ [y, z]).zip (l ++ [y, z]).tail = (l ++ [y]).zip (l ++ [y]).tail ++ [(y, z)] := by
  match l with
  | [] => simp
  | [a] => simp
  | a :: b :: l =>
    have ih := zip_tail_append_two (b :: l) y z
    simp only [List.cons_append, List.tail_cons, List.zip_cons_cons] at ih ⊢
    rw [ih]

/-- The consecutive pairs of a reversed list are the consecutive pairs of the
list, each swapped, in reversed order. -/
theorem zip_tail_reverse (l : List Point) :
    l.reverse.zip l.reverse.tail = ((l.zip l.tail).map Prod.swap).reverse := by
  match l with
  | [] => simp
  | [a] => simp
  | a :: b :: l =>
    have ih := zip_tail_reverse (b :: l)
    have h2 := zip_tail_append_two l.reverse b a
    simp only [List.reverse_cons, List.append_assoc, List.singleton_append,
      List.tail_cons, List.zip_cons_cons, List.map_cons, Prod.swap_prod_mk] at ih h2 ⊢
    rw [h2, ih]

theorem retained_edges_pos (S : Strategies) (range : List Point)
    (h : 0 < retained_edges S range) : ∃ b b1 rest, range = b :: b1 :: rest := by
  match range, h with
  | [], h => simp [retained_edges] at h
  | [_], h => simp [retained_edges, retained_from] at h
  | b :: b1 :: rest, _ => exact ⟨b, b1, rest, rfl⟩

/-- Without robust-equal neighbours every consecutive pair is a retained edge. -/
theorem retained_from_chain (S : Strategies) (rest : List Point) :
    ∀ b : Point, List.Chain (fun a b => S.recalculate a ≠ S.recalculate b) b rest →
      retained_from S (S.recalculate b) rest = rest.length := by
  induction rest with
  | nil => intro b _; simp [retained_from]
  | cons it rest ih =>
    intro b hch
    rw [List.chain_cons] at hch
    simp [retained_from, hch.1, ih it hch.2]
    omega

theorem retained_edges_append_two (S : Strategies) (l : List Point) (y z : Point) :
    retained_edges S (l ++ [y, z]) =
      retained_edges S (l ++ [y]) + (if S.recalculate y ≠ S.recalculate z then 1 else 0) := by
  match l with
  | [] => simp [retained_edges, retained_from]
  | [a] => simp [retained_edges, retained_from]
  | a :: b :: l =>
    have ih := retained_edges_append_two S (b :: l) y z
    simp only [retained_edges, retained_from, List.cons_append] at ih ⊢
    omega

/-- Walking a range backwards retains as many edges as walking it forwards. -/
theorem retained_edges_reverse (S : Strategies) (l : List Point) :
    retained_edges S l.reverse = retained_edges S l := by
  match l with
  | [] => simp
  | [a] => simp [retained_edges, retained_from]
  | a :: b :: l =>
    have ih := retained_edges_reverse S (b :: l)
    have h2 := retained_edges_append_two S l.reverse b a
    simp only [List.reverse_cons, List.append_assoc, List.singleton_append] at ih h2 ⊢
    rw [h2, ih]
    simp only [retained_edges, retained_from]
    by_cases h : S.recalculate a = S.recalculate b
    · simp [h]
    · have h' : ¬ S.recalculate b = S.recalculate a := fun e => h e.symm
      simp [h, h']
      omega

/-- In a range of at least two points `*(end - 2)`, `*(end - 1)` and
`*(begin + 1)` exist. -/
theorem ends_of_range (b b1 : Point) (rest : List Point) :
    ∃ end_2 end_1, (b :: b1 :: rest).dropLast.getLast? = some end_2 ∧
      (b :: b1 :: rest).getLast? = some end_1 ∧
      (b :: b1 :: rest).tail.head? = some b1 := by
  refine ⟨(b :: (b1 :: rest).dropLast).getLast (by simp),
    (b :: b1 :: rest).getLast (by simp), ?_, ?_, by simp⟩
  · rw [List.dropLast_cons_of_ne_nil (by simp)]
    exact List.getLast?_eq_getLast _ _
  · exact List.getLast?_eq_getLast _ _

/-! ### `add_join` and the intersection primitive -/

/-- The calls of `add_join` are appended to the collection it is given and,
whatever the corner, its only chain link is the classification itself. -/
theorem add_join_links (S : Strategies) (u : Unset) (c : List Call) (phase : Nat)
    (pen prev pp1 pp2 inp p1 p2 : Point) (side : buffer_side_selector) :
    ∃ J, buffer_range.add_join S u c phase pen prev pp1 pp2 inp p1 p2 side = c ++ J ∧
      links J = [Link.join pp1 pp2 p1 p2] := by
  unfold buffer_range.add_join
  by_cases h : buffer_range.get_join_type S pen prev inp = join_selector.join_convex
  · simp only [h, if_true]
    cases (S.line_line_intersection p1 p2 pp1 pp2 u.intersection_point).1 <;>
      simp [links, Call.link, List.append_assoc]
  · simp only [h, if_false]
    cases hj : buffer_range.get_join_type S pen prev inp <;>
      simp_all [links, Call.link, List.append_assoc]

/-- The calls of `add_join` hold one join classification and no segment piece. -/
theorem add_join_counts (S : Strategies) (u : Unset) (c : List Call) (phase : Nat)
    (pen prev pp1 pp2 inp p1 p2 : Point) (side : buffer_side_selector) :
    ∃ J, buffer_range.add_join S u c phase pen prev pp1 pp2 inp p1 p2 side = c ++ J ∧
      segment_edges J = [] ∧ join_classifications J = 1 := by
  unfold buffer_range.add_join
  by_cases h : buffer_range.get_join_type S pen prev inp = join_selector.join_convex
  · simp only [h, if_true]
    cases (S.line_line_intersection p1 p2 pp1 pp2 u.intersection_point).1 <;>
      simp [segment_edges, join_classifications, List.append_assoc]
  · simp only [h, if_false]
    cases hj : buffer_range.get_join_type S pen prev inp <;>
      simp_all [segment_edges, join_classifications, List.append_assoc]

/-- Every call of `add_join` is a walk call of the side it was given. -/
theorem add_join_of_walk (S : Strategies) (u : Unset) (c : List Call) (phase : Nat)
    (pen prev pp1 pp2 inp p1 p2 : Point) (side : buffer_side_selector) :
    ∃ J, buffer_range.add_join S u c phase pen prev pp1 pp2 inp p1 p2 side = c ++ J ∧
      ∀ x ∈ J, x.of_walk side := by
  unfold buffer_range.add_join
  by_cases h : buffer_range.get_join_type S pen prev inp = join_selector.join_convex
  · simp only [h, if_true]
    cases (S.line_line_intersection p1 p2 pp1 pp2 u.intersection_point).1 <;>
      simp [Call.of_walk, List.append_assoc]
  · simp only [h, if_false]
    cases hj : buffer_range.get_join_type S pen prev inp <;>
      simp_all [Call.of_walk, List.append_assoc]

/-- The intersection primitive on two lines that are not parallel: it reports
`join_convex` and a point that lies on both lines. -/
theorem line_line_intersection_on_lines (pi pj qi qj ip : Point)
    (h : determinant (pi.x - pj.x) (pi.y - pj.y) (qi.x - qj.x) (qi.y - qj.y) ≠ 0) :
    (line_line_intersection pi pj qi qj ip).1 = join_selector.join_convex ∧
    on_line (line_line_intersection pi pj qi qj ip).2 pi pj ∧
    on_line (line_line_intersection pi pj qi qj ip).2 qi qj := by
  unfold line_line_intersection
  simp only [h, if_false]
  refine ⟨trivial, ?_, ?_⟩
  · unfold on_line
    unfold determinant at h ⊢
    field_simp
    ring
  · unfold on_line
    unfold determinant at h ⊢
    field_simp
    ring

/-! ### The loop of `buffer_range::iterate` -/

theorem iterate_body_skip (S : Strategies) (u : Unset) (phase : Nat)
    (side : buffer_side_selector) (w : Walk) (it : Point)
    (h : w.previous_robust_input = S.recalculate it) :
    iterate_body S u phase side w it = { w with previous_robust_input := S.recalculate it } := by
  unfold iterate_body
  simp [h]

theorem iterate_body_first (S : Strategies) (u : Unset) (phase : Nat)
    (side : buffer_side_selector) (w : Walk) (it : Point)
    (h : w.previous_robust_input ≠ S.recalculate it) (hf : w.first = true) :
    iterate_body S u phase side w it =
      { collection := w.collection ++ [Call.buffer_side_apply w.prev it side,
          Call.add_piece_segment piece_type.buffered_segment w.prev it
            (S.buffer_side_apply w.prev it side).1 (S.buffer_side_apply w.prev it side).2
            true]
        prev := it
        previous_robust_input := S.recalculate it
        first := false
        second_point := it
        penultimate_point := w.prev
        ultimate_point := it
        first_p1 := (S.buffer_side_apply w.prev it side).1
        first_p2 := (S.buffer_side_apply w.prev it side).2
        last_p1 := (S.buffer_side_apply w.prev it side).1
        last_p2 := (S.buffer_side_apply w.prev it side).2 } := by
  unfold iterate_body
  simp [h, hf]

theorem iterate_body_next (S : Strategies) (u : Unset) (phase : Nat)
    (side : buffer_side_selector) (w : Walk) (it : Point)
    (h : w.previous_robust_input ≠ S.recalculate it) (hf : w.first = false) :
    iterate_body S u phase side w it =
      { collection :=
          add_join S u (w.collection ++ [Call.buffer_side_apply w.prev it side]) phase
            w.penultimate_point w.prev w.last_p1 w.last_p2 it
            (S.buffer_side_apply w.prev it side).1 (S.buffer_side_apply w.prev it side).2
            side ++
          [Call.add_piece_segment piece_type.buffered_segment w.prev it
            (S.buffer_side_apply w.prev it side).1 (S.buffer_side_apply w.prev it side).2
            false]
        prev := it
        previous_robust_input := S.recalculate it
        first := false
        second_point := w.second_point
        penultimate_point := w.prev
        ultimate_point := it
        first_p1 := w.first_p1
        first_p2 := w.first_p2
        last_p1 := (S.buffer_side_apply w.prev it side).1
        last_p2 := (S.buffer_side_apply w.prev it side).2 } := by
  unfold iterate_body
  simp [h, hf]

theorem iterate_body_inv (S : Strategies) (u : Unset) (phase : Nat)
    (side : buffer_side_selector) (c : List Call) (w : Walk) (it : Point)
    (h : WalkInv c w) : WalkInv c (iterate_body S u phase side w it) := by
  obtain ⟨T, hT, h1, h2⟩ := h
  by_cases hr : w.previous_robust_input = S.recalculate it
  · rw [iterate_body_skip S u phase side w it hr]
    exact ⟨T, hT, h1, h2⟩
  · cases hf : w.first
    · -- not the first retained edge: a join classification, then the segment
      rw [iterate_body_next S u phase side w it hr hf]
      obtain ⟨⟨M1, hM1⟩, ⟨M2, hM2⟩, hch⟩ := h2 hf
      obtain ⟨J, hJ, hJl⟩ := add_join_links S u
        (w.collection ++ [Call.buffer_side_apply w.prev it side]) phase
        w.penultimate_point w.prev w.last_p1 w.last_p2 it
        (S.buffer_side_apply w.prev it side).1 (S.buffer_side_apply w.prev it side).2 side
      refine ⟨T ++ [Call.buffer_side_apply w.prev it side] ++ J ++
        [Call.add_piece_segment piece_type.buffered_segment w.prev it
          (S.buffer_side_apply w.prev it side).1 (S.buffer_side_apply w.prev it side).2
          false], ?_, ?_, ?_⟩
      · dsimp only
        rw [hJ, hT]
        simp [List.append_assoc]
      · intro h; simp at h
      · intro _
        dsimp only
        have hl : links (T ++ [Call.buffer_side_apply w.prev it side] ++ J ++
            [Call.add_piece_segment piece_type.buffered_segment w.prev it
              (S.buffer_side_apply w.prev it side).1
              (S.buffer_side_apply w.prev it side).2 false]) =
            links T ++ [Link.join w.last_p1 w.last_p2
              (S.buffer_side_apply w.prev it side).1
              (S.buffer_side_apply w.prev it side).2,
              Link.segment (S.buffer_side_apply w.prev it side).1
                (S.buffer_side_apply w.prev it side).2] := by
          simp only [links_append, hJl]
          simp [links, Call.link]
        rw [hl]
        refine ⟨⟨M1 ++ [Link.join w.last_p1 w.last_p2
              (S.buffer_side_apply w.prev it side).1
              (S.buffer_side_apply w.prev it side).2,
              Link.segment (S.buffer_side_apply w.prev it side).1
                (S.buffer_side_apply w.prev it side).2], by rw [hM1]; simp⟩,
          ⟨links T ++ [Link.join w.last_p1 w.last_p2
              (S.buffer_side_apply w.prev it side).1
              (S.buffer_side_apply w.prev it side).2], by simp⟩, ?_⟩
        apply List.Chain'.append hch
        · simp [List.chain'_cons, Linked]
        · intro x hx y hy
          rw [hM2] at hx
          simp at hx hy
          subst hx; subst hy
          simp [Linked]
    · -- the first retained edge
      rw [iterate_body_first S u phase side w it hr hf]
      refine ⟨T ++ [Call.buffer_side_apply w.prev it side,
        Call.add_piece_segment piece_type.buffered_segment w.prev it
          (S.buffer_side_apply w.prev it side).1 (S.buffer_side_apply w.prev it side).2
          true], ?_, ?_, ?_⟩
      · simp [hT, List.append_assoc]
      · intro h; simp at h
      · intro _
        dsimp only
        have hl : links (T ++ [Call.buffer_side_apply w.prev it side,
            Call.add_piece_segment piece_type.buffered_segment w.prev it
              (S.buffer_side_apply w.prev it side).1
              (S.buffer_side_apply w.prev it side).2 true]) =
            [Link.segment (S.buffer_side_apply w.prev it side).1
                (S.buffer_side_apply w.prev it side).2] := by
          simp only [links_append, h1 hf]
          simp [links, Call.link]
        rw [hl]
        exact ⟨⟨[], by simp⟩, ⟨[], by simp⟩, by simp⟩

theorem iterate_loop_inv (S : Strategies) (u : Unset) (phase : Nat)
    (side : buffer_side_selector) (c : List Call) (rest : List Point) :
    ∀ w : Walk, WalkInv c w → WalkInv c (iterate_loop S u phase side w rest) := by
  induction rest with
  | nil => intro w h; simpa [iterate_loop] using h
  | cons it rest ih =>
    intro w h
    simp only [iterate_loop]
    exact ih _ (iterate_body_inv S u phase side c w it h)

/-- The loop has left the state `first` exactly when it retained an edge. -/
theorem iterate_loop_first (S : Strategies) (u : Unset) (phase : Nat)
    (side : buffer_side_selector) (rest : List Point) :
    ∀ w : Walk, (iterate_loop S u phase side w rest).first =
      (w.first && decide (retained_from S w.previous_robust_input rest = 0)) := by
  induction rest with
  | nil => intro w; simp [iterate_loop, retained_from]
  | cons it rest ih =>
    intro w
    simp only [iterate_loop, ih, retained_from]
    by_cases hr : w.previous_robust_input = S.recalculate it
    · rw [iterate_body_skip S u phase side w it hr]
      simp [hr]
    · cases hf : w.first
      · rw [iterate_body_next S u phase side w it hr hf]; simp
      · rw [iterate_body_first S u phase side w it hr hf]; simp [hr]

/-- The loop adds one segment piece per retained edge and one join
classification per retained edge other than the first of the walk. -/
theorem iterate_loop_counts (S : Strategies) (u : Unset) (phase : Nat)
    (side : buffer_side_selector) (rest : List Point) :
    ∀ w : Walk, ∃ T, (iterate_loop S u phase side w rest).collection = w.collection ++ T ∧
      (segment_edges T).length = retained_from S w.previous_robust_input rest ∧
      join_classifications T +
          (if w.first = true ∧ 0 < retained_from S w.previous_robust_input rest
            then 1 else 0) =
        retained_from S w.previous_robust_input rest := by
  induction rest with
  | nil => intro w; exact ⟨[], by simp [iterate_loop], by simp [segment_edges, retained_from],
      by simp [join_classifications, retained_from]⟩
  | cons it rest ih =>
    intro w
    simp only [iterate_loop, retained_from]
    by_cases hr : w.previous_robust_input = S.recalculate it
    · obtain ⟨T, hT, hs, hj⟩ := ih (iterate_body S u phase side w it)
      rw [iterate_body_skip S u phase side w it hr] at hT hs hj
      rw [iterate_body_skip S u phase side w it hr]
      refine ⟨T, hT, ?_, ?_⟩
      · simpa [hr] using hs
      · simpa [hr] using hj
    · cases hf : w.first
      · obtain ⟨T, hT, hs, hj⟩ := ih (iterate_body S u phase side w it)
        rw [iterate_body_next S u phase side w it hr hf] at hT hs hj
        rw [iterate_body_next S u phase side w it hr hf]
        obtain ⟨J, hJ, hJs, hJj⟩ := add_join_counts S u
          (w.collection ++ [Call.buffer_side_apply w.prev it side]) phase
          w.penultimate_point w.prev w.last_p1 w.last_p2 it
          (S.buffer_side_apply w.prev it side).1 (S.buffer_side_apply w.prev it side).2 side
        dsimp only at hT hs hj
        rw [hJ] at hT
        rw [hJ]
        refine ⟨[Call.buffer_side_apply w.prev it side] ++ J ++
          [Call.add_piece_segment piece_type.buffered_segment w.prev it
            (S.buffer_side_apply w.prev it side).1 (S.buffer_side_apply w.prev it side).2
            false] ++ T, ?_, ?_, ?_⟩
        · rw [hT]; simp [List.append_assoc]
        · simp only [segment_edges_append, hJs, List.length_append, hs]
          simp [segment_edges, hr]
        · simp only [join_classifications_append, hJj]
          simp [join_classifications, hr] at hj ⊢
          omega
      · obtain ⟨T, hT, hs, hj⟩ := ih (iterate_body S u phase side w it)
        rw [iterate_body_first S u phase side w it hr hf] at hT hs hj
        rw [iterate_body_first S u phase side w it hr hf]
        dsimp only at hT hs hj
        refine ⟨[Call.buffer_side_apply w.prev it side,
          Call.add_piece_segment piece_type.buffered_segment w.prev it
            (S.buffer_side_apply w.prev it side).1 (S.buffer_side_apply w.prev it side).2
            true] ++ T, ?_, ?_, ?_⟩
        · rw [hT]; simp [List.append_assoc]
        · simp only [segment_edges_append, List.length_append, hs]
          simp [segment_edges, hr]
        · simp only [join_classifications_append]
          simp [join_classifications, hr] at hj ⊢
          omega

/-- Over points of which no two consecutive ones are robust-equal, the loop adds
one segment piece per consecutive pair, from the point to its successor. -/
theorem iterate_loop_edges (S : Strategies) (u : Unset) (phase : Nat)
    (side : buffer_side_selector) (rest : List Point) :
    ∀ w : Walk, w.previous_robust_input = S.recalculate w.prev →
      List.Chain (fun a b => S.recalculate a ≠ S.recalculate b) w.prev rest →
      ∃ T, (iterate_loop S u phase side w rest).collection = w.collection ++ T ∧
        segment_edges T = List.zip (w.prev :: rest) rest := by
  induction rest with
  | nil => intro w _ _; exact ⟨[], by simp [iterate_loop], by simp [segment_edges]⟩
  | cons it rest ih =>
    intro w hw hch
    rw [List.chain_cons] at hch
    have hr : ¬ w.previous_robust_input = S.recalculate it := by
      rw [hw]; exact hch.1
    simp only [iterate_loop]
    cases hf : w.first
    · rw [iterate_body_next S u phase side w it hr hf]
      obtain ⟨T, hT, hs⟩ := ih
        { collection :=
            add_join S u (w.collection ++ [Call.buffer_side_apply w.prev it side]) phase
              w.penultimate_point w.prev w.last_p1 w.last_p2 it
              (S.buffer_side_apply w.prev it side).1 (S.buffer_side_apply w.prev it side).2
              side ++
            [Call.add_piece_segment piece_type.buffered_segment w.prev it
              (S.buffer_side_apply w.prev it side).1 (S.buffer_side_apply w.prev it side).2
              false]
          prev := it
          previous_robust_input := S.recalculate it
          first := false
          second_point := w.second_point
          penultimate_point := w.prev
          ultimate_point := it
          first_p1 := w.first_p1
          first_p2 := w.first_p2
          last_p1 := (S.buffer_side_apply w.prev it side).1
          last_p2 := (S.buffer_side_apply w.prev it side).2 } rfl hch.2
      obtain ⟨J, hJ, hJs, -⟩ := add_join_counts S u
        (w.collection ++ [Call.buffer_side_apply w.prev it side]) phase
        w.penultimate_point w.prev w.last_p1 w.last_p2 it
        (S.buffer_side_apply w.prev it side).1 (S.buffer_side_apply w.prev it side).2 side
      dsimp only at hT hs
      rw [hJ] at hT
      rw [hJ]
      refine ⟨[Call.buffer_side_apply w.prev it side] ++ J ++
        [Call.add_piece_segment piece_type.buffered_segment w.prev it
          (S.buffer_side_apply w.prev it side).1 (S.buffer_side_apply w.prev it side).2
          false] ++ T, ?_, ?_⟩
      · rw [hT]; simp [List.append_assoc]
      · simp only [segment_edges_append, hJs, hs]
        simp [segment_edges]
    · rw [iterate_body_first S u phase side w it hr hf]
      obtain ⟨T, hT, hs⟩ := ih
        { collection := w.collection ++ [Call.buffer_side_apply w.prev it side,
            Call.add_piece_segment piece_type.buffered_segment w.prev it
              (S.buffer_side_apply w.prev it side).1 (S.buffer_side_apply w.prev it side).2
              true]
          prev := it
          previous_robust_input := S.recalculate it
          first := false
          second_point := it
          penultimate_point := w.prev
          ultimate_point := it
          first_p1 := (S.buffer_side_apply w.prev it side).1
          first_p2 := (S.buffer_side_apply w.prev it side).2
          last_p1 := (S.buffer_side_apply w.prev it side).1
          last_p2 := (S.buffer_side_apply w.prev it side).2 } rfl hch.2
      dsimp only at hT hs
      refine ⟨[Call.buffer_side_apply w.prev it side,
        Call.add_piece_segment piece_type.buffered_segment w.prev it
          (S.buffer_side_apply w.prev it side).1 (S.buffer_side_apply w.prev it side).2
          true] ++ T, ?_, ?_⟩
      · rw [hT]; simp [List.append_assoc]
      · simp only [segment_edges_append, hs]
        simp [segment_edges]

/-- Every call of the loop is a walk call of the side of the walk. -/
theorem iterate_loop_of_walk (S : Strategies) (u : Unset) (phase : Nat)
    (side : buffer_side_selector) (rest : List Point) :
    ∀ w : Walk, ∃ T, (iterate_loop S u phase side w rest).collection = w.collection ++ T ∧
      ∀ x ∈ T, x.of_walk side := by
  induction rest with
  | nil => intro w; exact ⟨[], by simp [iterate_loop], by simp⟩
  | cons it rest ih =>
    intro w
    simp only [iterate_loop]
    obtain ⟨T, hT, hs⟩ := ih (iterate_body S u phase side w it)
    by_cases hr : w.previous_robust_input = S.recalculate it
    · rw [iterate_body_skip S u phase side w it hr] at hT
      rw [iterate_body_skip S u phase side w it hr]
      exact ⟨T, hT, hs⟩
    · cases hf : w.first
      · rw [iterate_body_next S u phase side w it hr hf] at hT
        rw [iterate_body_next S u phase side w it hr hf]
        obtain ⟨J, hJ, hJs⟩ := add_join_of_walk S u
          (w.collection ++ [Call.buffer_side_apply w.prev it side]) phase
          w.penultimate_point w.prev w.last_p1 w.last_p2 it
          (S.buffer_side_apply w.prev it side).1 (S.buffer_side_apply w.prev it side).2 side
        dsimp only at hT
        rw [hJ] at hT
        rw [hJ]
        refine ⟨[Call.buffer_side_apply w.prev it side] ++ J ++
          [Call.add_piece_segment piece_type.buffered_segment w.prev it
            (S.buffer_side_apply w.prev it side).1 (S.buffer_side_apply w.prev it side).2
            false] ++ T, ?_, ?_⟩
        · rw [hT]; simp [List.append_assoc]
        · intro x hmem
          simp only [List.mem_append, List.mem_singleton] at hmem
          rcases hmem with ((h1 | h2) | h3) | h4
          · subst h1; simp [Call.of_walk]
          · exact hJs x h2
          · subst h3; simp [Call.of_walk]
          · exact hs x h4
      · rw [iterate_body_first S u phase side w it hr hf] at hT
        rw [iterate_body_first S u phase side w it hr hf]
        dsimp only at hT
        refine ⟨[Call.buffer_side_apply w.prev it side,
          Call.add_piece_segment piece_type.buffered_segment w.prev it
            (S.buffer_side_apply w.prev it side).1 (S.buffer_side_apply w.prev it side).2
            true] ++ T, ?_, ?_⟩
        · rw [hT]; simp [List.append_assoc]
        · intro x hmem
          simp only [List.mem_append, List.mem_cons, List.mem_singleton,
            List.not_mem_nil, or_false] at hmem
          rcases hmem with (h1 | h1) | h4
          · subst h1; simp [Call.of_walk]
          · subst h1; simp [Call.of_walk]
          · exact hs x h4

theorem iterate_cons (S : Strategies) (u : Unset) (c : List Call) (phase : Nat)
    (b : Point) (rest : List Point) (side : buffer_side_selector)
    (first_p1 first_p2 last_p1 last_p2 : Point) :
    buffer_range.iterate S u c phase (b :: rest) side first_p1 first_p2 last_p1 last_p2 =
      some (iterate_loop S u phase side
        (walk_start S u c b first_p1 first_p2 last_p1 last_p2) rest) := rfl

theorem walk_start_inv (S : Strategies) (u : Unset) (c : List Call) (b : Point)
    (first_p1 first_p2 last_p1 last_p2 : Point) :
    WalkInv c (walk_start S u c b first_p1 first_p2 last_p1 last_p2) :=
  ⟨[], by simp [walk_start], fun _ => rfl, fun hf => by simp [walk_start] at hf⟩

/-! ### The ring walk and the linestring pass -/

/-- The ring walk over a range of at least two points: the loop, then the
closing join on `*(end - 2)`, `*(end - 1)`, `*(begin + 1)`. -/
theorem ring_iterate_cons (S : Strategies) (u : Unset) (c : List Call)
    (b b1 : Point) (rest : List Point) (side : buffer_side_selector) :
    ∃ end_2 end_1,
      ring_tag.iterate S u c (b :: b1 :: rest) side =
        some (add_join S u
          (iterate_loop S u 0 side
            (walk_start S u c b u.first_p1 u.first_p2 u.last_p1 u.last_p2)
            (b1 :: rest)).collection 0 end_2 end_1
          (iterate_loop S u 0 side
            (walk_start S u c b u.first_p1 u.first_p2 u.last_p1 u.last_p2)
            (b1 :: rest)).last_p1
          (iterate_loop S u 0 side
            (walk_start S u c b u.first_p1 u.first_p2 u.last_p1 u.last_p2)
            (b1 :: rest)).last_p2 b1
          (iterate_loop S u 0 side
            (walk_start S u c b u.first_p1 u.first_p2 u.last_p1 u.last_p2)
            (b1 :: rest)).first_p1
          (iterate_loop S u 0 side
            (walk_start S u c b u.first_p1 u.first_p2 u.last_p1 u.last_p2)
            (b1 :: rest)).first_p2 side) := by
  obtain ⟨e2, e1, h2, h1, hb⟩ := ends_of_range b b1 rest
  exact ⟨e2, e1, by simp only [ring_tag.iterate, iterate_cons, h2, h1, hb]⟩

/-- Everything the proofs need about the calls `T` of a ring walk that retains
an edge: the walk returns, its chain links form a closed loop, it holds one
segment piece per retained edge and as many join classifications (one per
corner, the closing corner included). -/
theorem ring_iterate_summary (S : Strategies) (u : Unset) (c : List Call)
    (range : List Point) (side : buffer_side_selector)
    (h : 0 < retained_edges S range) :
    ∃ T, ring_tag.iterate S u c range side = some (c ++ T) ∧
      (∃ front back M prev_perp1 prev_perp2, links T = Link.segment front back ::
        (M ++ [Link.join prev_perp1 prev_perp2 front back])) ∧
      List.Chain' Linked (links T) ∧
      (segment_edges T).length = retained_edges S range ∧
      join_classifications T = retained_edges S range ∧
      (List.Chain' (fun a b => S.recalculate a ≠ S.recalculate b) range →
        segment_edges T = range.zip range.tail) := by
  obtain ⟨b, b1, rest, rfl⟩ := retained_edges_pos S range h
  obtain ⟨e2, e1, hring⟩ := ring_iterate_cons S u c b b1 rest side
  have hinv := iterate_loop_inv S u 0 side c (b1 :: rest) _
    (walk_start_inv S u c b u.first_p1 u.first_p2 u.last_p1 u.last_p2)
  have hfirst := iterate_loop_first S u 0 side (b1 :: rest)
    (walk_start S u c b u.first_p1 u.first_p2 u.last_p1 u.last_p2)
  obtain ⟨T2, hT2, hseg, hjoin⟩ := iterate_loop_counts S u 0 side (b1 :: rest)
    (walk_start S u c b u.first_p1 u.first_p2 u.last_p1 u.last_p2)
  have hedges := iterate_loop_edges S u 0 side (b1 :: rest)
    (walk_start S u c b u.first_p1 u.first_p2 u.last_p1 u.last_p2) rfl
  rw [hring]
  generalize iterate_loop S u 0 side _ (b1 :: rest) = w at hinv hfirst hT2 hedges ⊢
  have h' : 0 < retained_from S (S.recalculate b) (b1 :: rest) := h
  simp only [walk_start] at hfirst hT2 hseg hjoin hedges
  have hf : w.first = false := by
    rw [hfirst]
    simp [Nat.pos_iff_ne_zero.mp h']
  have hjoin' : join_classifications T2 + 1 =
      retained_from S (S.recalculate b) (b1 :: rest) := by
    simpa [h'] using hjoin
  obtain ⟨T, hT, -, hT'⟩ := hinv
  obtain ⟨⟨M1, hM1⟩, ⟨M2, hM2⟩, hch⟩ := hT' hf
  obtain rfl : T = T2 := List.append_cancel_left (hT.symm.trans hT2)
  obtain ⟨J, hJ, hJl⟩ := add_join_links S u w.collection 0 e2 e1 w.last_p1 w.last_p2 b1
    w.first_p1 w.first_p2 side
  obtain ⟨J2, hJ2, hJs, hJj⟩ := add_join_counts S u w.collection 0 e2 e1 w.last_p1
    w.last_p2 b1 w.first_p1 w.first_p2 side
  obtain rfl : J = J2 := List.append_cancel_left (hJ.symm.trans hJ2)
  refine ⟨T ++ J, by rw [hJ, hT, List.append_assoc],
    ⟨w.first_p1, w.first_p2, M1, w.last_p1, w.last_p2, by rw [links_append, hJl, hM1]; simp⟩,
    ?_, ?_, ?_, ?_⟩
  · rw [links_append, hJl]
    apply List.Chain'.append hch (by simp)
    intro x hx y hy
    rw [hM2] at hx
    simp at hx hy
    subst hx; subst hy
    simp [Linked]
  · rw [segment_edges_append, hJs, List.append_nil, hseg]
    rfl
  · rw [join_classifications_append, hJj, hjoin']
    rfl
  · intro hno
    obtain ⟨T3, hT3, he⟩ := hedges hno
    obtain rfl : T = T3 := List.append_cancel_left (hT.symm.trans hT3)
    rw [segment_edges_append, hJs, List.append_nil, he]
    simp

/-- Every call of a ring walk is a walk call of the side of the walk. -/
theorem ring_iterate_of_walk (S : Strategies) (u : Unset) (c : List Call)
    (range : List Point) (side : buffer_side_selector) (T : List Call)
    (h : ring_tag.iterate S u c range side = some (c ++ T)) :
    ∀ x ∈ T, x.of_walk side := by
  match range, h with
  | [], h => simp [ring_tag.iterate, buffer_range.iterate] at h
  | [_], h => simp [ring_tag.iterate, buffer_range.iterate] at h
  | b :: b1 :: rest, h =>
    obtain ⟨e2, e1, hring⟩ := ring_iterate_cons S u c b b1 rest side
    obtain ⟨T1, hT1, hs1⟩ := iterate_loop_of_walk S u 0 side (b1 :: rest)
      (walk_start S u c b u.first_p1 u.first_p2 u.last_p1 u.last_p2)
    rw [hring] at h
    generalize iterate_loop S u 0 side _ (b1 :: rest) = w at h hT1
    obtain ⟨J, hJ, hJs⟩ := add_join_of_walk S u w.collection 0 e2 e1 w.last_p1 w.last_p2 b1
      w.first_p1 w.first_p2 side
    rw [hJ, hT1] at h
    simp only [walk_start, List.append_assoc, Option.some.injEq] at h
    obtain rfl : T1 ++ J = T := List.append_cancel_left h
    intro x hmem
    rw [List.mem_append] at hmem
    rcases hmem with h1 | h2
    · exact hs1 x h1
    · exact hJs x h2

/-- The segment pieces of a ring walk over points without robust-equal
neighbours follow the consecutive pairs of the range. -/
theorem ring_iterate_edges (S : Strategies) (u : Unset) (c : List Call)
    (range : List Point) (side : buffer_side_selector) (T : List Call)
    (h : ring_tag.iterate S u c range side = some (c ++ T))
    (hno : List.Chain' (fun a b => S.recalculate a ≠ S.recalculate b) range) :
    segment_edges T = range.zip range.tail := by
  match range, h, hno with
  | [], h, _ => simp [ring_tag.iterate, buffer_range.iterate] at h
  | [_], h, _ => simp [ring_tag.iterate, buffer_range.iterate] at h
  | b :: b1 :: rest, h, hno =>
    have hpos : 0 < retained_edges S (b :: b1 :: rest) := by
      have := retained_from_chain S (b1 :: rest) b hno
      simp only [retained_edges, this, List.length_cons]
      omega
    obtain ⟨T2, hT2, -, -, -, -, hedges⟩ := ring_iterate_summary S u c (b :: b1 :: rest) side hpos
    rw [hT2, Option.some.injEq] at h
    obtain rfl : T2 = T := List.append_cancel_left h
    exact hedges hno

/-- `buffer_inserter<linestring_tag>::iterate` over a range `b :: rest` whose
last two points are `penultimate, ultimate`: the opposite-side point, the walk,
the end cap. -/
theorem linestring_iterate_cons (S : Strategies) (u : Unset) (c : List Call)
    (phase : Nat) (b : Point) (rest : List Point) (side : buffer_side_selector)
    (first_p1 penultimate ultimate : Point)
    (hpen : (b :: rest).dropLast.getLast? = some penultimate)
    (hult : (b :: rest).getLast? = some ultimate) :
    linestring_tag.iterate S u c phase (b :: rest) side first_p1 =
      some ((iterate_loop S u phase side
          (walk_start S u
            (if side = buffer_side_selector.buffer_side_right then c
              else c ++ [Call.buffer_side_apply ultimate penultimate
                buffer_side_selector.buffer_side_right])
            b first_p1 u.first_p2 u.last_p1 u.last_p2) rest).collection ++
        [Call.end_apply penultimate
          (iterate_loop S u phase side
            (walk_start S u
              (if side = buffer_side_selector.buffer_side_right then c
                else c ++ [Call.buffer_side_apply ultimate penultimate
                  buffer_side_selector.buffer_side_right])
              b first_p1 u.first_p2 u.last_p1 u.last_p2) rest).last_p2
          ultimate
          (if side = buffer_side_selector.buffer_side_right then first_p1
            else linestring_tag.first_perpendicular_point S ultimate penultimate) side,
         Call.add_endcap
          (S.end_apply penultimate
            (iterate_loop S u phase side
              (walk_start S u
                (if side = buffer_side_selector.buffer_side_right then c
                  else c ++ [Call.buffer_side_apply ultimate penultimate
                    buffer_side_selector.buffer_side_right])
                b first_p1 u.first_p2 u.last_p1 u.last_p2) rest).last_p2
            ultimate
            (if side = buffer_side_selector.buffer_side_right then first_p1
              else linestring_tag.first_perpendicular_point S ultimate penultimate) side)
          ultimate],
       (iterate_loop S u phase side
          (walk_start S u
            (if side = buffer_side_selector.buffer_side_right then c
              else c ++ [Call.buffer_side_apply ultimate penultimate
                buffer_side_selector.buffer_side_right])
            b first_p1 u.first_p2 u.last_p1 u.last_p2) rest).first_p1) := by
  simp only [linestring_tag.iterate, hpen, hult, iterate_cons]
  by_cases hs : side = buffer_side_selector.buffer_side_right <;> simp [hs]

/-! ### The square rings, evaluated -/

/-- The calls of the ring policy on the counter-clockwise square at distance 1. -/
theorem square_ccw_calls (u : Unset)
    (j : Point → Point → Point → Point → ℚ → List Point)
    (e : Point → Point → Point → Point → buffer_side_selector → List Point) :
    ring_tag.apply (cartesian 1 j e) u square_ccw [] = some
      [Call.simplify square_ccw (1 / 100),
       Call.buffer_side_apply ⟨0, 0⟩ ⟨4, 0⟩ buffer_side_selector.buffer_side_left,
       Call.add_piece_segment piece_type.buffered_segment ⟨0, 0⟩ ⟨4, 0⟩ ⟨0, 1⟩ ⟨4, 1⟩ true,
       Call.buffer_side_apply ⟨4, 0⟩ ⟨4, 4⟩ buffer_side_selector.buffer_side_left,
       Call.add_join 0 ⟨0, 0⟩ ⟨4, 0⟩ ⟨0, 1⟩ ⟨4, 1⟩ ⟨4, 4⟩ ⟨3, 0⟩ ⟨3, 4⟩
         buffer_side_selector.buffer_side_left,
       Call.add_piece_3 piece_type.buffered_concave ⟨4, 0⟩ ⟨4, 1⟩ ⟨3, 0⟩,
       Call.add_piece_segment piece_type.buffered_segment ⟨4, 0⟩ ⟨4, 4⟩ ⟨3, 0⟩ ⟨3, 4⟩ false,
       Call.buffer_side_apply ⟨4, 4⟩ ⟨0, 4⟩ buffer_side_selector.buffer_side_left,
       Call.add_join 0 ⟨4, 0⟩ ⟨4, 4⟩ ⟨3, 0⟩ ⟨3, 4⟩ ⟨0, 4⟩ ⟨4, 3⟩ ⟨0, 3⟩
         buffer_side_selector.buffer_side_left,
       Call.add_piece_3 piece_type.buffered_concave ⟨4, 4⟩ ⟨3, 4⟩ ⟨4, 3⟩,
       Call.add_piece_segment piece_type.buffered_segment ⟨4, 4⟩ ⟨0, 4⟩ ⟨4, 3⟩ ⟨0, 3⟩ false,
       Call.buffer_side_apply ⟨0, 4⟩ ⟨0, 0⟩ buffer_side_selector.buffer_side_left,
       Call.add_join 0 ⟨4, 4⟩ ⟨0, 4⟩ ⟨4, 3⟩ ⟨0, 3⟩ ⟨0, 0⟩ ⟨1, 4⟩ ⟨1, 0⟩
         buffer_side_selector.buffer_side_left,
       Call.add_piece_3 piece_type.buffered_concave ⟨0, 4⟩ ⟨0, 3⟩ ⟨1, 4⟩,
       Call.add_piece_segment piece_type.buffered_segment ⟨0, 4⟩ ⟨0, 0⟩ ⟨1, 4⟩ ⟨1, 0⟩ false,
       Call.add_join 0 ⟨0, 4⟩ ⟨0, 0⟩ ⟨1, 4⟩ ⟨1, 0⟩ ⟨4, 0⟩ ⟨0, 1⟩ ⟨4, 1⟩
         buffer_side_selector.buffer_side_left,
       Call.add_piece_3 piece_type.buffered_concave ⟨0, 0⟩ ⟨1, 0⟩ ⟨0, 1⟩] := by
  simp [ring_tag.apply, ring_tag.iterate, buffer_range.iterate, buffer_range.iterate_loop,
    buffer_range.iterate_body, buffer_range.add_join, buffer_range.get_join_type, cartesian,
    buffer_side, strategy.side.side_by_triangle, square_ccw]
  norm_num [sqrt_sixteen]

/-- The calls of the ring policy on the clockwise square at distance 1. -/
theorem square_cw_calls (u : Unset)
    (j : Point → Point → Point → Point → ℚ → List Point)
    (e : Point → Point → Point → Point → buffer_side_selector → List Point) :
    ring_tag.apply (cartesian 1 j e) u square_cw [] = some
      [Call.simplify square_cw (1 / 100),
       Call.buffer_side_apply ⟨0, 0⟩ ⟨0, 4⟩ buffer_side_selector.buffer_side_left,
       Call.add_piece_segment piece_type.buffered_segment ⟨0, 0⟩ ⟨0, 4⟩ ⟨-1, 0⟩ ⟨-1, 4⟩ true,
       Call.buffer_side_apply ⟨0, 4⟩ ⟨4, 4⟩ buffer_side_selector.buffer_side_left,
       Call.add_join 0 ⟨0, 0⟩ ⟨0, 4⟩ ⟨-1, 0⟩ ⟨-1, 4⟩ ⟨4, 4⟩ ⟨0, 5⟩ ⟨4, 5⟩
         buffer_side_selector.buffer_side_left,
       Call.line_line_intersection ⟨0, 5⟩ ⟨4, 5⟩ ⟨-1, 0⟩ ⟨-1, 4⟩,
       Call.distance_apply ⟨0, 4⟩ ⟨4, 4⟩ buffer_side_selector.buffer_side_left,
       Call.join_apply ⟨-1, 5⟩ ⟨0, 4⟩ ⟨-1, 4⟩ ⟨0, 5⟩ 1,
       Call.add_piece_range piece_type.buffered_join ⟨0, 4⟩
         (j ⟨-1, 5⟩ ⟨0, 4⟩ ⟨-1, 4⟩ ⟨0, 5⟩ 1),
       Call.add_piece_segment piece_type.buffered_segment ⟨0, 4⟩ ⟨4, 4⟩ ⟨0, 5⟩ ⟨4, 5⟩ false,
       Call.buffer_side_apply ⟨4, 4⟩ ⟨4, 0⟩ buffer_side_selector.buffer_side_left,
       Call.add_join 0 ⟨0, 4⟩ ⟨4, 4⟩ ⟨0, 5⟩ ⟨4, 5⟩ ⟨4, 0⟩ ⟨5, 4⟩ ⟨5, 0⟩
         buffer_side_selector.buffer_side_left,
       Call.line_line_intersection ⟨5, 4⟩ ⟨5, 0⟩ ⟨0, 5⟩ ⟨4, 5⟩,
       Call.distance_apply ⟨4, 4⟩ ⟨4, 0⟩ buffer_side_selector.buffer_side_left,
       Call.join_apply ⟨5, 5⟩ ⟨4, 4⟩ ⟨4, 5⟩ ⟨5, 4⟩ 1,
       Call.add_piece_range piece_type.buffered_join ⟨4, 4⟩
         (j ⟨5, 5⟩ ⟨4, 4⟩ ⟨4, 5⟩ ⟨5, 4⟩ 1),
       Call.add_piece_segment piece_type.buffered_segment ⟨4, 4⟩ ⟨4, 0⟩ ⟨5, 4⟩ ⟨5, 0⟩ false,
       Call.buffer_side_apply ⟨4, 0⟩ ⟨0, 0⟩ buffer_side_selector.buffer_side_left,
       Call.add_join 0 ⟨4, 4⟩ ⟨4, 0⟩ ⟨5, 4⟩ ⟨5, 0⟩ ⟨0, 0⟩ ⟨4, -1⟩ ⟨0, -1⟩
         buffer_side_selector.buffer_side_left,
       Call.line_line_intersection ⟨4, -1⟩ ⟨0, -1⟩ ⟨5, 4⟩ ⟨5, 0⟩,
       Call.distance_apply ⟨4, 0⟩ ⟨0, 0⟩ buffer_side_selector.buffer_side_left,
       Call.join_apply ⟨5, -1⟩ ⟨4, 0⟩ ⟨5, 0⟩ ⟨4, -1⟩ 1,
       Call.add_piece_range piece_type.buffered_join ⟨4, 0⟩
         (j ⟨5, -1⟩ ⟨4, 0⟩ ⟨5, 0⟩ ⟨4, -1⟩ 1),
       Call.add_piece_segment piece_type.buffered_segment ⟨4, 0⟩ ⟨0, 0⟩ ⟨4, -1⟩ ⟨0, -1⟩ false,
       Call.add_join 0 ⟨4, 0⟩ ⟨0, 0⟩ ⟨4, -1⟩ ⟨0, -1⟩ ⟨0, 4⟩ ⟨-1, 0⟩ ⟨-1, 4⟩
         buffer_side_selector.buffer_side_left,
       Call.line_line_intersection ⟨-1, 0⟩ ⟨-1, 4⟩ ⟨4, -1⟩ ⟨0, -1⟩,
       Call.distance_apply ⟨0, 0⟩ ⟨0, 4⟩ buffer_side_selector.buffer_side_left,
       Call.join_apply ⟨-1, -1⟩ ⟨0, 0⟩ ⟨0, -1⟩ ⟨-1, 0⟩ 1,
       Call.add_piece_range piece_type.buffered_join ⟨0, 0⟩
         (j ⟨-1, -1⟩ ⟨0, 0⟩ ⟨0, -1⟩ ⟨-1, 0⟩ 1)] := by
  simp [ring_tag.apply, ring_tag.iterate, buffer_range.iterate, buffer_range.iterate_loop,
    buffer_range.iterate_body, buffer_range.add_join, buffer_range.get_join_type, cartesian,
    buffer_side, strategy.side.side_by_triangle, square_cw, line_line_intersection,
    determinant]
  norm_num [sqrt_sixteen]

/-- The pieces of the ring policy on the clockwise square at distance `-1`. -/
theorem square_cw_negative_pieces (u : Unset)
    (j : Point → Point → Point → Point → ℚ → List Point)
    (e : Point → Point → Point → Point → buffer_side_selector → List Point) :
    ∃ T, ring_tag.apply (cartesian (-1) j e) u square_cw [] = some T ∧
      pieces T = [Piece.segment, Piece.concave, Piece.segment, Piece.concave,
        Piece.segment, Piece.concave, Piece.segment, Piece.concave] ∧
      segment_edges T = [(⟨0, 0⟩, ⟨4, 0⟩), (⟨4, 0⟩, ⟨4, 4⟩), (⟨4, 4⟩, ⟨0, 4⟩),
        (⟨0, 4⟩, ⟨0, 0⟩)] := by
  simp [ring_tag.apply, ring_tag.iterate, buffer_range.iterate, buffer_range.iterate_loop,
    buffer_range.iterate_body, buffer_range.add_join, buffer_range.get_join_type, cartesian,
    buffer_side, strategy.side.side_by_triangle, square_cw, pieces, Call.piece, segment_edges]

/-! ### The point policy -/

open strategy.buffer detail.buffer detail.buffer.buffer_range dispatch.buffer_inserter

/-- The loop of `generate_points` appends one point per iteration. -/
theorem generate_points_loop_length (M : Trig) (point : Point) (d diff : ℚ) (n : Nat) :
    ∀ (i : Nat) (a : ℚ) (first : Point) (range_out : List Point),
      (buffer_point.generate_points_loop M point d diff n i a first range_out).2.length =
        range_out.length + n := by
  induction n with
  | zero => intro i a first range_out; simp [buffer_point.generate_points_loop]
  | succ n ih =>
    intro i a first range_out
    simp only [buffer_point.generate_points_loop, ih, List.length_append,
      List.length_singleton]
    omega

/-- The loop keeps the points that were already in `range_out` in front. -/
theorem generate_points_loop_keeps (M : Trig) (point : Point) (d diff : ℚ) (n : Nat) :
    ∀ (i : Nat) (a : ℚ) (first : Point) (range_out : List Point),
      ∃ added, (buffer_point.generate_points_loop M point d diff n i a first range_out).2 =
        range_out ++ added := by
  induction n with
  | zero => intro i a first range_out; exact ⟨[], by simp [buffer_point.generate_points_loop]⟩
  | succ n ih =>
    intro i a first range_out
    obtain ⟨added, h⟩ := ih (i + 1) (a - diff)
      (if i = 0 then
        (⟨point.x + d * M.cos a, point.y + d * M.sin a⟩ : Point) else first)
      (range_out ++ [⟨point.x + d * M.cos a, point.y + d * M.sin a⟩])
    exact ⟨⟨point.x + d * M.cos a, point.y + d * M.sin a⟩ :: added, by
      simp only [buffer_point.generate_points_loop, h, List.append_assoc,
        List.singleton_append]⟩

/-- After its first iteration the loop leaves `first` as it is. -/
theorem generate_points_loop_first (M : Trig) (point : Point) (d diff : ℚ) (n : Nat) :
    ∀ (i : Nat) (a : ℚ) (first : Point) (range_out : List Point), i ≠ 0 →
      (buffer_point.generate_points_loop M point d diff n i a first range_out).1 = first := by
  induction n with
  | zero => intro i a first range_out _; simp [buffer_point.generate_points_loop]
  | succ n ih =>
    intro i a first range_out hi
    simp only [buffer_point.generate_points_loop, hi, if_false]
    exact ih (i + 1) (a - diff) first _ (by omega)

/-- `generate_points` after the first pass through its loop: vertex 0 is in
`range_out` and in `first`, 87 passes remain. -/
theorem generate_points_unfold (M : Trig) (u : Unset) (point : Point) (d : ℚ)
    (range_out : List Point) :
    buffer_point.generate_points M u point d range_out =
      (buffer_point.generate_points_loop M point d (2 * M.pi / ((88 : Nat) : ℚ)) 87 1
        (0 - 2 * M.pi / ((88 : Nat) : ℚ))
        ⟨point.x + d * M.cos 0, point.y + d * M.sin 0⟩
        (range_out ++ [⟨point.x + d * M.cos 0, point.y + d * M.sin 0⟩])).2 ++
      [(buffer_point.generate_points_loop M point d (2 * M.pi / ((88 : Nat) : ℚ)) 87 1
        (0 - 2 * M.pi / ((88 : Nat) : ℚ))
        ⟨point.x + d * M.cos 0, point.y + d * M.sin 0⟩
        (range_out ++ [⟨point.x + d * M.cos 0, point.y + d * M.sin 0⟩])).1] := rfl

/-! ### The policies only append to the collection -/

/-- The calls of `add_join` do not depend on the calls made before it. -/
theorem add_join_append (S : Strategies) (u : Unset) (c c' : List Call) (phase : Nat)
    (pen prev pp1 pp2 inp p1 p2 : Point) (side : buffer_side_selector) :
    add_join S u (c ++ c') phase pen prev pp1 pp2 inp p1 p2 side =
      c ++ add_join S u c' phase pen prev pp1 pp2 inp p1 p2 side := by
  unfold add_join
  by_cases h : get_join_type S pen prev inp = join_selector.join_convex
  · simp only [h, if_true]
    cases (S.line_line_intersection p1 p2 pp1 pp2 u.intersection_point).1 <;>
      simp only [List.append_assoc]
  · simp only [h, if_false]
    cases hj : get_join_type S pen prev inp <;> simp_all [List.append_assoc]

theorem iterate_body_prepend (S : Strategies) (u : Unset) (phase : Nat)
    (side : buffer_side_selector) (c : List Call) (w : Walk) (it : Point) :
    iterate_body S u phase side (prepend_calls c w) it =
      prepend_calls c (iterate_body S u phase side w it) := by
  by_cases hr : w.previous_robust_input = S.recalculate it
  · rw [iterate_body_skip S u phase side w it hr,
      iterate_body_skip S u phase side (prepend_calls c w) it hr]
    rfl
  · cases hf : w.first
    · rw [iterate_body_next S u phase side w it hr hf,
        iterate_body_next S u phase side (prepend_calls c w) it hr hf]
      simp only [prepend_calls, List.append_assoc, add_join_append]
    · rw [iterate_body_first S u phase side w it hr hf,
        iterate_body_first S u phase side (prepend_calls c w) it hr hf]
      simp only [prepend_calls, List.append_assoc]

/-- The loop of `buffer_range::iterate` only appends to the collection, and what
it appends and returns does not depend on the calls made before it. -/
theorem iterate_loop_prepend (S : Strategies) (u : Unset) (phase : Nat)
    (side : buffer_side_selector) (c : List Call) (rest : List Point) :
    ∀ w : Walk, iterate_loop S u phase side (prepend_calls c w) rest =
      prepend_calls c (iterate_loop S u phase side w rest) := by
  induction rest with
  | nil => intro w; rfl
  | cons it rest ih =>
    intro w
    simp only [iterate_loop, iterate_body_prepend, ih]

theorem iterate_append (S : Strategies) (u : Unset) (c c' : List Call) (phase : Nat)
    (range : List Point) (side : buffer_side_selector)
    (first_p1 first_p2 last_p1 last_p2 : Point) :
    buffer_range.iterate S u (c ++ c') phase range side first_p1 first_p2 last_p1 last_p2 =
      (buffer_range.iterate S u c' phase range side first_p1 first_p2 last_p1
        last_p2).map (prepend_calls c) := by
  cases range with
  | nil => rfl
  | cons b rest =>
    simp only [iterate_cons, Option.map_some']
    rw [← iterate_loop_prepend]
    rfl

/-- The ring walk only appends to the collection; what it appends does not
depend on the calls made before it. -/
theorem ring_iterate_append (S : Strategies) (u : Unset) (c c' : List Call)
    (range : List Point) (side : buffer_side_selector) :
    ring_tag.iterate S u (c ++ c') range side =
      (ring_tag.iterate S u c' range side).map (c ++ ·) := by
  simp only [ring_tag.iterate]
  rw [iterate_append S u c c']
  cases buffer_range.iterate S u c' 0 range side u.first_p1 u.first_p2 u.last_p1 u.last_p2 with
  | none => rfl
  | some w =>
    simp only [Option.map_some']
    cases range.dropLast.getLast? <;> cases range.getLast? <;> cases range.tail.head? <;>
      simp [prepend_calls, add_join_append]

/-- The ring policy only appends to the collection; what it appends does not
depend on the calls made before it. -/
theorem ring_apply_append (S : Strategies) (u : Unset) (ring : List Point)
    (c c' : List Call) :
    ring_tag.apply S u ring (c ++ c') = (ring_tag.apply S u ring c').map (c ++ ·) := by
  unfold ring_tag.apply
  by_cases h : ring.length > 3
  · simp only [h, if_true, List.append_assoc]
    cases S.distance_negative <;> simp [ring_iterate_append]
  · simp [h]

theorem linestring_iterate_append (S : Strategies) (u : Unset) (c c' : List Call)
    (phase : Nat) (range : List Point) (side : buffer_side_selector) (first_p1 : Point) :
    linestring_tag.iterate S u (c ++ c') phase range side first_p1 =
      (linestring_tag.iterate S u c' phase range side first_p1).map
        (fun r => (c ++ r.1, r.2)) := by
  unfold linestring_tag.iterate
  cases range.getLast? with
  | none => rfl
  | some ult =>
    cases range.dropLast.getLast? with
    | none => rfl
    | some pen =>
      by_cases hs : side = buffer_side_selector.buffer_side_right
      · simp only [hs, if_true]
        rw [iterate_append S u c c']
        cases buffer_range.iterate S u c' phase range buffer_side_selector.buffer_side_right
          first_p1 u.first_p2 u.last_p1 u.last_p2 <;>
          simp [prepend_calls]
      · simp only [hs, if_false, List.append_assoc]
        rw [iterate_append S u c
          (c' ++ [Call.buffer_side_apply ult pen buffer_side_selector.buffer_side_right])]
        cases buffer_range.iterate S u
          (c' ++ [Call.buffer_side_apply ult pen buffer_side_selector.buffer_side_right])
          phase range side first_p1 u.first_p2 u.last_p1 u.last_p2 <;>
          simp [prepend_calls]

/-- The linestring policy only appends to the collection; what it appends does
not depend on the calls made before it. -/
theorem linestring_apply_append (S : Strategies) (u : Unset) (linestring : List Point)
    (c c' : List Call) :
    linestring_tag.apply S u linestring (c ++ c') =
      (linestring_tag.apply S u linestring c').map (c ++ ·) := by
  unfold linestring_tag.apply
  by_cases h : linestring.length > 1
  · simp only [h, if_true, List.append_assoc]
    rw [linestring_iterate_append S u c
      (c' ++ [Call.simplify linestring S.simplify_distance, Call.start_new_ring])]
    cases h0 : linestring_tag.iterate S u
      (c' ++ [Call.simplify linestring S.simplify_distance, Call.start_new_ring]) 0
      (S.simplify linestring S.simplify_distance) buffer_side_selector.buffer_side_left
      u.first_p1 with
    | none => rfl
    | some r0 =>
      simp only [Option.map_some']
      rw [linestring_iterate_append S u c r0.1]
      cases linestring_tag.iterate S u r0.1 1
        (S.simplify linestring S.simplify_distance).reverse
        buffer_side_selector.buffer_side_right r0.2 <;> rfl
  · simp [h]

theorem point_apply_append (S : Strategies) (M : Trig) (u : Unset) (point : Point)
    (c c' : List Call) :
    point_tag.apply S M u point (c ++ c') = c ++ point_tag.apply S M u point c' := by
  simp [point_tag.apply, buffer_point.generate_circle, List.append_assoc]

theorem polygon_iterate_append (S : Strategies) (u : Unset) (rings : List (List Point)) :
    ∀ c c' : List Call, polygon_tag.iterate S u rings (c ++ c') =
      (polygon_tag.iterate S u rings c').map (c ++ ·) := by
  induction rings with
  | nil => intro c c'; rfl
  | cons it rest ih =>
    intro c c'
    simp only [polygon_tag.iterate, List.append_assoc]
    rw [ring_apply_append S u it c (c' ++ [Call.start_new_ring])]
    cases ring_tag.apply S u it (c' ++ [Call.start_new_ring]) with
    | none => rfl
    | some r => simp only [Option.map_some', ih]

/-- The polygon policy only appends to the collection; what it appends does not
depend on the calls made before it. -/
theorem polygon_apply_append (S : Strategies) (u : Unset) (exterior : List Point)
    (interiors : List (List Point)) (c c' : List Call) :
    polygon_tag.apply S u exterior interiors (c ++ c') =
      (polygon_tag.apply S u exterior interiors c').map (c ++ ·) := by
  simp only [polygon_tag.apply, polygon_tag.apply_interior_rings, List.append_assoc]
  rw [ring_apply_append S u exterior c (c' ++ [Call.start_new_ring])]
  cases ring_tag.apply S u exterior (c' ++ [Call.start_new_ring]) with
  | none => rfl
  | some r => simp only [Option.map_some', polygon_iterate_append]

/-! ### The calls of the piece generation -/

theorem of_walk_not_top_level (side : buffer_side_selector) (x : Call)
    (h : x.of_walk side) : x.is_top_level = false := by
  cases x <;> simp_all [Call.of_walk, Call.is_top_level]

theorem of_walk_ne_start_new_ring (side : buffer_side_selector) (x : Call)
    (h : x.of_walk side) : x ≠ Call.start_new_ring := by
  cases x <;> simp_all [Call.of_walk]

/-- Every call of the ring policy is the simplification of the ring or a walk
call. -/
theorem ring_apply_calls (S : Strategies) (u : Unset) (ring : List Point)
    (R : List Call) (h : ring_tag.apply S u ring [] = some R) :
    ∀ x ∈ R, x.of_ring_policy ring := by
  unfold ring_tag.apply at h
  by_cases hlen : ring.length > 3
  · simp only [hlen, if_true, List.nil_append] at h
    have key : ∀ range side, ring_tag.iterate S u
        [Call.simplify ring S.simplify_distance] range side = some R →
        ∀ x ∈ R, x.of_ring_policy ring := by
      intro range side hi
      have happ := ring_iterate_append S u [Call.simplify ring S.simplify_distance] []
        range side
      rw [List.append_nil, hi] at happ
      cases hT : ring_tag.iterate S u [] range side with
      | none => rw [hT] at happ; simp at happ
      | some T =>
        rw [hT] at happ
        simp only [Option.map_some', Option.some.injEq] at happ
        have hw := ring_iterate_of_walk S u [] range side T (by simpa using hT)
        rw [happ]
        intro x hmem
        simp only [List.singleton_append, List.mem_cons] at hmem
        rcases hmem with rfl | hmem
        · exact Or.inl ⟨_, rfl⟩
        · exact Or.inr ⟨side, hw x hmem⟩
    cases hneg : S.distance_negative
    · rw [hneg] at h; exact key _ _ h
    · rw [hneg] at h; exact key _ _ h
  · simp only [hlen, if_false, Option.some.injEq] at h
    rw [← h]
    simp

/-- The calls of the ring policy are the simplification and walk calls: it never
starts a new ring. -/
theorem ring_apply_no_start_new_ring (S : Strategies) (u : Unset) (ring : List Point)
    (R : List Call) (h : ring_tag.apply S u ring [] = some R) :
    Call.start_new_ring ∉ R := by
  intro hmem
  rcases ring_apply_calls S u ring R h _ hmem with ⟨d, hd⟩ | ⟨side, hs⟩
  · simp at hd
  · exact of_walk_ne_start_new_ring side _ hs rfl

theorem ring_apply_not_top_level (S : Strategies) (u : Unset) (ring : List Point)
    (R : List Call) (h : ring_tag.apply S u ring [] = some R) :
    ∀ x ∈ R, x.is_top_level = false := by
  intro x hmem
  rcases ring_apply_calls S u ring R h x hmem with ⟨d, rfl⟩ | ⟨side, hs⟩
  · rfl
  · exact of_walk_not_top_level side x hs

/-- One pass of the linestring policy makes no top-level call. -/
theorem linestring_iterate_not_top_level (S : Strategies) (u : Unset) (c : List Call)
    (phase : Nat) (range : List Point) (side : buffer_side_selector) (first_p1 : Point)
    (r : List Call × Point)
    (h : linestring_tag.iterate S u c phase range side first_p1 = some r)
    (hc : ∀ x ∈ c, x.is_top_level = false) :
    ∀ x ∈ r.1, x.is_top_level = false := by
  cases range with
  | nil => simp [linestring_tag.iterate] at h
  | cons b rest =>
    cases hult : (b :: rest).getLast? with
    | none => simp [linestring_tag.iterate, hult] at h
    | some ult =>
      cases hpen : (b :: rest).dropLast.getLast? with
      | none => simp [linestring_tag.iterate, hult, hpen] at h
      | some pen =>
        rw [linestring_iterate_cons S u c phase b rest side first_p1 pen ult hpen hult,
          Option.some.injEq] at h
        obtain ⟨W, hW, hWw⟩ := iterate_loop_of_walk S u phase side rest
          (walk_start S u
            (if side = buffer_side_selector.buffer_side_right then c
              else c ++ [Call.buffer_side_apply ult pen
                buffer_side_selector.buffer_side_right])
            b first_p1 u.first_p2 u.last_p1 u.last_p2)
        rw [← h]
        intro x hmem
        simp only [List.mem_append, List.mem_cons, List.mem_singleton,
          List.not_mem_nil, or_false] at hmem
        rw [hW] at hmem
        rcases hmem with hmem | rfl | rfl
        · simp only [List.mem_append] at hmem
          rcases hmem with hmem | hmem
          · simp only [walk_start] at hmem
            by_cases hs : side = buffer_side_selector.buffer_side_right
            · simp only [hs, if_true] at hmem
              exact hc x hmem
            · simp only [hs, if_false, List.mem_append, List.mem_singleton] at hmem
              rcases hmem with hmem | rfl
              · exact hc x hmem
              · rfl
          · exact of_walk_not_top_level side x (hWw x hmem)
        · rfl
        · rfl

theorem linestring_apply_not_top_level (S : Strategies) (u : Unset)
    (linestring : List Point) (R : List Call)
    (h : linestring_tag.apply S u linestring [] = some R) :
    ∀ x ∈ R, x.is_top_level = false := by
  unfold linestring_tag.apply at h
  by_cases hlen : linestring.length > 1
  · simp only [hlen, if_true, List.nil_append] at h
    cases h0 : linestring_tag.iterate S u
        [Call.simplify linestring S.simplify_distance, Call.start_new_ring] 0
        (S.simplify linestring S.simplify_distance) buffer_side_selector.buffer_side_left
        u.first_p1 with
    | none => rw [h0] at h; simp at h
    | some r0 =>
      rw [h0] at h
      simp only [] at h
      cases h1 : linestring_tag.iterate S u r0.1 1
          (S.simplify linestring S.simplify_distance).reverse
          buffer_side_selector.buffer_side_right r0.2 with
      | none => rw [h1] at h; simp at h
      | some r1 =>
        rw [h1] at h
        simp only [Option.some.injEq] at h
        rw [← h]
        refine linestring_iterate_not_top_level S u _ 1 _ _ _ r1 h1 ?_
        refine linestring_iterate_not_top_level S u _ 0 _ _ _ r0 h0 ?_
        intro x hmem
        simp only [List.mem_cons, List.mem_singleton, List.not_mem_nil, or_false] at hmem
        rcases hmem with rfl | rfl <;> rfl
  · simp only [hlen, if_false, Option.some.injEq] at h
    rw [← h]
    simp

theorem polygon_iterate_not_top_level (S : Strategies) (u : Unset)
    (rings : List (List Point)) :
    ∀ (c R : List Call), polygon_tag.iterate S u rings c = some R →
      (∀ x ∈ c, x.is_top_level = false) → ∀ x ∈ R, x.is_top_level = false := by
  induction rings with
  | nil =>
    intro c R h hc
    simp only [polygon_tag.iterate, Option.some.injEq] at h
    rw [← h]; exact hc
  | cons it rest ih =>
    intro c R h hc
    simp only [polygon_tag.iterate] at h
    have happ := ring_apply_append S u it (c ++ [Call.start_new_ring]) []
    rw [List.append_nil] at happ
    rw [happ] at h
    cases hR : ring_tag.apply S u it [] with
    | none => rw [hR] at h; simp at h
    | some R1 =>
      rw [hR] at h
      simp only [Option.map_some'] at h
      refine ih _ R h ?_
      intro x hmem
      simp only [List.mem_append, List.mem_singleton] at hmem
      rcases hmem with (hmem | rfl) | hmem
      · exact hc x hmem
      · rfl
      · exact ring_apply_not_top_level S u it R1 hR x hmem

theorem polygon_apply_not_top_level (S : Strategies) (u : Unset) (exterior : List Point)
    (interiors : List (List Point)) (R : List Call)
    (h : polygon_tag.apply S u exterior interiors [] = some R) :
    ∀ x ∈ R, x.is_top_level = false := by
  simp only [polygon_tag.apply, polygon_tag.apply_interior_rings, List.nil_append] at h
  have happ := ring_apply_append S u exterior [Call.start_new_ring] []
  rw [List.append_nil] at happ
  rw [happ] at h
  cases hR : ring_tag.apply S u exterior [] with
  | none => rw [hR] at h; simp at h
  | some R1 =>
    rw [hR] at h
    simp only [Option.map_some'] at h
    refine polygon_iterate_not_top_level S u interiors _ R h ?_
    intro x hmem
    simp only [List.mem_append, List.mem_singleton] at hmem
    rcases hmem with rfl | hmem
    · rfl
    · exact ring_apply_not_top_level S u exterior R1 hR x hmem

theorem buffer_multi_not_top_level {α : Type}
    (policy : α → List Call → Option (List Call))
    (hpol : ∀ x c, policy x c = (policy x []).map (c ++ ·))
    (hgen : ∀ x R, policy x [] = some R → ∀ y ∈ R, y.is_top_level = false)
    (multi : List α) :
    ∀ (c R : List Call), buffer_multi.apply policy multi c = some R →
      (∀ y ∈ c, y.is_top_level = false) → ∀ y ∈ R, y.is_top_level = false := by
  induction multi with
  | nil =>
    intro c R h hc
    simp only [buffer_multi.apply, Option.some.injEq] at h
    rw [← h]; exact hc
  | cons it rest ih =>
    intro c R h hc
    simp only [buffer_multi.apply] at h
    rw [hpol] at h
    cases hR : policy it [] with
    | none => rw [hR] at h; simp at h
    | some R1 =>
      rw [hR] at h
      simp only [Option.map_some'] at h
      refine ih _ R h ?_
      intro y hmem
      simp only [List.mem_append] at hmem
      rcases hmem with hmem | hmem
      · exact hc y hmem
      · exact hgen it R1 hR y hmem

/-- The piece generation makes no top-level call: no post-processing of the
collection and no invocation of the visitor. -/
theorem apply_by_tag_not_top_level (S : Strategies) (M : Trig) (u : Unset)
    (g : Geometry) (R : List Call) (h : apply_by_tag S M u g [] = some R) :
    ∀ x ∈ R, x.is_top_level = false := by
  cases g with
  | point p =>
    simp only [apply_by_tag, Option.some.injEq] at h
    rw [← h]
    intro x hmem
    simp only [point_tag.apply, buffer_point.generate_circle, List.nil_append,
      List.singleton_append, List.mem_cons, List.not_mem_nil, or_false] at hmem
    rcases hmem with rfl | rfl | rfl <;> rfl
  | linestring l => exact linestring_apply_not_top_level S u l R h
  | ring r => exact ring_apply_not_top_level S u r R h
  | polygon e i => exact polygon_apply_not_top_level S u e i R h
  | multi_point ps =>
    refine buffer_multi_not_top_level (fun p c => some (point_tag.apply S M u p c))
      (fun p c' => by
        have := point_apply_append S M u p c' []
        rw [List.append_nil] at this
        simp [this]) ?_ ps [] R h (by simp)
    intro p R1 hR1 y hmem
    simp only [Option.some.injEq] at hR1
    rw [← hR1] at hmem
    simp only [point_tag.apply, buffer_point.generate_circle, List.nil_append,
      List.singleton_append, List.mem_cons, List.not_mem_nil, or_false] at hmem
    rcases hmem with rfl | rfl | rfl <;> rfl
  | multi_linestring ls =>
    exact buffer_multi_not_top_level (fun l c => linestring_tag.apply S u l c)
      (fun l c' => by
        have := linestring_apply_append S u l c' []
        rw [List.append_nil] at this
        exact this)
      (fun l R1 hR1 => linestring_apply_not_top_level S u l R1 hR1) ls [] R h (by simp)
  | multi_polygon polys =>
    exact buffer_multi_not_top_level
      (fun (poly : List Point × List (List Point)) c =>
        polygon_tag.apply S u poly.1 poly.2 c)
      (fun poly c' => by
        have := polygon_apply_append S u poly.1 poly.2 c' []
        rw [List.append_nil] at this
        exact this)
      (fun poly R1 hR1 => polygon_apply_not_top_level S u poly.1 poly.2 R1 hR1)
      polys [] R h (by simp)

theorem visits_of_generation (R : List Call) (h : ∀ x ∈ R, x.is_top_level = false) :
    visits R = [] := by
  induction R with
  | nil => rfl
  | cons x R ih =>
    have hx := h x (List.mem_cons_self _ _)
    have hR := ih (fun y hy => h y (List.mem_cons_of_mem _ hy))
    cases x <;> simp_all [visits, Call.is_top_level]

/-! ### The polygon and multi policies -/

theorem polygon_iterate_calls (S : Strategies) (u : Unset) (rings : List (List Point))
    (Rs : List (List Call))
    (h : List.Forall₂ (fun ring R => ring_tag.apply S u ring [] = some R) rings Rs) :
    ∀ c : List Call, polygon_tag.iterate S u rings c =
      some (c ++ (Rs.map (fun R => Call.start_new_ring :: R)).flatten) := by
  induction h with
  | nil => intro c; simp [polygon_tag.iterate]
  | cons hR _ ih =>
    intro c
    simp only [polygon_tag.iterate]
    have happ := ring_apply_append S u ‹_› (c ++ [Call.start_new_ring]) []
    rw [List.append_nil, hR] at happ
    rw [happ]
    simp [ih, List.append_assoc]

theorem count_start_new_ring_flatten (Rs : List (List Call))
    (h : ∀ R ∈ Rs, Call.start_new_ring ∉ R) :
    ((Rs.map (fun R => Call.start_new_ring :: R)).flatten).count Call.start_new_ring =
      Rs.length := by
  induction Rs with
  | nil => simp
  | cons R Rs ih =>
    have h1 : R.count Call.start_new_ring = 0 :=
      List.count_eq_zero.mpr (h R (List.mem_cons_self _ _))
    simp only [List.map_cons, List.flatten_cons, List.cons_append, List.count_cons_self,
      List.count_append, h1, List.length_cons,
      ih (fun R' hR' => h R' (List.mem_cons_of_mem _ hR'))]
    omega

theorem forall₂_right_mem {α β : Type} (P : α → β → Prop) (xs : List α) (ys : List β)
    (h : List.Forall₂ P xs ys) : ∀ y ∈ ys, ∃ x, P x y := by
  induction h with
  | nil => intro y hy; simp at hy
  | cons hab _ ih =>
    intro y hy
    rcases List.mem_cons.mp hy with rfl | hmem
    · exact ⟨_, hab⟩
    · exact ih y hmem

/-- Processing the concatenation of two element lists is processing the first
list and then the second on the same collection. -/
theorem buffer_multi_apply_concat {α : Type} (policy : α → List Call → Option (List Call))
    (l1 l2 : List α) :
    ∀ c : List Call, buffer_multi.apply policy (l1 ++ l2) c =
      (buffer_multi.apply policy l1 c).bind (buffer_multi.apply policy l2) := by
  induction l1 with
  | nil => intro c; rfl
  | cons x l1 ih =>
    intro c
    simp only [List.cons_append, buffer_multi.apply]
    cases policy x c with
    | none => rfl
    | some c1 => exact ih c1

/-- With a policy that only appends, and appends the same calls whatever was
called before, the calls of `buffer_multi::apply` are the concatenation, in
input order, of the calls of the policy for each element. -/
theorem buffer_multi_apply_calls {α : Type} (policy : α → List Call → Option (List Call))
    (hpol : ∀ x c, policy x c = (policy x []).map (c ++ ·))
    (multi : List α) (Rs : List (List Call))
    (h : List.Forall₂ (fun x R => policy x [] = some R) multi Rs) :
    ∀ c : List Call, buffer_multi.apply policy multi c = some (c ++ Rs.flatten) := by
  induction h with
  | nil => intro c; simp [buffer_multi.apply]
  | cons hR _ ih =>
    intro c
    simp only [buffer_multi.apply]
    rw [hpol, hR]
    simp [ih, List.append_assoc]

/-! ### The walk, edge by edge -/

theorem last_offsets_cons (S : Strategies) (side : buffer_side_selector)
    (e : Point × Point) (es : List (Point × Point)) (d : Point × Point) :
    last_offsets S side (e :: es) d =
      last_offsets S side es (S.buffer_side_apply e.1 e.2 side) := by
  cases es with
  | nil => simp [last_offsets]
  | cons e' es =>
    simp only [last_offsets, List.getLast?_cons_cons]
    rw [List.getLast?_eq_getLast (e' :: es) (by simp)]

/-- The loop of `buffer_range::iterate`, spelled out: the calls it appends are
the walk calls of its retained edges, and it returns the offset end points of
the first retained edge (when it starts in the state `first`) and of the last
retained edge. -/
theorem iterate_loop_trace (S : Strategies) (u : Unset) (phase : Nat)
    (side : buffer_side_selector) (rest : List Point) :
    ∀ w : Walk,
      (iterate_loop S u phase side w rest).collection =
        w.collection ++
          (if w.first = true then
            walk_calls S u phase side
              (retained_edge_list S w.prev w.previous_robust_input rest)
          else walk_calls_after S u phase side w.penultimate_point w.last_p1 w.last_p2
            (retained_edge_list S w.prev w.previous_robust_input rest)) ∧
      ((iterate_loop S u phase side w rest).first_p1,
        (iterate_loop S u phase side w rest).first_p2) =
        (if w.first = true then
          first_offsets S side (retained_edge_list S w.prev w.previous_robust_input rest)
            (w.first_p1, w.first_p2)
        else (w.first_p1, w.first_p2)) ∧
      ((iterate_loop S u phase side w rest).last_p1,
        (iterate_loop S u phase side w rest).last_p2) =
        last_offsets S side (retained_edge_list S w.prev w.previous_robust_input rest)
          (w.last_p1, w.last_p2) := by
  induction rest with
  | nil =>
    intro w
    simp [iterate_loop, retained_edge_list, walk_calls, walk_calls_after, first_offsets,
      last_offsets]
  | cons it rest ih =>
    intro w
    simp only [iterate_loop]
    by_cases hr : w.previous_robust_input = S.recalculate it
    · have ih' := ih (iterate_body S u phase side w it)
      rw [iterate_body_skip S u phase side w it hr] at ih' ⊢
      simpa [retained_edge_list, hr] using ih'
    · cases hf : w.first
      · have ih' := ih (iterate_body S u phase side w it)
        rw [iterate_body_next S u phase side w it hr hf] at ih' ⊢
        obtain ⟨h1, h2, h3⟩ := ih'
        refine ⟨?_, ?_, ?_⟩
        · rw [h1]
          have hj := add_join_append S u
            (w.collection ++ [Call.buffer_side_apply w.prev it side]) [] phase
            w.penultimate_point w.prev w.last_p1 w.last_p2 it
            (S.buffer_side_apply w.prev it side).1 (S.buffer_side_apply w.prev it side).2 side
          rw [List.append_nil] at hj
          simp [retained_edge_list, hr, walk_calls_after, hj, segment_piece,
            List.append_assoc]
        · simpa using h2
        · rw [h3]
          simp [retained_edge_list, hr, last_offsets_cons]
      · have ih' := ih (iterate_body S u phase side w it)
        rw [iterate_body_first S u phase side w it hr hf] at ih' ⊢
        obtain ⟨h1, h2, h3⟩ := ih'
        refine ⟨?_, ?_, ?_⟩
        · rw [h1]
          simp [retained_edge_list, hr, walk_calls, segment_piece, List.append_assoc]
        · simp only [reduceCtorEq, if_false] at h2
          rw [h2]
          simp [retained_edge_list, hr, first_offsets]
        · rw [h3]
          simp [retained_edge_list, hr, last_offsets_cons]

theorem add_join_no_segment (S : Strategies) (u : Unset) (phase : Nat)
    (pen prev pp1 pp2 inp p1 p2 : Point) (side : buffer_side_selector) :
    (buffer_range.add_join S u [] phase pen prev pp1 pp2 inp p1 p2 side).filter
      Call.is_segment = [] := by
  unfold buffer_range.add_join
  by_cases h : buffer_range.get_join_type S pen prev inp = join_selector.join_convex
  · simp only [h, if_true]
    cases (S.line_line_intersection p1 p2 pp1 pp2 u.intersection_point).1 <;>
      simp [Call.is_segment, List.filter_cons]
  · simp only [h, if_false]
    cases hj : buffer_range.get_join_type S pen prev inp <;>
      simp_all [Call.is_segment, List.filter_cons]

theorem add_join_skeleton (S : Strategies) (u : Unset) (phase : Nat)
    (pen prev pp1 pp2 inp p1 p2 : Point) (side : buffer_side_selector) :
    (buffer_range.add_join S u [] phase pen prev pp1 pp2 inp p1 p2 side).filter
      Call.is_skeleton = [Call.add_join phase pen prev pp1 pp2 inp p1 p2 side] := by
  unfold buffer_range.add_join
  by_cases h : buffer_range.get_join_type S pen prev inp = join_selector.join_convex
  · simp only [h, if_true]
    cases (S.line_line_intersection p1 p2 pp1 pp2 u.intersection_point).1 <;>
      simp [Call.is_skeleton, List.filter_cons]
  · simp only [h, if_false]
    cases hj : buffer_range.get_join_type S pen prev inp <;>
      simp_all [Call.is_skeleton, List.filter_cons]

theorem add_join_nil_counts (S : Strategies) (u : Unset) (phase : Nat)
    (pen prev pp1 pp2 inp p1 p2 : Point) (side : buffer_side_selector) :
    segment_edges (buffer_range.add_join S u [] phase pen prev pp1 pp2 inp p1 p2 side)
      = [] ∧
    join_classifications
      (buffer_range.add_join S u [] phase pen prev pp1 pp2 inp p1 p2 side) = 1 := by
  obtain ⟨J, hJ, h1, h2⟩ := add_join_counts S u [] phase pen prev pp1 pp2 inp p1 p2 side
  rw [hJ, List.nil_append]
  exact ⟨h1, h2⟩

theorem walk_calls_after_segments (S : Strategies) (u : Unset) (phase : Nat)
    (side : buffer_side_selector) (es : List (Point × Point)) :
    ∀ pen l1 l2, (walk_calls_after S u phase side pen l1 l2 es).filter Call.is_segment =
      es.map fun e => segment_piece S side e false := by
  induction es with
  | nil => intro pen l1 l2; rfl
  | cons e es ih =>
    intro pen l1 l2
    simp only [walk_calls_after, List.filter_append, add_join_no_segment, ih]
    simp [List.filter_cons, Call.is_segment, segment_piece]

theorem walk_calls_segments (S : Strategies) (u : Unset) (phase : Nat)
    (side : buffer_side_selector) (es : List (Point × Point)) :
    (walk_calls S u phase side es).filter Call.is_segment = segment_pieces S side es := by
  cases es with
  | nil => rfl
  | cons e es =>
    simp only [walk_calls, List.filter_append, walk_calls_after_segments, segment_pieces]
    simp [List.filter_cons, Call.is_segment, segment_piece]

theorem walk_calls_after_skeleton (S : Strategies) (u : Unset) (phase : Nat)
    (side : buffer_side_selector) (es : List (Point × Point)) :
    ∀ e0 : Point × Point,
      (walk_calls_after S u phase side e0.1 (S.buffer_side_apply e0.1 e0.2 side).1
        (S.buffer_side_apply e0.1 e0.2 side).2 es).filter Call.is_skeleton =
      skeleton_after S phase side e0 es := by
  induction es with
  | nil => intro e0; rfl
  | cons e es ih =>
    intro e0
    simp only [walk_calls_after, List.filter_append, add_join_skeleton, ih, skeleton_after,
      join_between]
    simp [List.filter_cons, Call.is_skeleton, segment_piece]

theorem walk_calls_skeleton (S : Strategies) (u : Unset) (phase : Nat)
    (side : buffer_side_selector) (es : List (Point × Point)) :
    (walk_calls S u phase side es).filter Call.is_skeleton = skeleton S phase side es := by
  cases es with
  | nil => rfl
  | cons e es =>
    simp only [walk_calls, List.filter_append, walk_calls_after_skeleton, skeleton]
    simp [List.filter_cons, Call.is_skeleton, segment_piece]

theorem walk_calls_after_counts (S : Strategies) (u : Unset) (phase : Nat)
    (side : buffer_side_selector) (es : List (Point × Point)) :
    ∀ pen l1 l2, segment_edges (walk_calls_after S u phase side pen l1 l2 es) = es ∧
      join_classifications (walk_calls_after S u phase side pen l1 l2 es) = es.length := by
  induction es with
  | nil => intro pen l1 l2; exact ⟨rfl, rfl⟩
  | cons e es ih =>
    intro pen l1 l2
    obtain ⟨h1, h2⟩ := ih e.1 (S.buffer_side_apply e.1 e.2 side).1
      (S.buffer_side_apply e.1 e.2 side).2
    obtain ⟨j1, j2⟩ := add_join_nil_counts S u phase pen e.1 l1 l2 e.2
      (S.buffer_side_apply e.1 e.2 side).1 (S.buffer_side_apply e.1 e.2 side).2 side
    simp only [walk_calls_after, segment_edges_append, join_classifications_append, h1, h2,
      j1, j2]
    constructor
    · simp [segment_edges, segment_piece]
    · simp [join_classifications, segment_piece]
      omega

theorem walk_calls_counts (S : Strategies) (u : Unset) (phase : Nat)
    (side : buffer_side_selector) (es : List (Point × Point)) :
    segment_edges (walk_calls S u phase side es) = es ∧
      join_classifications (walk_calls S u phase side es) = es.length - 1 := by
  cases es with
  | nil => exact ⟨rfl, rfl⟩
  | cons e es =>
    obtain ⟨h1, h2⟩ := walk_calls_after_counts S u phase side es e.1
      (S.buffer_side_apply e.1 e.2 side).1 (S.buffer_side_apply e.1 e.2 side).2
    simp only [walk_calls, segment_edges_append, join_classifications_append, h1, h2]
    constructor
    · simp [segment_edges, segment_piece]
    · simp [join_classifications, segment_piece]

/-- The retained edges end at the points whose robust image differs from that of
the point before them, in the order of the range. -/
theorem retained_edge_list_ends (S : Strategies) (rest : List Point) :
    ∀ prev q : Point, (retained_edge_list S prev (S.recalculate q) rest).map Prod.snd =
      (((q :: rest).zip rest).filter fun e =>
        decide (S.recalculate e.1 ≠ S.recalculate e.2)).map Prod.snd := by
  induction rest with
  | nil => intro prev q; rfl
  | cons p rest ih =>
    intro prev q
    by_cases h : S.recalculate q = S.recalculate p
    · simp [retained_edge_list, h, ih prev p]
    · simp [retained_edge_list, h, ih p p, List.filter_cons]

/-- Every retained edge starts at the last retained point: the first at `prev`,
the others at the end of the edge before. -/
theorem retained_edge_list_starts (S : Strategies) (rest : List Point) :
    ∀ (prev : Point) (r : RobustPoint),
      (retained_edge_list S prev r rest).map Prod.fst =
        (prev :: (retained_edge_list S prev r rest).map Prod.snd).dropLast := by
  induction rest with
  | nil => intro prev r; rfl
  | cons p rest ih =>
    intro prev r
    by_cases h : r = S.recalculate p
    · simp only [retained_edge_list, h, ne_eq, not_true_eq_false, if_false]
      exact ih prev (S.recalculate p)
    · simp only [retained_edge_list, h, ne_eq, not_false_eq_true, if_true, List.map_cons,
        List.dropLast_cons₂]
      rw [ih p (S.recalculate p)]

theorem retained_edge_list_length (S : Strategies) (rest : List Point) :
    ∀ (prev : Point) (r : RobustPoint),
      (retained_edge_list S prev r rest).length = retained_from S r rest := by
  induction rest with
  | nil => intro prev r; rfl
  | cons p rest ih =>
    intro prev r
    by_cases h : r = S.recalculate p
    · simp [retained_edge_list, retained_from, h, ih]
    · simp [retained_edge_list, retained_from, h, ih]
      omega

/-- Consecutive retained edges share a vertex. -/
theorem retained_edge_list_chain (S : Strategies) (rest : List Point) :
    ∀ (prev : Point) (r : RobustPoint),
      List.Chain (fun e e' : Point × Point => e.2 = e'.1) (prev, prev)
        (retained_edge_list S prev r rest) := by
  induction rest with
  | nil => intro prev r; exact List.Chain.nil
  | cons p rest ih =>
    intro prev r
    by_cases h : r = S.recalculate p
    · simp only [retained_edge_list, h, ne_eq, not_true_eq_false, if_false]
      exact ih prev (S.recalculate p)
    · simp only [retained_edge_list, h, ne_eq, not_false_eq_true, if_true]
      refine List.Chain.cons rfl ?_
      have := ih p (S.recalculate p)
      cases hE : retained_edge_list S p (S.recalculate p) rest with
      | nil => exact List.Chain.nil
      | cons e es =>
        rw [hE] at this
        cases this with
        | cons h1 h2 => exact List.Chain.cons h1 h2

/-- The calls of `buffer_range::iterate` on a non-empty range are the walk calls
of its retained edges; its first and last offsets are those of the first and
last retained edge. -/
theorem iterate_trace (S : Strategies) (u : Unset) (c : List Call) (phase : Nat)
    (b : Point) (rest : List Point) (side : buffer_side_selector)
    (f1 f2 l1 l2 : Point) :
    ∃ w, buffer_range.iterate S u c phase (b :: rest) side f1 f2 l1 l2 = some w ∧
      w.collection = c ++ walk_calls S u phase side
        (retained_edge_list S b (S.recalculate b) rest) ∧
      (w.first_p1, w.first_p2) = first_offsets S side
        (retained_edge_list S b (S.recalculate b) rest) (f1, f2) ∧
      (w.last_p1, w.last_p2) = last_offsets S side
        (retained_edge_list S b (S.recalculate b) rest) (l1, l2) := by
  refine ⟨_, iterate_cons S u c phase b rest side f1 f2 l1 l2, ?_⟩
  have h := iterate_loop_trace S u phase side rest (walk_start S u c b f1 f2 l1 l2)
  simpa [walk_start] using h

/-! ### A ring whose closing point is skipped, evaluated -/

/-- The calls of `add_join` at a convex corner whose offset lines intersect. -/
theorem add_join_convex_calls (S : Strategies) (u : Unset) (c : List Call) (phase : Nat)
    (pen prev pp1 pp2 inp p1 p2 : Point) (side : buffer_side_selector) (ip : Point)
    (hj : buffer_range.get_join_type S pen prev inp = join_selector.join_convex)
    (hi : S.line_line_intersection p1 p2 pp1 pp2 u.intersection_point =
      (join_selector.join_convex, ip)) :
    buffer_range.add_join S u c phase pen prev pp1 pp2 inp p1 p2 side =
      c ++ [Call.add_join phase pen prev pp1 pp2 inp p1 p2 side,
        Call.line_line_intersection p1 p2 pp1 pp2,
        Call.distance_apply prev inp side,
        Call.join_apply ip prev pp2 p1 (S.distance_apply prev inp side),
        Call.add_piece_range piece_type.buffered_join prev
          (S.join_apply ip prev pp2 p1 (S.distance_apply prev inp side))] := by
  unfold buffer_range.add_join
  simp [hj, hi]

/-- The calls of `add_join` at a spike. -/
theorem add_join_spike_calls (S : Strategies) (u : Unset) (c : List Call) (phase : Nat)
    (pen prev pp1 pp2 inp p1 p2 : Point) (side : buffer_side_selector)
    (hj : buffer_range.get_join_type S pen prev inp = join_selector.join_spike) :
    buffer_range.add_join S u c phase pen prev pp1 pp2 inp p1 p2 side =
      c ++ [Call.add_join phase pen prev pp1 pp2 inp p1 p2 side,
        Call.end_apply pen pp2 prev p1 side,
        Call.add_endcap (S.end_apply pen pp2 prev p1 side) prev] := by
  unfold buffer_range.add_join
  simp [hj]

/-- The walk over `skipped_closing_ring` on the integer grid retains four edges:
the closing point `(0, 0)` has the robust image of `(0, 7/10)` and is skipped. -/
theorem skipped_closing_ring_edges
    (j : Point → Point → Point → Point → ℚ → List Point)
    (e : Point → Point → Point → Point → buffer_side_selector → List Point) :
    retained_edge_list (cartesian 1 j e) ⟨0, 0⟩ ((cartesian 1 j e).recalculate ⟨0, 0⟩)
      [⟨0, 4⟩, ⟨12 / 5, 4⟩, ⟨12 / 5, 0⟩, ⟨0, 7 / 10⟩, ⟨0, 0⟩] =
    [(⟨0, 0⟩, ⟨0, 4⟩), (⟨0, 4⟩, ⟨12 / 5, 4⟩), (⟨12 / 5, 4⟩, ⟨12 / 5, 0⟩),
      (⟨12 / 5, 0⟩, ⟨0, 7 / 10⟩)] := by
  norm_num [retained_edge_list, cartesian]

/-- The calls of the ring policy on `skipped_closing_ring` at distance 1: the
walk, then the closing join on `*(end - 2) = (0, 7/10)`, `*(end - 1) = (0, 0)` and
`*(begin + 1) = (0, 4)`, a spike that gets an end cap. -/
theorem skipped_closing_ring_calls (u : Unset)
    (j : Point → Point → Point → Point → ℚ → List Point)
    (e : Point → Point → Point → Point → buffer_side_selector → List Point) :
    ring_tag.apply (cartesian 1 j e) u skipped_closing_ring [] = some
      (skipped_closing_ring_walk j ++
        [Call.add_join 0 ⟨0, 7 / 10⟩ ⟨0, 0⟩ ⟨53 / 25, -24 / 25⟩ ⟨-7 / 25, -13 / 50⟩ ⟨0, 4⟩
           ⟨-1, 0⟩ ⟨-1, 4⟩ buffer_side_selector.buffer_side_left,
         Call.end_apply ⟨0, 7 / 10⟩ ⟨-7 / 25, -13 / 50⟩ ⟨0, 0⟩ ⟨-1, 0⟩
           buffer_side_selector.buffer_side_left,
         Call.add_endcap (e ⟨0, 7 / 10⟩ ⟨-7 / 25, -13 / 50⟩ ⟨0, 0⟩ ⟨-1, 0⟩
           buffer_side_selector.buffer_side_left) ⟨0, 0⟩]) := by
  have o1 : (cartesian 1 j e).buffer_side_apply ⟨0, 0⟩ ⟨0, 4⟩
      buffer_side_selector.buffer_side_left = (⟨-1, 0⟩, ⟨-1, 4⟩) := by
    norm_num [cartesian, buffer_side, sqrt_sixteen]
  have o2 : (cartesian 1 j e).buffer_side_apply ⟨0, 4⟩ ⟨12 / 5, 4⟩
      buffer_side_selector.buffer_side_left = (⟨0, 5⟩, ⟨12 / 5, 5⟩) := by
    norm_num [cartesian, buffer_side, sqrt_144_25]
  have o3 : (cartesian 1 j e).buffer_side_apply ⟨12 / 5, 4⟩ ⟨12 / 5, 0⟩
      buffer_side_selector.buffer_side_left = (⟨17 / 5, 4⟩, ⟨17 / 5, 0⟩) := by
    norm_num [cartesian, buffer_side, sqrt_sixteen]
  have o4 : (cartesian 1 j e).buffer_side_apply ⟨12 / 5, 0⟩ ⟨0, 7 / 10⟩
      buffer_side_selector.buffer_side_left = (⟨53 / 25, -24 / 25⟩, ⟨-7 / 25, -13 / 50⟩) := by
    norm_num [cartesian, buffer_side, sqrt_25_4]
  have j1 : buffer_range.add_join (cartesian 1 j e) u [] 0 ⟨0, 0⟩ ⟨0, 4⟩ ⟨-1, 0⟩ ⟨-1, 4⟩
      ⟨12 / 5, 4⟩ ⟨0, 5⟩ ⟨12 / 5, 5⟩ buffer_side_selector.buffer_side_left =
      [Call.add_join 0 ⟨0, 0⟩ ⟨0, 4⟩ ⟨-1, 0⟩ ⟨-1, 4⟩ ⟨12 / 5, 4⟩ ⟨0, 5⟩ ⟨12 / 5, 5⟩
         buffer_side_selector.buffer_side_left,
       Call.line_line_intersection ⟨0, 5⟩ ⟨12 / 5, 5⟩ ⟨-1, 0⟩ ⟨-1, 4⟩,
       Call.distance_apply ⟨0, 4⟩ ⟨12 / 5, 4⟩ buffer_side_selector.buffer_side_left,
       Call.join_apply ⟨-1, 5⟩ ⟨0, 4⟩ ⟨-1, 4⟩ ⟨0, 5⟩ 1,
       Call.add_piece_range piece_type.buffered_join ⟨0, 4⟩
         (j ⟨-1, 5⟩ ⟨0, 4⟩ ⟨-1, 4⟩ ⟨0, 5⟩ 1)] := by
    rw [add_join_convex_calls (cartesian 1 j e) u [] 0 ⟨0, 0⟩ ⟨0, 4⟩ ⟨-1, 0⟩ ⟨-1, 4⟩
      ⟨12 / 5, 4⟩ ⟨0, 5⟩ ⟨12 / 5, 5⟩ buffer_side_selector.buffer_side_left ⟨-1, 5⟩
      (by norm_num [buffer_range.get_join_type, cartesian, strategy.side.side_by_triangle])
      (by norm_num [cartesian, detail.buffer.line_line_intersection,
        detail.buffer.determinant])]
    norm_num [cartesian]
  have j2 : buffer_range.add_join (cartesian 1 j e) u [] 0 ⟨0, 4⟩ ⟨12 / 5, 4⟩ ⟨0, 5⟩
      ⟨12 / 5, 5⟩ ⟨12 / 5, 0⟩ ⟨17 / 5, 4⟩ ⟨17 / 5, 0⟩ buffer_side_selector.buffer_side_left =
      [Call.add_join 0 ⟨0, 4⟩ ⟨12 / 5, 4⟩ ⟨0, 5⟩ ⟨12 / 5, 5⟩ ⟨12 / 5, 0⟩ ⟨17 / 5, 4⟩
         ⟨17 / 5, 0⟩ buffer_side_selector.buffer_side_left,
       Call.line_line_intersection ⟨17 / 5, 4⟩ ⟨17 / 5, 0⟩ ⟨0, 5⟩ ⟨12 / 5, 5⟩,
       Call.distance_apply ⟨12 / 5, 4⟩ ⟨12 / 5, 0⟩ buffer_side_selector.buffer_side_left,
       Call.join_apply ⟨17 / 5, 5⟩ ⟨12 / 5, 4⟩ ⟨12 / 5, 5⟩ ⟨17 / 5, 4⟩ 1,
       Call.add_piece_range piece_type.buffered_join ⟨12 / 5, 4⟩
         (j ⟨17 / 5, 5⟩ ⟨12 / 5, 4⟩ ⟨12 / 5, 5⟩ ⟨17 / 5, 4⟩ 1)] := by
    rw [add_join_convex_calls (cartesian 1 j e) u [] 0 ⟨0, 4⟩ ⟨12 / 5, 4⟩ ⟨0, 5⟩
      ⟨12 / 5, 5⟩ ⟨12 / 5, 0⟩ ⟨17 / 5, 4⟩ ⟨17 / 5, 0⟩
      buffer_side_selector.buffer_side_left ⟨17 / 5, 5⟩
      (by norm_num [buffer_range.get_join_type, cartesian, strategy.side.side_by_triangle])
      (by norm_num [cartesian, detail.buffer.line_line_intersection,
        detail.buffer.determinant])]
    norm_num [cartesian]
  have j3 : buffer_range.add_join (cartesian 1 j e) u [] 0 ⟨12 / 5, 4⟩ ⟨12 / 5, 0⟩
      ⟨17 / 5, 4⟩ ⟨17 / 5, 0⟩ ⟨0, 7 / 10⟩ ⟨53 / 25, -24 / 25⟩ ⟨-7 / 25, -13 / 50⟩
      buffer_side_selector.buffer_side_left =
      [Call.add_join 0 ⟨12 / 5, 4⟩ ⟨12 / 5, 0⟩ ⟨17 / 5, 4⟩ ⟨17 / 5, 0⟩ ⟨0, 7 / 10⟩
         ⟨53 / 25, -24 / 25⟩ ⟨-7 / 25, -13 / 50⟩ buffer_side_selector.buffer_side_left,
       Call.line_line_intersection ⟨53 / 25, -24 / 25⟩ ⟨-7 / 25, -13 / 50⟩ ⟨17 / 5, 4⟩
         ⟨17 / 5, 0⟩,
       Call.distance_apply ⟨12 / 5, 0⟩ ⟨0, 7 / 10⟩ buffer_side_selector.buffer_side_left,
       Call.join_apply ⟨17 / 5, -4 / 3⟩ ⟨12 / 5, 0⟩ ⟨17 / 5, 0⟩ ⟨53 / 25, -24 / 25⟩ 1,
       Call.add_piece_range piece_type.buffered_join ⟨12 / 5, 0⟩
         (j ⟨17 / 5, -4 / 3⟩ ⟨12 / 5, 0⟩ ⟨17 / 5, 0⟩ ⟨53 / 25, -24 / 25⟩ 1)] := by
    rw [add_join_convex_calls (cartesian 1 j e) u [] 0 ⟨12 / 5, 4⟩ ⟨12 / 5, 0⟩
      ⟨17 / 5, 4⟩ ⟨17 / 5, 0⟩ ⟨0, 7 / 10⟩ ⟨53 / 25, -24 / 25⟩ ⟨-7 / 25, -13 / 50⟩
      buffer_side_selector.buffer_side_left ⟨17 / 5, -4 / 3⟩
      (by norm_num [buffer_range.get_join_type, cartesian, strategy.side.side_by_triangle])
      (by norm_num [cartesian, detail.buffer.line_line_intersection,
        detail.buffer.determinant])]
    norm_num [cartesian]
  have hspike : buffer_range.get_join_type (cartesian 1 j e) ⟨0, 7 / 10⟩ ⟨0, 0⟩ ⟨0, 4⟩ =
      join_selector.join_spike := by
    norm_num [buffer_range.get_join_type, cartesian, strategy.side.side_by_triangle,
      detail.buffer.parallel_continue]
  obtain ⟨w, hw, hc, hf, hl⟩ := iterate_trace (cartesian 1 j e) u
    [Call.simplify skipped_closing_ring (1 / 100)] 0 ⟨0, 0⟩
    [⟨0, 4⟩, ⟨12 / 5, 4⟩, ⟨12 / 5, 0⟩, ⟨0, 7 / 10⟩, ⟨0, 0⟩]
    buffer_side_selector.buffer_side_left u.first_p1 u.first_p2 u.last_p1 u.last_p2
  rw [skipped_closing_ring_edges] at hc hf hl
  simp only [walk_calls, walk_calls_after, segment_piece, o1, o2, o3, o4, j1, j2, j3] at hc
  simp only [first_offsets, List.head?_cons, o1, Prod.mk.injEq] at hf
  simp only [last_offsets, List.getLast?_cons_cons, List.getLast?_singleton, o4,
    Prod.mk.injEq] at hl
  have happly : ring_tag.apply (cartesian 1 j e) u skipped_closing_ring [] =
      ring_tag.iterate (cartesian 1 j e) u [Call.simplify skipped_closing_ring (1 / 100)]
        [⟨0, 0⟩, ⟨0, 4⟩, ⟨12 / 5, 4⟩, ⟨12 / 5, 0⟩, ⟨0, 7 / 10⟩, ⟨0, 0⟩]
        buffer_side_selector.buffer_side_left := by
    norm_num [ring_tag.apply, cartesian, skipped_closing_ring]
  rw [happly]
  unfold ring_tag.iterate
  rw [hw]
  simp only [List.dropLast, List.getLast?, List.getLast, List.tail, List.head?]
  rw [add_join_spike_calls _ _ _ _ _ _ _ _ _ _ _ _ hspike, hc, hf.1, hf.2, hl.1, hl.2]
  simp [skipped_closing_ring_walk, cartesian]

/-! ### The calls of `add_join`, case by case -/

/-- The calls of `add_join` for a triple that `get_join_type` does not classify
as convex. -/
theorem add_join_calls_by_kind (S : Strategies) (u : Unset) (c : List Call) (phase : Nat)
    (pen prev pp1 pp2 inp p1 p2 : Point) (side : buffer_side_selector) :
    (buffer_range.get_join_type S pen prev inp = join_selector.join_concave →
      buffer_range.add_join S u c phase pen prev pp1 pp2 inp p1 p2 side =
        c ++ [Call.add_join phase pen prev pp1 pp2 inp p1 p2 side,
          Call.add_piece_3 piece_type.buffered_concave prev pp2 p1]) ∧
    (buffer_range.get_join_type S pen prev inp = join_selector.join_continue →
      buffer_range.add_join S u c phase pen prev pp1 pp2 inp p1 p2 side =
        c ++ [Call.add_join phase pen prev pp1 pp2 inp p1 p2 side]) ∧
    (buffer_range.get_join_type S pen prev inp = join_selector.join_spike →
      buffer_range.add_join S u c phase pen prev pp1 pp2 inp p1 p2 side =
        c ++ [Call.add_join phase pen prev pp1 pp2 inp p1 p2 side,
          Call.end_apply pen pp2 prev p1 side,
          Call.add_endcap (S.end_apply pen pp2 prev p1 side) prev]) := by
  refine ⟨?_, ?_, ?_⟩ <;> intro hj <;> unfold buffer_range.add_join <;> simp [hj]

/-- The calls of `add_join` for a triple that `get_join_type` classifies as
convex, by the kind the intersection returns. -/
theorem add_join_calls_by_intersection (S : Strategies) (u : Unset) (c : List Call)
    (phase : Nat) (pen prev pp1 pp2 inp p1 p2 : Point) (side : buffer_side_selector)
    (hj : buffer_range.get_join_type S pen prev inp = join_selector.join_convex) :
    ((S.line_line_intersection p1 p2 pp1 pp2 u.intersection_point).1 =
        join_selector.join_continue →
      buffer_range.add_join S u c phase pen prev pp1 pp2 inp p1 p2 side =
        c ++ [Call.add_join phase pen prev pp1 pp2 inp p1 p2 side,
          Call.line_line_intersection p1 p2 pp1 pp2]) ∧
    ((S.line_line_intersection p1 p2 pp1 pp2 u.intersection_point).1 =
        join_selector.join_spike →
      buffer_range.add_join S u c phase pen prev pp1 pp2 inp p1 p2 side =
        c ++ [Call.add_join phase pen prev pp1 pp2 inp p1 p2 side,
          Call.line_line_intersection p1 p2 pp1 pp2,
          Call.end_apply pen pp2 prev p1 side,
          Call.add_endcap (S.end_apply pen pp2 prev p1 side) prev]) ∧
    ((S.line_line_intersection p1 p2 pp1 pp2 u.intersection_point).1 =
        join_selector.join_concave →
      buffer_range.add_join S u c phase pen prev pp1 pp2 inp p1 p2 side =
        c ++ [Call.add_join phase pen prev pp1 pp2 inp p1 p2 side,
          Call.line_line_intersection p1 p2 pp1 pp2,
          Call.add_piece_3 piece_type.buffered_concave prev pp2 p1]) ∧
    ((S.line_line_intersection p1 p2 pp1 pp2 u.intersection_point).1 =
        join_selector.join_convex →
      buffer_range.add_join S u c phase pen prev pp1 pp2 inp p1 p2 side =
        c ++ [Call.add_join phase pen prev pp1 pp2 inp p1 p2 side,
          Call.line_line_intersection p1 p2 pp1 pp2,
          Call.distance_apply prev inp side,
          Call.join_apply (S.line_line_intersection p1 p2 pp1 pp2 u.intersection_point).2
            prev pp2 p1 (S.distance_apply prev inp side),
          Call.add_piece_range piece_type.buffered_join prev
            (S.join_apply (S.line_line_intersection p1 p2 pp1 pp2 u.intersection_point).2
              prev pp2 p1 (S.distance_apply prev inp side))]) := by
  refine ⟨?_, ?_, ?_, ?_⟩ <;> intro hi <;> unfold buffer_range.add_join <;> simp [hj, hi]

/-- The kinds of the pieces `add_join` adds do not depend on the side. -/
theorem add_join_pieces_side (S : Strategies) (u : Unset) (phase : Nat)
    (pen prev pp1 pp2 inp p1 p2 : Point) (s1 s2 : buffer_side_selector) :
    pieces (buffer_range.add_join S u [] phase pen prev pp1 pp2 inp p1 p2 s1) =
      pieces (buffer_range.add_join S u [] phase pen prev pp1 pp2 inp p1 p2 s2) := by
  unfold buffer_range.add_join
  by_cases h : buffer_range.get_join_type S pen prev inp = join_selector.join_convex
  · simp only [h, if_true]
    cases (S.line_line_intersection p1 p2 pp1 pp2 u.intersection_point).1 <;>
      simp [pieces, Call.piece]
  · simp only [h, if_false]
    cases hj : buffer_range.get_join_type S pen prev inp <;>
      simp_all [pieces, Call.piece]

/-! ### Walks without a retained edge, and the robust image kept by the loop -/

theorem rat_sqrt_ne_zero (q : ℚ) (h : 0 < q) : Rat.sqrt q ≠ 0 := by
  unfold Rat.sqrt
  rw [Ne, Rat.mkRat_eq_zero (by
    intro h0
    exact q.den_nz (Nat.sqrt_eq_zero.mp h0))]
  intro h0
  have hnum : 0 < q.num := Rat.num_pos.mpr h
  have : Nat.sqrt q.num.toNat = 0 := by
    unfold Int.sqrt at h0
    exact_mod_cast h0
  have h2 := Nat.sqrt_eq_zero.mp this
  omega

theorem sum_squares_pos_of_ne (p q : Point) (h : p ≠ q) :
    0 < (q.x - p.x) * (q.x - p.x) + (q.y - p.y) * (q.y - p.y) := by
  by_contra hneg
  have h0 : (q.x - p.x) * (q.x - p.x) + (q.y - p.y) * (q.y - p.y) = 0 :=
    le_antisymm (not_lt.mp hneg) (add_nonneg (mul_self_nonneg _) (mul_self_nonneg _))
  have hx : q.x - p.x = 0 := by
    nlinarith [mul_self_nonneg (q.x - p.x), mul_self_nonneg (q.y - p.y)]
  have hy : q.y - p.y = 0 := by
    nlinarith [mul_self_nonneg (q.x - p.x), mul_self_nonneg (q.y - p.y)]
  apply h
  cases p; cases q
  simp only [Point.mk.injEq]
  simp only at hx hy
  constructor <;> linarith

/-- A range whose consecutive points all have the same robust image has no
retained edge. -/
theorem retained_edge_list_of_equal (S : Strategies) (rest : List Point) :
    ∀ prev b : Point,
      List.Chain (fun p q => S.recalculate p = S.recalculate q) b rest →
      retained_edge_list S prev (S.recalculate b) rest = [] := by
  induction rest with
  | nil => intro prev b _; rfl
  | cons p rest ih =>
    intro prev b hch
    rw [List.chain_cons] at hch
    simp only [retained_edge_list, hch.1, ne_eq, not_true_eq_false, if_false]
    exact ih prev p hch.2

/-- The ends of every retained edge have different robust images, when the
robust image the walk starts with is that of the point it starts at. -/
theorem retained_edge_list_distinct (S : Strategies) (rest : List Point) :
    ∀ prev : Point, ∀ e ∈ retained_edge_list S prev (S.recalculate prev) rest,
      S.recalculate e.1 ≠ S.recalculate e.2 := by
  induction rest with
  | nil => intro prev e he; simp [retained_edge_list] at he
  | cons p rest ih =>
    intro prev e he
    by_cases h : S.recalculate prev = S.recalculate p
    · simp only [retained_edge_list, h, ne_eq, not_true_eq_false, if_false] at he
      rw [← h] at he
      exact ih prev e he
    · simp only [retained_edge_list, h, ne_eq, not_false_eq_true, if_true,
        List.mem_cons] at he
      rcases he with rfl | he
      · exact h
      · exact ih p e he

/-- One pass through the loop body keeps the stored robust point the robust
image of `*prev`. -/
theorem iterate_body_previous_robust (S : Strategies) (u : Unset) (phase : Nat)
    (side : buffer_side_selector) (w : Walk) (it : Point)
    (h : w.previous_robust_input = S.recalculate w.prev) :
    (iterate_body S u phase side w it).previous_robust_input =
      S.recalculate (iterate_body S u phase side w it).prev := by
  by_cases hr : w.previous_robust_input = S.recalculate it
  · rw [iterate_body_skip S u phase side w it hr]
    simp only
    rw [← hr, h]
  · cases hf : w.first
    · rw [iterate_body_next S u phase side w it hr hf]
    · rw [iterate_body_first S u phase side w it hr hf]

theorem iterate_loop_previous_robust (S : Strategies) (u : Unset) (phase : Nat)
    (side : buffer_side_selector) (l : List Point) :
    ∀ w : Walk, w.previous_robust_input = S.recalculate w.prev →
      (iterate_loop S u phase side w l).previous_robust_input =
        S.recalculate (iterate_loop S u phase side w l).prev := by
  induction l with
  | nil => intro w h; exact h
  | cons it l ih =>
    intro w h
    simp only [iterate_loop]
    exact ih _ (iterate_body_previous_robust S u phase side w it h)

theorem side_generator_edges_append (a b : List Call) :
    side_generator_edges (a ++ b) = side_generator_edges a ++ side_generator_edges b := by
  simp [side_generator_edges, List.filterMap_append]

theorem add_join_no_side_generator (S : Strategies) (u : Unset) (phase : Nat)
    (pen prev pp1 pp2 inp p1 p2 : Point) (side : buffer_side_selector) :
    side_generator_edges
      (buffer_range.add_join S u [] phase pen prev pp1 pp2 inp p1 p2 side) = [] := by
  unfold buffer_range.add_join
  by_cases h : buffer_range.get_join_type S pen prev inp = join_selector.join_convex
  · simp only [h, if_true]
    cases (S.line_line_intersection p1 p2 pp1 pp2 u.intersection_point).1 <;>
      simp [side_generator_edges]
  · simp only [h, if_false]
    cases hj : buffer_range.get_join_type S pen prev inp <;>
      simp_all [side_generator_edges]

theorem walk_calls_after_side_generator (S : Strategies) (u : Unset) (phase : Nat)
    (side : buffer_side_selector) (es : List (Point × Point)) :
    ∀ pen l1 l2,
      side_generator_edges (walk_calls_after S u phase side pen l1 l2 es) = es := by
  induction es with
  | nil => intro pen l1 l2; rfl
  | cons e es ih =>
    intro pen l1 l2
    simp only [walk_calls_after, side_generator_edges_append, add_join_no_side_generator, ih]
    simp [side_generator_edges, segment_piece]

theorem walk_calls_side_generator (S : Strategies) (u : Unset) (phase : Nat)
    (side : buffer_side_selector) (es : List (Point × Point)) :
    side_generator_edges (walk_calls S u phase side es) = es := by
  cases es with
  | nil => rfl
  | cons e es =>
    simp only [walk_calls, side_generator_edges_append, walk_calls_after_side_generator]
    simp [side_generator_edges, segment_piece]

/-! ### The vertices of the circle -/

/-- The points the loop of `generate_points` appends: one per iteration, at the
angles `a`, `a - diff`, `a - 2 * diff`, ... -/
theorem generate_points_loop_points (M : Trig) (point : Point) (d diff : ℚ) (n : Nat) :
    ∀ (i : Nat) (a : ℚ) (first : Point) (range_out : List Point),
      (buffer_point.generate_points_loop M point d diff n i a first range_out).2 =
        range_out ++ (List.range n).map fun (k : Nat) =>
          (⟨point.x + d * M.cos (a - (k : ℚ) * diff),
            point.y + d * M.sin (a - (k : ℚ) * diff)⟩ : Point) := by
  induction n with
  | zero => intro i a first range_out; simp [buffer_point.generate_points_loop]
  | succ n ih =>
    intro i a first range_out
    simp only [buffer_point.generate_points_loop, ih, List.range_succ_eq_map,
      List.map_cons, List.map_map, List.append_assoc, List.singleton_append]
    congr 1
    simp only [Nat.cast_zero, zero_mul, sub_zero, List.cons.injEq, true_and]
    apply List.map_congr_left
    intro k _
    have e : a - diff - (k : ℚ) * diff = a - ((k + 1 : Nat) : ℚ) * diff := by
      push_cast
      ring
    simp only [Function.comp, Nat.succ_eq_add_one, e]

/-- The points of `generate_points` on an empty range: the 88 vertices of the
spec and vertex 0 again. -/
theorem generate_points_vertices (M : Trig) (u : Unset) (point : Point) (d : ℚ) :
    buffer_point.generate_points M u point d [] =
      (List.range 88).map (circle_vertex M point d) ++ [circle_vertex M point d 0] := by
  have hfirst := generate_points_loop_first M point d
    (2 * M.pi / ((88 : Nat) : ℚ)) 87 1 (0 - 2 * M.pi / ((88 : Nat) : ℚ))
    ⟨point.x + d * M.cos 0, point.y + d * M.sin 0⟩
    ([] ++ [⟨point.x + d * M.cos 0, point.y + d * M.sin 0⟩]) (by omega)
  have hpoints := generate_points_loop_points M point d (2 * M.pi / ((88 : Nat) : ℚ)) 87 1
    (0 - 2 * M.pi / ((88 : Nat) : ℚ))
    ⟨point.x + d * M.cos 0, point.y + d * M.sin 0⟩
    ([] ++ [⟨point.x + d * M.cos 0, point.y + d * M.sin 0⟩])
  have hr : List.range 88 = 0 :: (List.range 87).map Nat.succ := List.range_succ_eq_map 87
  rw [generate_points_unfold]
  rw [hfirst]
  rw [hpoints]
  rw [hr]
  simp only [List.nil_append, List.singleton_append, List.map_cons, List.map_map,
    List.cons_append]
  have h0 : circle_vertex M point d 0 = ⟨point.x + d * M.cos 0, point.y + d * M.sin 0⟩ := by
    simp [circle_vertex, circle_angle]
  rw [h0]
  simp only [List.cons.injEq, true_and, List.append_cancel_right_eq]
  apply List.map_congr_left
  intro k _
  simp only [Function.comp, circle_vertex, circle_angle]
  have e : (0 : ℚ) - 2 * M.pi / ((88 : Nat) : ℚ) - (k : ℚ) * (2 * M.pi / ((88 : Nat) : ℚ)) =
      -((k.succ : Nat) : ℚ) * 2 * M.pi / 88 := by
    push_cast
    ring
  rw [e]

/-! ### A linestring whose last point is skipped, evaluated -/

/-- The calls of the linestring policy on `skipped_end_line` at distance 1. -/
theorem skipped_end_line_calls (u : Unset)
    (j : Point → Point → Point → Point → ℚ → List Point)
    (e : Point → Point → Point → Point → buffer_side_selector → List Point) :
    linestring_tag.apply (cartesian 1 j e) u skipped_end_line [] = some
      [Call.simplify skipped_end_line (1 / 100),
       Call.start_new_ring,
       Call.buffer_side_apply ⟨4, 9 / 10⟩ ⟨4, 0⟩ buffer_side_selector.buffer_side_right,
       Call.buffer_side_apply ⟨0, 0⟩ ⟨4, 0⟩ buffer_side_selector.buffer_side_left,
       Call.add_piece_segment piece_type.buffered_segment ⟨0, 0⟩ ⟨4, 0⟩ ⟨0, 1⟩ ⟨4, 1⟩ true,
       Call.end_apply ⟨4, 0⟩ ⟨4, 1⟩ ⟨4, 9 / 10⟩ ⟨5, 9 / 10⟩
         buffer_side_selector.buffer_side_left,
       Call.add_endcap (e ⟨4, 0⟩ ⟨4, 1⟩ ⟨4, 9 / 10⟩ ⟨5, 9 / 10⟩
         buffer_side_selector.buffer_side_left) ⟨4, 9 / 10⟩,
       Call.buffer_side_apply ⟨4, 9 / 10⟩ ⟨0, 0⟩ buffer_side_selector.buffer_side_right,
       Call.add_piece_segment piece_type.buffered_segment ⟨4, 9 / 10⟩ ⟨0, 0⟩
         ⟨173 / 41, -31 / 410⟩ ⟨9 / 41, -40 / 41⟩ true,
       Call.end_apply ⟨4, 0⟩ ⟨9 / 41, -40 / 41⟩ ⟨0, 0⟩ ⟨0, 1⟩
         buffer_side_selector.buffer_side_right,
       Call.add_endcap (e ⟨4, 0⟩ ⟨9 / 41, -40 / 41⟩ ⟨0, 0⟩ ⟨0, 1⟩
         buffer_side_selector.buffer_side_right) ⟨0, 0⟩] := by
  norm_num [linestring_tag.apply, linestring_tag.iterate,
    linestring_tag.first_perpendicular_point, buffer_range.iterate,
    buffer_range.iterate_loop, buffer_range.iterate_body, cartesian, buffer_side,
    skipped_end_line, sqrt_sixteen, sqrt_81_100, sqrt_1681_100]
  simp

/-! ### Who starts a new ring -/

/-- A walk call on the collection adds a piece or an end cap. -/
theorem of_walk_on_collection (side : buffer_side_selector) (x : Call)
    (h : x.of_walk side) (hc : x.on_collection = true) :
    x.is_add_piece = true ∨ x.is_add_endcap = true := by
  cases x <;> simp_all [Call.of_walk, Call.on_collection, Call.is_add_piece,
    Call.is_add_endcap]

theorem count_start_new_ring_of_walk (side : buffer_side_selector) (W : List Call)
    (h : ∀ x ∈ W, x.of_walk side) : W.count Call.start_new_ring = 0 := by
  rw [List.count_eq_zero]
  intro hmem
  exact of_walk_ne_start_new_ring side _ (h _ hmem) rfl

/-- One pass of the linestring policy does not start a new ring. -/
theorem linestring_iterate_start_count (S : Strategies) (u : Unset) (c : List Call)
    (phase : Nat) (range : List Point) (side : buffer_side_selector) (first_p1 : Point)
    (r : List Call × Point)
    (h : linestring_tag.iterate S u c phase range side first_p1 = some r) :
    r.1.count Call.start_new_ring = c.count Call.start_new_ring := by
  cases range with
  | nil => simp [linestring_tag.iterate] at h
  | cons b rest =>
    cases hult : (b :: rest).getLast? with
    | none => simp [linestring_tag.iterate, hult] at h
    | some ult =>
      cases hpen : (b :: rest).dropLast.getLast? with
      | none => simp [linestring_tag.iterate, hult, hpen] at h
      | some pen =>
        rw [linestring_iterate_cons S u c phase b rest side first_p1 pen ult hpen hult,
          Option.some.injEq] at h
        obtain ⟨W, hW, hWw⟩ := iterate_loop_of_walk S u phase side rest
          (walk_start S u
            (if side = buffer_side_selector.buffer_side_right then c
              else c ++ [Call.buffer_side_apply ult pen
                buffer_side_selector.buffer_side_right])
            b first_p1 u.first_p2 u.last_p1 u.last_p2)
        have hWc := count_start_new_ring_of_walk side W hWw
        rw [← h]
        simp only []
        rw [hW]
        by_cases hs : side = buffer_side_selector.buffer_side_right
        · simp [walk_start, hs, List.count_append, hWc, List.count_cons]
        · simp [walk_start, hs, List.count_append, hWc, List.count_cons]

/-- The linestring policy starts one new ring when it runs, none when the
linestring has fewer than two points. -/
theorem linestring_apply_start_count (S : Strategies) (u : Unset)
    (linestring : List Point) (L : List Call)
    (h : linestring_tag.apply S u linestring [] = some L) :
    L.count Call.start_new_ring = if linestring.length > 1 then 1 else 0 := by
  unfold linestring_tag.apply at h
  by_cases hlen : linestring.length > 1
  · simp only [hlen, if_true, List.nil_append] at h ⊢
    cases h0 : linestring_tag.iterate S u
        [Call.simplify linestring S.simplify_distance, Call.start_new_ring] 0
        (S.simplify linestring S.simplify_distance) buffer_side_selector.buffer_side_left
        u.first_p1 with
    | none => rw [h0] at h; simp at h
    | some r0 =>
      rw [h0] at h
      simp only [] at h
      cases h1 : linestring_tag.iterate S u r0.1 1
          (S.simplify linestring S.simplify_distance).reverse
          buffer_side_selector.buffer_side_right r0.2 with
      | none => rw [h1] at h; simp at h
      | some r1 =>
        rw [h1] at h
        simp only [Option.some.injEq] at h
        rw [← h, linestring_iterate_start_count S u _ 1 _ _ _ r1 h1,
          linestring_iterate_start_count S u _ 0 _ _ _ r0 h0]
        simp [List.count_cons]
  · simp only [hlen, if_false, Option.some.injEq] at h ⊢
    rw [← h]
    rfl

/-- The polygon policy starts a new ring. -/
theorem polygon_apply_starts_ring (S : Strategies) (u : Unset) (exterior : List Point)
    (interiors : List (List Point)) (P : List Call)
    (h : polygon_tag.apply S u exterior interiors [] = some P) :
    Call.start_new_ring ∈ P := by
  simp only [polygon_tag.apply, polygon_tag.apply_interior_rings, List.nil_append] at h
  have happ := ring_apply_append S u exterior [Call.start_new_ring] []
  rw [List.append_nil] at happ
  rw [happ] at h
  cases hR : ring_tag.apply S u exterior [] with
  | none => rw [hR] at h; simp at h
  | some RE =>
    rw [hR] at h
    simp only [Option.map_some'] at h
    have hit := polygon_iterate_append S u interiors ([Call.start_new_ring] ++ RE) []
    rw [List.append_nil] at hit
    rw [hit] at h
    cases hI : polygon_tag.iterate S u interiors [] with
    | none => rw [hI] at h; simp at h
    | some X =>
      rw [hI] at h
      simp only [Option.map_some', Option.some.injEq] at h
      rw [← h]
      simp

/-- The ring policy returns on a ring of at most 3 points and on a ring whose
simplification has at least two points. -/
theorem ring_apply_returns (S : Strategies) (u : Unset) (ring : List Point) (c : List Call)
    (h : ring.length ≤ 3 ∨ 2 ≤ (S.simplify ring S.simplify_distance).length) :
    ∃ R, ring_tag.apply S u ring c = some R := by
  unfold ring_tag.apply
  by_cases hlen : ring.length > 3
  · have h2 : 2 ≤ (S.simplify ring S.simplify_distance).length := by omega
    have key : ∀ (range : List Point) (side : buffer_side_selector), 2 ≤ range.length →
        ∃ R, ring_tag.iterate S u (c ++ [Call.simplify ring S.simplify_distance]) range side
          = some R := by
      intro range side hr
      match range, hr with
      | b :: b1 :: rest, _ =>
        obtain ⟨e2, e1, he⟩ := ring_iterate_cons S u
          (c ++ [Call.simplify ring S.simplify_distance]) b b1 rest side
        exact ⟨_, he⟩
    simp only [hlen, if_true]
    cases S.distance_negative
    · exact key _ _ h2
    · exact key _ _ (by simpa using h2)
  · exact ⟨c, by simp [hlen]⟩

/-! ### The claims -/

/-- C1. In a ring walk (`buffer_inserter<ring_tag>::iterate`) over a range in
which at least one edge is retained, the calls `T` the walk adds are connected
end to end: their chain links start with the first segment piece, every two
consecutive links are `Linked` (each join classification arrives from the
offset points of the segment piece right before it and departs on the offset
points of the segment piece right after it), and the last link is the
wrap-around join, which arrives from the last segment piece and departs on the
offset points `front`, `back` of the first segment piece: one closed loop. -/
theorem ring_walk_closed_loop (S : Strategies) (u : Unset) (c : List Call)
    (range : List Point) (side : buffer_side_selector)
    (h : 0 < retained_edges S range) :
    ∃ T front back M prev_perp1 prev_perp2,
      ring_tag.iterate S u c range side = some (c ++ T) ∧
      links T = Link.segment front back ::
        (M ++ [Link.join prev_perp1 prev_perp2 front back]) ∧
      List.Chain' Linked (links T) := by
  obtain ⟨b, b1, rest, rfl⟩ := retained_edges_pos S range h
  obtain ⟨e2, e1, h2, h1, hb⟩ := ends_of_range b b1 rest
  have hinv := iterate_loop_inv S u 0 side c (b1 :: rest)
    { collection := c, prev := b, previous_robust_input := S.recalculate b, first := true,
      second_point := u.second_point, penultimate_point := u.penultimate_point,
      ultimate_point := u.ultimate_point, first_p1 := u.first_p1, first_p2 := u.first_p2,
      last_p1 := u.last_p1, last_p2 := u.last_p2 }
    ⟨[], by simp, fun _ => rfl, fun hf => by simp at hf⟩
  have hfirst := iterate_loop_first S u 0 side (b1 :: rest)
    { collection := c, prev := b, previous_robust_input := S.recalculate b, first := true,
      second_point := u.second_point, penultimate_point := u.penultimate_point,
      ultimate_point := u.ultimate_point, first_p1 := u.first_p1, first_p2 := u.first_p2,
      last_p1 := u.last_p1, last_p2 := u.last_p2 }
  simp only [ring_tag.iterate, buffer_range.iterate, h2, h1, hb]
  generalize iterate_loop S u 0 side _ (b1 :: rest) = w at hinv hfirst ⊢
  have hf : w.first = false := by
    rw [hfirst]
    have : retained_from S (S.recalculate b) (b1 :: rest) ≠ 0 := by
      simpa [retained_edges] using Nat.pos_iff_ne_zero.mp h
    simp [this]
  obtain ⟨T, hT, -, hT2⟩ := hinv
  obtain ⟨⟨M1, hM1⟩, ⟨M2, hM2⟩, hch⟩ := hT2 hf
  obtain ⟨J, hJ, hJl⟩ := add_join_links S u w.collection 0 e2 e1 w.last_p1 w.last_p2 b1
    w.first_p1 w.first_p2 side
  refine ⟨T ++ J, w.first_p1, w.first_p2, M1, w.last_p1, w.last_p2, ?_, ?_, ?_⟩
  · rw [hJ, hT, List.append_assoc]
  · rw [links_append, hJl, hM1]; simp
  · rw [links_append, hJl]
    apply List.Chain'.append hch (by simp)
    intro x hx y hy
    rw [hM2] at hx
    simp at hx hy
    subst hx; subst hy
    simp [Linked]

theorem ring_walk_closed_loop_witness :
    0 < retained_edges (cartesian 1 miter_join flat_end) square_cw ∧
    ∃ T front back M prev_perp1 prev_perp2,
      ring_tag.iterate (cartesian 1 miter_join flat_end) unset_zero [] square_cw
        buffer_side_selector.buffer_side_left = some ([] ++ T) ∧
      links T = Link.segment front back ::
        (M ++ [Link.join prev_perp1 prev_perp2 front back]) ∧
      List.Chain' Linked (links T) :=
  ⟨by norm_num [retained_edges, retained_from, cartesian, square_cw],
   ring_walk_closed_loop (cartesian 1 miter_join flat_end) unset_zero [] square_cw
     buffer_side_selector.buffer_side_left
     (by norm_num [retained_edges, retained_from, cartesian, square_cw])⟩

/-- C3. For a triple `p0, p1, p2` that is not collinear and for which the side
predicate gives `-1`, `get_join_type` returns convex; and when the side
generator offsets the two edges to translates of themselves (`a1, a2` is
`p0, p1` moved by `v`, and `b1, b2` is `p1, p2` moved by `w`), the two offset
lines are not parallel: the intersection primitive reports convex and yields a
point `ip` on both offset lines, `add_join` consults it, keeps the corner
convex, hands `ip` to the join strategy as its first argument and adds exactly
one join piece (and nothing else) to the collection. -/
theorem convex_triple_gets_one_join (S : Strategies) (u : Unset) (c : List Call)
    (phase : Nat) (p0 p1 p2 v w a1 a2 b1 b2 : Point) (side : buffer_side_selector)
    (hlli : S.line_line_intersection = line_line_intersection)
    (hside : S.side_apply p0 p1 p2 = -1)
    (hturn : turn p0 p1 p2 ≠ 0)
    (hprev : S.buffer_side_apply p0 p1 side = (a1, a2))
    (hnext : S.buffer_side_apply p1 p2 side = (b1, b2))
    (ha : a1 = p0.translate v ∧ a2 = p1.translate v)
    (hb : b1 = p1.translate w ∧ b2 = p2.translate w) :
    get_join_type S p0 p1 p2 = join_selector.join_convex ∧
    ∃ ip,
      line_line_intersection b1 b2 a1 a2 u.intersection_point
        = (join_selector.join_convex, ip) ∧
      on_line ip a1 a2 ∧ on_line ip b1 b2 ∧
      add_join S u c phase p0 p1 (S.buffer_side_apply p0 p1 side).1
        (S.buffer_side_apply p0 p1 side).2 p2 (S.buffer_side_apply p1 p2 side).1
        (S.buffer_side_apply p1 p2 side).2 side =
      c ++ [Call.add_join phase p0 p1 a1 a2 p2 b1 b2 side,
            Call.line_line_intersection b1 b2 a1 a2,
            Call.distance_apply p1 p2 side,
            Call.join_apply ip p1 a2 b1 (S.distance_apply p1 p2 side),
            Call.add_piece_range piece_type.buffered_join p1
              (S.join_apply ip p1 a2 b1 (S.distance_apply p1 p2 side))] := by
  have hj : get_join_type S p0 p1 p2 = join_selector.join_convex := by
    simp [get_join_type, hside]
  refine ⟨hj, ?_⟩
  rw [hprev, hnext]
  obtain ⟨rfl, rfl⟩ := ha
  obtain ⟨rfl, rfl⟩ := hb
  have hden : determinant ((p1.translate w).x - (p2.translate w).x)
      ((p1.translate w).y - (p2.translate w).y)
      ((p0.translate v).x - (p1.translate v).x)
      ((p0.translate v).y - (p1.translate v).y) ≠ 0 := by
    intro h0
    apply hturn
    unfold determinant Point.translate at h0
    unfold turn
    simp only at h0
    linarith
  obtain ⟨h1, h2, h3⟩ := line_line_intersection_on_lines (p1.translate w) (p2.translate w)
    (p0.translate v) (p1.translate v) u.intersection_point hden
  refine ⟨(line_line_intersection (p1.translate w) (p2.translate w)
    (p0.translate v) (p1.translate v) u.intersection_point).2, ?_, h3, h2, ?_⟩
  · rw [← h1]
  · simp only [add_join, hj, if_true, hlli, h1, List.append_assoc, List.singleton_append,
      List.cons_append, List.nil_append]

theorem convex_triple_gets_one_join_witness :
    (cartesian 1 miter_join flat_end).line_line_intersection = line_line_intersection ∧
    (cartesian 1 miter_join flat_end).side_apply ⟨0, 0⟩ ⟨0, 4⟩ ⟨4, 4⟩ = -1 ∧
    turn ⟨0, 0⟩ ⟨0, 4⟩ ⟨4, 4⟩ ≠ 0 ∧
    (cartesian 1 miter_join flat_end).buffer_side_apply ⟨0, 0⟩ ⟨0, 4⟩
      buffer_side_selector.buffer_side_left = (⟨-1, 0⟩, ⟨-1, 4⟩) ∧
    (cartesian 1 miter_join flat_end).buffer_side_apply ⟨0, 4⟩ ⟨4, 4⟩
      buffer_side_selector.buffer_side_left = (⟨0, 5⟩, ⟨4, 5⟩) ∧
    (get_join_type (cartesian 1 miter_join flat_end) ⟨0, 0⟩ ⟨0, 4⟩ ⟨4, 4⟩
        = join_selector.join_convex ∧
      ∃ ip,
        line_line_intersection ⟨0, 5⟩ ⟨4, 5⟩ ⟨-1, 0⟩ ⟨-1, 4⟩ unset_zero.intersection_point
          = (join_selector.join_convex, ip) ∧
        on_line ip ⟨-1, 0⟩ ⟨-1, 4⟩ ∧ on_line ip ⟨0, 5⟩ ⟨4, 5⟩ ∧
        add_join (cartesian 1 miter_join flat_end) unset_zero [] 0 ⟨0, 0⟩ ⟨0, 4⟩
          ((cartesian 1 miter_join flat_end).buffer_side_apply ⟨0, 0⟩ ⟨0, 4⟩
            buffer_side_selector.buffer_side_left).1
          ((cartesian 1 miter_join flat_end).buffer_side_apply ⟨0, 0⟩ ⟨0, 4⟩
            buffer_side_selector.buffer_side_left).2 ⟨4, 4⟩
          ((cartesian 1 miter_join flat_end).buffer_side_apply ⟨0, 4⟩ ⟨4, 4⟩
            buffer_side_selector.buffer_side_left).1
          ((cartesian 1 miter_join flat_end).buffer_side_apply ⟨0, 4⟩ ⟨4, 4⟩
            buffer_side_selector.buffer_side_left).2
          buffer_side_selector.buffer_side_left =
        [] ++ [Call.add_join 0 ⟨0, 0⟩ ⟨0, 4⟩ ⟨-1, 0⟩ ⟨-1, 4⟩ ⟨4, 4⟩ ⟨0, 5⟩ ⟨4, 5⟩
                buffer_side_selector.buffer_side_left,
              Call.line_line_intersection ⟨0, 5⟩ ⟨4, 5⟩ ⟨-1, 0⟩ ⟨-1, 4⟩,
              Call.distance_apply ⟨0, 4⟩ ⟨4, 4⟩ buffer_side_selector.buffer_side_left,
              Call.join_apply ip ⟨0, 4⟩ ⟨-1, 4⟩ ⟨0, 5⟩
                ((cartesian 1 miter_join flat_end).distance_apply ⟨0, 4⟩ ⟨4, 4⟩
                  buffer_side_selector.buffer_side_left),
              Call.add_piece_range piece_type.buffered_join ⟨0, 4⟩
                ((cartesian 1 miter_join flat_end).join_apply ip ⟨0, 4⟩ ⟨-1, 4⟩ ⟨0, 5⟩
                  ((cartesian 1 miter_join flat_end).distance_apply ⟨0, 4⟩ ⟨4, 4⟩
                    buffer_side_selector.buffer_side_left))]) :=
  have hside : (cartesian 1 miter_join flat_end).side_apply ⟨0, 0⟩ ⟨0, 4⟩ ⟨4, 4⟩ = -1 := by
    norm_num [cartesian, strategy.side.side_by_triangle]
  have hturn : turn ⟨0, 0⟩ ⟨0, 4⟩ ⟨4, 4⟩ ≠ 0 := by norm_num [turn]
  have hprev : (cartesian 1 miter_join flat_end).buffer_side_apply ⟨0, 0⟩ ⟨0, 4⟩
      buffer_side_selector.buffer_side_left = (⟨-1, 0⟩, ⟨-1, 4⟩) := by
    norm_num [cartesian, buffer_side, sqrt_sixteen]
  have hnext : (cartesian 1 miter_join flat_end).buffer_side_apply ⟨0, 4⟩ ⟨4, 4⟩
      buffer_side_selector.buffer_side_left = (⟨0, 5⟩, ⟨4, 5⟩) := by
    norm_num [cartesian, buffer_side, sqrt_sixteen]
  ⟨rfl, hside, hturn, hprev, hnext,
    convex_triple_gets_one_join (cartesian 1 miter_join flat_end) unset_zero [] 0
      ⟨0, 0⟩ ⟨0, 4⟩ ⟨4, 4⟩ ⟨-1, 0⟩ ⟨0, 1⟩ ⟨-1, 0⟩ ⟨-1, 4⟩ ⟨0, 5⟩ ⟨4, 5⟩
      buffer_side_selector.buffer_side_left rfl hside hturn hprev hnext
      (by norm_num [Point.translate]) (by norm_num [Point.translate])⟩

/-- C4. For a triple `p0, p1, p2` for which the side predicate gives `0` and
whose two edges point in the same direction (the dot product of `p1 - p0` and
`p2 - p1` is positive), `get_join_type` returns continue, and `add_join` for
that corner does nothing beyond starting the classification: it adds no piece
to the collection and calls neither the join strategy nor the end-cap strategy
(nor the distance strategy or the intersection primitive). -/
theorem collinear_same_direction_continues (S : Strategies) (u : Unset)
    (c : List Call) (phase : Nat) (p0 p1 p2 prev_perp1 prev_perp2 perp1 perp2 : Point)
    (side : buffer_side_selector)
    (hpc : S.parallel_continue = parallel_continue)
    (hside : S.side_apply p0 p1 p2 = 0)
    (hdot : 0 < edge_dot p0 p1 p2) :
    get_join_type S p0 p1 p2 = join_selector.join_continue ∧
    add_join S u c phase p0 p1 prev_perp1 prev_perp2 p2 perp1 perp2 side =
      c ++ [Call.add_join phase p0 p1 prev_perp1 prev_perp2 p2 perp1 perp2 side] ∧
    pieces [Call.add_join phase p0 p1 prev_perp1 prev_perp2 p2 perp1 perp2 side] = [] := by
  have hj : get_join_type S p0 p1 p2 = join_selector.join_continue := by
    have : (p2.x - p1.x) * (p1.x - p0.x) + (p2.y - p1.y) * (p1.y - p0.y) > 0 := by
      unfold edge_dot at hdot
      linarith
    simp [get_join_type, hside, hpc, parallel_continue, this]
  refine ⟨hj, ?_, ?_⟩
  · simp [add_join, hj]
  · simp [pieces, Call.piece]

theorem collinear_same_direction_continues_witness :
    (cartesian 1 miter_join flat_end).parallel_continue = parallel_continue ∧
    (cartesian 1 miter_join flat_end).side_apply ⟨0, 0⟩ ⟨1, 0⟩ ⟨3, 0⟩ = 0 ∧
    0 < edge_dot ⟨0, 0⟩ ⟨1, 0⟩ ⟨3, 0⟩ ∧
    (get_join_type (cartesian 1 miter_join flat_end) ⟨0, 0⟩ ⟨1, 0⟩ ⟨3, 0⟩
        = join_selector.join_continue ∧
      add_join (cartesian 1 miter_join flat_end) unset_zero [] 0 ⟨0, 0⟩ ⟨1, 0⟩
          ⟨0, 1⟩ ⟨1, 1⟩ ⟨3, 0⟩ ⟨1, 1⟩ ⟨3, 1⟩ buffer_side_selector.buffer_side_left =
        [] ++ [Call.add_join 0 ⟨0, 0⟩ ⟨1, 0⟩ ⟨0, 1⟩ ⟨1, 1⟩ ⟨3, 0⟩ ⟨1, 1⟩ ⟨3, 1⟩
          buffer_side_selector.buffer_side_left] ∧
      pieces [Call.add_join 0 ⟨0, 0⟩ ⟨1, 0⟩ ⟨0, 1⟩ ⟨1, 1⟩ ⟨3, 0⟩ ⟨1, 1⟩ ⟨3, 1⟩
        buffer_side_selector.buffer_side_left] = []) :=
  have hside : (cartesian 1 miter_join flat_end).side_apply ⟨0, 0⟩ ⟨1, 0⟩ ⟨3, 0⟩ = 0 := by
    norm_num [cartesian, strategy.side.side_by_triangle]
  have hdot : 0 < edge_dot ⟨0, 0⟩ ⟨1, 0⟩ ⟨3, 0⟩ := by norm_num [edge_dot]
  ⟨rfl, hside, hdot,
    collinear_same_direction_continues (cartesian 1 miter_join flat_end) unset_zero [] 0
      ⟨0, 0⟩ ⟨1, 0⟩ ⟨3, 0⟩ ⟨0, 1⟩ ⟨1, 1⟩ ⟨1, 1⟩ ⟨3, 1⟩
      buffer_side_selector.buffer_side_left rfl hside hdot⟩

/-- C5 (the code at the failing input). For the linestring `(0,0), (2,0), (1,0)`
the corner at `(2,0)` is a spike in the forward pass and again in the backward
pass (`get_join_type` gives `join_spike` for the triple and for the reversed
triple), and the linestring policy adds an end cap for it in each of the two
passes: of the four end caps it adds, in the order `(2,0)`, `(1,0)`, `(2,0)`,
`(0,0)` of their reference points, two are for the spike corner. -/
theorem spike_line_endcaps (u : Unset)
    (j : Point → Point → Point → Point → ℚ → List Point)
    (e : Point → Point → Point → Point → buffer_side_selector → List Point) :
    get_join_type (cartesian 1 j e) ⟨0, 0⟩ ⟨2, 0⟩ ⟨1, 0⟩ = join_selector.join_spike ∧
    get_join_type (cartesian 1 j e) ⟨1, 0⟩ ⟨2, 0⟩ ⟨0, 0⟩ = join_selector.join_spike ∧
    ∃ T, linestring_tag.apply (cartesian 1 j e) u spike_line [] = some T ∧
      endcap_points T = [⟨2, 0⟩, ⟨1, 0⟩, ⟨2, 0⟩, ⟨0, 0⟩] ∧
      (endcap_points T).count ⟨2, 0⟩ = 2 := by
  refine ⟨?_, ?_, ?_⟩
  · norm_num [get_join_type, cartesian, strategy.side.side_by_triangle, parallel_continue]
  · norm_num [get_join_type, cartesian, strategy.side.side_by_triangle, parallel_continue]
  · simp [linestring_tag.apply, linestring_tag.iterate, buffer_range.iterate,
      buffer_range.iterate_loop, buffer_range.iterate_body, buffer_range.add_join,
      buffer_range.get_join_type, cartesian, strategy.side.side_by_triangle,
      parallel_continue, spike_line, endcap_points, buffer_side,
      linestring_tag.first_perpendicular_point]
    norm_num [sqrt_four, sqrt_one]
    simp [endcap_points]

/-- C6. For a linestring of at least 2 points (whose simplification keeps at
least 2 points, `first, second, ..., penultimate, last`) the linestring policy
makes, after the simplification, exactly these calls in this order: one
`start_new_ring`; the opposite-side point at the end (one side-generator call)
and the offset walk `W0` of the simplified points in forward order on the left
side with phase 0; one end cap with reference point `last`; the offset walk
`W1` of the simplified points in reversed order on the right side with phase 1;
one end cap with reference point `first`.  The walks themselves make walk calls
only (no `start_new_ring`), so one ring is started and two terminal end caps are
added. -/
theorem linestring_policy_calls (S : Strategies) (u : Unset) (linestring : List Point)
    (c : List Call) (hlen : 1 < linestring.length)
    (hsim : 2 ≤ (S.simplify linestring S.simplify_distance).length) :
    ∃ first second penultimate last W0 W1 w0 w1,
      (S.simplify linestring S.simplify_distance).head? = some first ∧
      (S.simplify linestring S.simplify_distance).tail.head? = some second ∧
      (S.simplify linestring S.simplify_distance).dropLast.getLast? = some penultimate ∧
      (S.simplify linestring S.simplify_distance).getLast? = some last ∧
      buffer_range.iterate S u
        (c ++ [Call.simplify linestring S.simplify_distance, Call.start_new_ring,
          Call.buffer_side_apply last penultimate buffer_side_selector.buffer_side_right])
        0 (S.simplify linestring S.simplify_distance)
        buffer_side_selector.buffer_side_left
        u.first_p1 u.first_p2 u.last_p1 u.last_p2 = some w0 ∧
      w0.collection =
        c ++ [Call.simplify linestring S.simplify_distance, Call.start_new_ring,
          Call.buffer_side_apply last penultimate buffer_side_selector.buffer_side_right]
          ++ W0 ∧
      buffer_range.iterate S u
        (w0.collection ++
          [Call.end_apply penultimate w0.last_p2 last
            (linestring_tag.first_perpendicular_point S last penultimate)
            buffer_side_selector.buffer_side_left,
           Call.add_endcap (S.end_apply penultimate w0.last_p2 last
            (linestring_tag.first_perpendicular_point S last penultimate)
            buffer_side_selector.buffer_side_left) last])
        1 (S.simplify linestring S.simplify_distance).reverse
        buffer_side_selector.buffer_side_right
        w0.first_p1 u.first_p2 u.last_p1 u.last_p2 = some w1 ∧
      (∀ x ∈ W0, x.of_walk buffer_side_selector.buffer_side_left) ∧
      (∀ x ∈ W1, x.of_walk buffer_side_selector.buffer_side_right) ∧
      linestring_tag.apply S u linestring c = some
        (c ++ [Call.simplify linestring S.simplify_distance, Call.start_new_ring,
          Call.buffer_side_apply last penultimate buffer_side_selector.buffer_side_right]
          ++ W0 ++
          [Call.end_apply penultimate w0.last_p2 last
            (linestring_tag.first_perpendicular_point S last penultimate)
            buffer_side_selector.buffer_side_left,
           Call.add_endcap (S.end_apply penultimate w0.last_p2 last
            (linestring_tag.first_perpendicular_point S last penultimate)
            buffer_side_selector.buffer_side_left) last]
          ++ W1 ++
          [Call.end_apply second w1.last_p2 first w0.first_p1
            buffer_side_selector.buffer_side_right,
           Call.add_endcap (S.end_apply second w1.last_p2 first w0.first_p1
            buffer_side_selector.buffer_side_right) first]) := by
  generalize hs : S.simplify linestring S.simplify_distance = simplified at hsim ⊢
  match simplified, hsim with
  | a :: b :: rest, _ =>
    obtain ⟨pen, last, hpen, hlast, -⟩ := ends_of_range a b rest
    -- the reversed sequence
    have hrpen : (a :: b :: rest).reverse.dropLast.getLast? = some b := by simp
    have hrlast : (a :: b :: rest).reverse.getLast? = some a := by simp
    obtain ⟨x, r, hx⟩ : ∃ x r, (a :: b :: rest).reverse = x :: r := by
      cases h : (a :: b :: rest).reverse with
      | nil => simp at h
      | cons x r => exact ⟨x, r, rfl⟩
    rw [hx] at hrpen hrlast
    have h0 := linestring_iterate_cons S u
      (c ++ [Call.simplify linestring S.simplify_distance, Call.start_new_ring]) 0 a
      (b :: rest) buffer_side_selector.buffer_side_left u.first_p1 pen last hpen hlast
    simp only [reduceCtorEq, if_false, List.append_assoc, List.cons_append,
      List.nil_append] at h0
    obtain ⟨W0, hW0, hW0w⟩ := iterate_loop_of_walk S u 0
      buffer_side_selector.buffer_side_left (b :: rest)
      (walk_start S u (c ++ [Call.simplify linestring S.simplify_distance,
        Call.start_new_ring, Call.buffer_side_apply last pen
          buffer_side_selector.buffer_side_right]) a u.first_p1 u.first_p2 u.last_p1
        u.last_p2)
    generalize hw0 : iterate_loop S u 0 buffer_side_selector.buffer_side_left
      (walk_start S u (c ++ [Call.simplify linestring S.simplify_distance,
        Call.start_new_ring, Call.buffer_side_apply last pen
          buffer_side_selector.buffer_side_right]) a u.first_p1 u.first_p2 u.last_p1
        u.last_p2) (b :: rest) = w0 at h0 hW0
    have h1 := linestring_iterate_cons S u
      (w0.collection ++
        [Call.end_apply pen w0.last_p2 last
          (linestring_tag.first_perpendicular_point S last pen)
          buffer_side_selector.buffer_side_left,
         Call.add_endcap (S.end_apply pen w0.last_p2 last
          (linestring_tag.first_perpendicular_point S last pen)
          buffer_side_selector.buffer_side_left) last]) 1 x r
      buffer_side_selector.buffer_side_right w0.first_p1 b a hrpen hrlast
    simp only [if_true] at h1
    obtain ⟨W1, hW1, hW1w⟩ := iterate_loop_of_walk S u 1
      buffer_side_selector.buffer_side_right r
      (walk_start S u (w0.collection ++
        [Call.end_apply pen w0.last_p2 last
          (linestring_tag.first_perpendicular_point S last pen)
          buffer_side_selector.buffer_side_left,
         Call.add_endcap (S.end_apply pen w0.last_p2 last
          (linestring_tag.first_perpendicular_point S last pen)
          buffer_side_selector.buffer_side_left) last]) x w0.first_p1 u.first_p2 u.last_p1
        u.last_p2)
    generalize hw1 : iterate_loop S u 1 buffer_side_selector.buffer_side_right
      (walk_start S u (w0.collection ++
        [Call.end_apply pen w0.last_p2 last
          (linestring_tag.first_perpendicular_point S last pen)
          buffer_side_selector.buffer_side_left,
         Call.add_endcap (S.end_apply pen w0.last_p2 last
          (linestring_tag.first_perpendicular_point S last pen)
          buffer_side_selector.buffer_side_left) last]) x w0.first_p1 u.first_p2 u.last_p1
        u.last_p2) r = w1 at h1 hW1
    simp only [walk_start] at hW0 hW1
    refine ⟨a, b, pen, last, W0, W1, w0, w1, rfl, rfl, hpen, hlast, ?_, ?_, ?_, hW0w,
      hW1w, ?_⟩
    · rw [iterate_cons, hw0]
    · rw [hW0]
    · rw [hx, iterate_cons, hw1]
    · simp only [linestring_tag.apply, hlen, if_true, hs]
      simp only [List.append_assoc, List.cons_append, List.nil_append] at h0 ⊢
      rw [h0]
      dsimp only
      rw [hx, h1]
      dsimp only
      rw [hW1, hW0]
      simp [List.append_assoc]

theorem linestring_policy_calls_witness :
    1 < spike_line.length ∧
    2 ≤ ((cartesian 1 miter_join flat_end).simplify spike_line (cartesian 1 miter_join flat_end).simplify_distance).length ∧
    (∃ first second penultimate last W0 W1 w0 w1,
      ((cartesian 1 miter_join flat_end).simplify spike_line (cartesian 1 miter_join flat_end).simplify_distance).head? = some first ∧
      ((cartesian 1 miter_join flat_end).simplify spike_line (cartesian 1 miter_join flat_end).simplify_distance).tail.head? = some second ∧
      ((cartesian 1 miter_join flat_end).simplify spike_line (cartesian 1 miter_join flat_end).simplify_distance).dropLast.getLast? = some penultimate ∧
      ((cartesian 1 miter_join flat_end).simplify spike_line (cartesian 1 miter_join flat_end).simplify_distance).getLast? = some last ∧
      buffer_range.iterate (cartesian 1 miter_join flat_end) unset_zero
        ([] ++ [Call.simplify spike_line (cartesian 1 miter_join flat_end).simplify_distance, Call.start_new_ring,
          Call.buffer_side_apply last penultimate buffer_side_selector.buffer_side_right])
        0 ((cartesian 1 miter_join flat_end).simplify spike_line (cartesian 1 miter_join flat_end).simplify_distance)
        buffer_side_selector.buffer_side_left
        unset_zero.first_p1 unset_zero.first_p2 unset_zero.last_p1 unset_zero.last_p2 = some w0 ∧
      w0.collection =
        [] ++ [Call.simplify spike_line (cartesian 1 miter_join flat_end).simplify_distance, Call.start_new_ring,
          Call.buffer_side_apply last penultimate buffer_side_selector.buffer_side_right]
          ++ W0 ∧
      buffer_range.iterate (cartesian 1 miter_join flat_end) unset_zero
        (w0.collection ++
          [Call.end_apply penultimate w0.last_p2 last
            (linestring_tag.first_perpendicular_point (cartesian 1 miter_join flat_end) last penultimate)
            buffer_side_selector.buffer_side_left,
           Call.add_endcap ((cartesian 1 miter_join flat_end).end_apply penultimate w0.last_p2 last
            (linestring_tag.first_perpendicular_point (cartesian 1 miter_join flat_end) last penultimate)
            buffer_side_selector.buffer_side_left) last])
        1 ((cartesian 1 miter_join flat_end).simplify spike_line (cartesian 1 miter_join flat_end).simplify_distance).reverse
        buffer_side_selector.buffer_side_right
        w0.first_p1 unset_zero.first_p2 unset_zero.last_p1 unset_zero.last_p2 = some w1 ∧
      (∀ x ∈ W0, x.of_walk buffer_side_selector.buffer_side_left) ∧
      (∀ x ∈ W1, x.of_walk buffer_side_selector.buffer_side_right) ∧
      linestring_tag.apply (cartesian 1 miter_join flat_end) unset_zero spike_line [] = some
        ([] ++ [Call.simplify spike_line (cartesian 1 miter_join flat_end).simplify_distance, Call.start_new_ring,
          Call.buffer_side_apply last penultimate buffer_side_selector.buffer_side_right]
          ++ W0 ++
          [Call.end_apply penultimate w0.last_p2 last
            (linestring_tag.first_perpendicular_point (cartesian 1 miter_join flat_end) last penultimate)
            buffer_side_selector.buffer_side_left,
           Call.add_endcap ((cartesian 1 miter_join flat_end).end_apply penultimate w0.last_p2 last
            (linestring_tag.first_perpendicular_point (cartesian 1 miter_join flat_end) last penultimate)
            buffer_side_selector.buffer_side_left) last]
          ++ W1 ++
          [Call.end_apply second w1.last_p2 first w0.first_p1
            buffer_side_selector.buffer_side_right,
           Call.add_endcap ((cartesian 1 miter_join flat_end).end_apply second w1.last_p2 first w0.first_p1
            buffer_side_selector.buffer_side_right) first])) :=
  ⟨by simp [spike_line], by simp [spike_line, cartesian],
    linestring_policy_calls (cartesian 1 miter_join flat_end) unset_zero spike_line []
      (by simp [spike_line]) (by simp [spike_line, cartesian])⟩

/-- C8. For a ring of more than 3 points the ring policy runs exactly one ring
walk over the simplified ring, chosen by the sign reported by the distance
strategy alone: back-to-front (the reversed point sequence) with side right
when it is negative, front-to-back with side left otherwise.  Accordingly every
call of the walk that carries a side carries that one side, and when no two
consecutive points are robust-equal the segment pieces follow the consecutive
pairs of the sequence in the chosen direction. -/
theorem ring_policy_direction (S : Strategies) (u : Unset) (ring : List Point)
    (c : List Call) (hlen : 3 < ring.length) :
    ring_tag.apply S u ring c =
      ring_tag.iterate S u (c ++ [Call.simplify ring S.simplify_distance])
        (if S.distance_negative then (S.simplify ring S.simplify_distance).reverse
          else S.simplify ring S.simplify_distance)
        (if S.distance_negative then buffer_side_selector.buffer_side_right
          else buffer_side_selector.buffer_side_left) ∧
    ∀ T, ring_tag.apply S u ring c =
        some (c ++ [Call.simplify ring S.simplify_distance] ++ T) →
      (∀ s ∈ sides T, s = if S.distance_negative then buffer_side_selector.buffer_side_right
        else buffer_side_selector.buffer_side_left) ∧
      (List.Chain' (fun a b => S.recalculate a ≠ S.recalculate b)
          (S.simplify ring S.simplify_distance) →
        segment_edges T =
          if S.distance_negative then
            (S.simplify ring S.simplify_distance).reverse.zip
              (S.simplify ring S.simplify_distance).reverse.tail
          else (S.simplify ring S.simplify_distance).zip
            (S.simplify ring S.simplify_distance).tail) := by
  have happly : ring_tag.apply S u ring c =
      ring_tag.iterate S u (c ++ [Call.simplify ring S.simplify_distance])
        (if S.distance_negative then (S.simplify ring S.simplify_distance).reverse
          else S.simplify ring S.simplify_distance)
        (if S.distance_negative then buffer_side_selector.buffer_side_right
          else buffer_side_selector.buffer_side_left) := by
    cases hneg : S.distance_negative <;> simp [ring_tag.apply, hlen, hneg]
  refine ⟨happly, ?_⟩
  intro T hT
  rw [happly] at hT
  refine ⟨sides_of_walk _ T (ring_iterate_of_walk S u _ _ _ T hT), ?_⟩
  intro hno
  cases hneg : S.distance_negative
  · rw [hneg] at hT
    simpa using ring_iterate_edges S u _ _ _ T hT hno
  · rw [hneg] at hT
    have hno' : List.Chain' (fun a b => S.recalculate a ≠ S.recalculate b)
        (S.simplify ring S.simplify_distance).reverse := by
      rw [List.chain'_reverse]
      exact List.Chain'.imp (fun a b h => Ne.symm h) hno
    simpa using ring_iterate_edges S u _ _ _ T hT hno'

theorem ring_policy_direction_witness :
    3 < square_cw.length ∧
    (ring_tag.apply (cartesian (-1) miter_join flat_end) unset_zero square_cw [] =
      ring_tag.iterate (cartesian (-1) miter_join flat_end) unset_zero
        ([] ++ [Call.simplify square_cw (cartesian (-1) miter_join flat_end).simplify_distance])
        (if (cartesian (-1) miter_join flat_end).distance_negative then
          ((cartesian (-1) miter_join flat_end).simplify square_cw (cartesian (-1) miter_join flat_end).simplify_distance).reverse
          else (cartesian (-1) miter_join flat_end).simplify square_cw (cartesian (-1) miter_join flat_end).simplify_distance)
        (if (cartesian (-1) miter_join flat_end).distance_negative then buffer_side_selector.buffer_side_right
          else buffer_side_selector.buffer_side_left) ∧
    ∀ T, ring_tag.apply (cartesian (-1) miter_join flat_end) unset_zero square_cw [] =
        some ([] ++ [Call.simplify square_cw (cartesian (-1) miter_join flat_end).simplify_distance] ++ T) →
      (∀ s ∈ sides T, s = if (cartesian (-1) miter_join flat_end).distance_negative then
        buffer_side_selector.buffer_side_right else buffer_side_selector.buffer_side_left) ∧
      (List.Chain' (fun a b => (cartesian (-1) miter_join flat_end).recalculate a ≠ (cartesian (-1) miter_join flat_end).recalculate b)
          ((cartesian (-1) miter_join flat_end).simplify square_cw (cartesian (-1) miter_join flat_end).simplify_distance) →
        segment_edges T =
          if (cartesian (-1) miter_join flat_end).distance_negative then
            ((cartesian (-1) miter_join flat_end).simplify square_cw (cartesian (-1) miter_join flat_end).simplify_distance).reverse.zip
              ((cartesian (-1) miter_join flat_end).simplify square_cw (cartesian (-1) miter_join flat_end).simplify_distance).reverse.tail
          else ((cartesian (-1) miter_join flat_end).simplify square_cw (cartesian (-1) miter_join flat_end).simplify_distance).zip
            ((cartesian (-1) miter_join flat_end).simplify square_cw (cartesian (-1) miter_join flat_end).simplify_distance).tail)) :=
  ⟨by simp [square_cw],
   ring_policy_direction (cartesian (-1) miter_join flat_end) unset_zero square_cw [] (by simp [square_cw])⟩

/-- C9 (as stated, refuted). On the clockwise square ring the walk at distance
`1` adds four join pieces (convex corners) and no concave piece, the walk at
the negated distance `-1` adds four concave pieces and no join piece: the kinds
of the corner pieces are not preserved. -/
theorem negated_distance_changes_piece_kinds :
    ∃ T T',
      ring_tag.apply (cartesian 1 miter_join flat_end) unset_zero square_cw [] = some T ∧
      ring_tag.apply (cartesian (-1) miter_join flat_end) unset_zero square_cw [] = some T' ∧
      (pieces T).count Piece.join = 4 ∧ (pieces T).count Piece.concave = 0 ∧
      (pieces T').count Piece.join = 0 ∧ (pieces T').count Piece.concave = 4 := by
  obtain ⟨T', hT', hp, -⟩ := square_cw_negative_pieces unset_zero miter_join flat_end
  refine ⟨_, T', square_cw_calls unset_zero miter_join flat_end, hT', ?_, ?_, ?_, ?_⟩
  · simp [pieces, Call.piece]
  · simp [pieces, Call.piece]
  · rw [hp]; simp
  · rw [hp]; simp

/-- C9 (amended). For a fixed ring of more than 3 points whose simplification
retains an edge, and two strategy sets that differ in the sign of the distance
(`S` not negative, `S'` negative) but simplify the ring to the same points
and have the same robust policy: the walk for `S` runs front-to-back on the
left side, the walk for `S'` back-to-front on the right side; both add the same
number of segment pieces and make the same number of join classifications; and
when no two consecutive simplified points are robust-equal, the segment pieces
of the negative walk are those of the positive walk edge by edge, each edge
reversed, in reversed order.  (Nothing is said of the kinds of the corner
pieces.) -/
theorem negated_distance_ring_walk (S S' : Strategies) (u u' : Unset)
    (ring : List Point) (c c' : List Call)
    (hlen : 3 < ring.length)
    (hpos : S.distance_negative = false) (hneg : S'.distance_negative = true)
    (hrec : S'.recalculate = S.recalculate)
    (hsim : S'.simplify ring S'.simplify_distance = S.simplify ring S.simplify_distance)
    (hret : 0 < retained_edges S (S.simplify ring S.simplify_distance)) :
    ∃ T T',
      ring_tag.apply S u ring c =
        some (c ++ [Call.simplify ring S.simplify_distance] ++ T) ∧
      ring_tag.apply S' u' ring c' =
        some (c' ++ [Call.simplify ring S'.simplify_distance] ++ T') ∧
      ring_tag.iterate S u (c ++ [Call.simplify ring S.simplify_distance])
        (S.simplify ring S.simplify_distance) buffer_side_selector.buffer_side_left =
        some (c ++ [Call.simplify ring S.simplify_distance] ++ T) ∧
      ring_tag.iterate S' u' (c' ++ [Call.simplify ring S'.simplify_distance])
        (S.simplify ring S.simplify_distance).reverse
        buffer_side_selector.buffer_side_right =
        some (c' ++ [Call.simplify ring S'.simplify_distance] ++ T') ∧
      (segment_edges T').length = (segment_edges T).length ∧
      join_classifications T' = join_classifications T ∧
      (List.Chain' (fun a b => S.recalculate a ≠ S.recalculate b)
          (S.simplify ring S.simplify_distance) →
        segment_edges T' = ((segment_edges T).map Prod.swap).reverse) := by
  have hrev : retained_edges S' (S.simplify ring S.simplify_distance).reverse =
      retained_edges S (S.simplify ring S.simplify_distance) := by
    rw [retained_edges_reverse]
    have : ∀ l, retained_edges S' l = retained_edges S l := by
      intro l
      cases l with
      | nil => rfl
      | cons b rest =>
        simp only [retained_edges, hrec]
        generalize S.recalculate b = r
        induction rest generalizing r with
        | nil => rfl
        | cons p rest ih => simp only [retained_from, hrec, ih]
    exact this _
  obtain ⟨T, hT, -, -, hseg, hjoin, hedges⟩ := ring_iterate_summary S u
    (c ++ [Call.simplify ring S.simplify_distance]) (S.simplify ring S.simplify_distance)
    buffer_side_selector.buffer_side_left hret
  obtain ⟨T', hT', -, -, hseg', hjoin', hedges'⟩ := ring_iterate_summary S' u'
    (c' ++ [Call.simplify ring S'.simplify_distance])
    (S.simplify ring S.simplify_distance).reverse
    buffer_side_selector.buffer_side_right (by rw [hrev]; exact hret)
  refine ⟨T, T', ?_, ?_, hT, hT', ?_, ?_, ?_⟩
  · simp only [ring_tag.apply, hlen, if_true, hpos]
    exact hT
  · simp only [ring_tag.apply, hlen, if_true, hneg, hsim]
    exact hT'
  · rw [hseg, hseg', hrev]
  · rw [hjoin, hjoin', hrev]
  · intro hno
    have hno' : List.Chain' (fun a b => S'.recalculate a ≠ S'.recalculate b)
        (S.simplify ring S.simplify_distance).reverse := by
      rw [List.chain'_reverse, hrec]
      exact List.Chain'.imp (fun a b h => Ne.symm h) hno
    rw [hedges' hno', hedges hno, zip_tail_reverse]

theorem negated_distance_ring_walk_witness :
    3 < square_cw.length ∧
    (cartesian 1 miter_join flat_end).distance_negative = false ∧
    (cartesian (-1) miter_join flat_end).distance_negative = true ∧
    (cartesian (-1) miter_join flat_end).recalculate = (cartesian 1 miter_join flat_end).recalculate ∧
    (cartesian (-1) miter_join flat_end).simplify square_cw (cartesian (-1) miter_join flat_end).simplify_distance =
      (cartesian 1 miter_join flat_end).simplify square_cw (cartesian 1 miter_join flat_end).simplify_distance ∧
    0 < retained_edges (cartesian 1 miter_join flat_end) ((cartesian 1 miter_join flat_end).simplify square_cw (cartesian 1 miter_join flat_end).simplify_distance) ∧
    ∃ T T',
      ring_tag.apply (cartesian 1 miter_join flat_end) unset_zero square_cw [] =
        some ([] ++ [Call.simplify square_cw (cartesian 1 miter_join flat_end).simplify_distance] ++ T) ∧
      ring_tag.apply (cartesian (-1) miter_join flat_end) unset_zero square_cw [] =
        some ([] ++ [Call.simplify square_cw (cartesian (-1) miter_join flat_end).simplify_distance] ++ T') ∧
      ring_tag.iterate (cartesian 1 miter_join flat_end) unset_zero ([] ++ [Call.simplify square_cw (cartesian 1 miter_join flat_end).simplify_distance])
        ((cartesian 1 miter_join flat_end).simplify square_cw (cartesian 1 miter_join flat_end).simplify_distance)
        buffer_side_selector.buffer_side_left =
        some ([] ++ [Call.simplify square_cw (cartesian 1 miter_join flat_end).simplify_distance] ++ T) ∧
      ring_tag.iterate (cartesian (-1) miter_join flat_end) unset_zero ([] ++ [Call.simplify square_cw (cartesian (-1) miter_join flat_end).simplify_distance])
        ((cartesian 1 miter_join flat_end).simplify square_cw (cartesian 1 miter_join flat_end).simplify_distance).reverse
        buffer_side_selector.buffer_side_right =
        some ([] ++ [Call.simplify square_cw (cartesian (-1) miter_join flat_end).simplify_distance] ++ T') ∧
      (segment_edges T').length = (segment_edges T).length ∧
      join_classifications T' = join_classifications T ∧
      (List.Chain' (fun a b => (cartesian 1 miter_join flat_end).recalculate a ≠ (cartesian 1 miter_join flat_end).recalculate b)
          ((cartesian 1 miter_join flat_end).simplify square_cw (cartesian 1 miter_join flat_end).simplify_distance) →
        segment_edges T' = ((segment_edges T).map Prod.swap).reverse) :=
  have hpos : (cartesian 1 miter_join flat_end).distance_negative = false := by norm_num [cartesian]
  have hneg : (cartesian (-1) miter_join flat_end).distance_negative = true := by norm_num [cartesian]
  have hret : 0 < retained_edges (cartesian 1 miter_join flat_end) ((cartesian 1 miter_join flat_end).simplify square_cw (cartesian 1 miter_join flat_end).simplify_distance) := by
    norm_num [retained_edges, retained_from, cartesian, square_cw]
  ⟨by simp [square_cw], hpos, hneg, rfl, rfl, hret,
    negated_distance_ring_walk (cartesian 1 miter_join flat_end) (cartesian (-1) miter_join flat_end) unset_zero unset_zero square_cw [] []
      (by simp [square_cw]) hpos hneg rfl rfl hret⟩

/-- C10 (as stated, refuted). The clockwise square ring has `N = 5` points, no
two consecutive ones robust-equal; the ring policy adds 4 segment pieces for
it, not `N - 1` plus one for a closing edge: there is no segment piece from the
last point back to the first. -/
theorem square_ring_has_no_closing_segment :
    List.Chain' (fun a b => (cartesian 1 miter_join flat_end).recalculate a ≠
      (cartesian 1 miter_join flat_end).recalculate b) square_cw ∧
    ∃ T, ring_tag.apply (cartesian 1 miter_join flat_end) unset_zero square_cw [] = some T ∧
      (segment_edges T).length = 4 ∧
      (segment_edges T).length ≠ (square_cw.length - 1) + 1 ∧
      (square_cw.getLast?, square_cw.head?) = (some ⟨0, 0⟩, some ⟨0, 0⟩) ∧
      ((⟨0, 0⟩, ⟨0, 0⟩) : Point × Point) ∉ segment_edges T := by
  refine ⟨by norm_num [square_cw, cartesian], _,
    square_cw_calls unset_zero miter_join flat_end, ?_, ?_, ?_, ?_⟩
  · simp [segment_edges]
  · simp [segment_edges, square_cw]
  · simp [square_cw]
  · simp [segment_edges]

/-- C10 (amended). For a ring of `N >= 4` points of which no two consecutive
ones are robust-equal, the ring walk returns and adds exactly `N - 1` segment
pieces, one per consecutive pair of points (from the point to its successor),
and no further segment piece; it makes `N - 1` join classifications, the last
of which is the wrap-around join; and the chain links of the added calls (the
segment pieces and the join classifications, a continue corner adding no piece)
form one closed chain. -/
theorem ring_walk_segment_pieces (S : Strategies) (u : Unset) (c : List Call)
    (range : List Point) (side : buffer_side_selector)
    (hN : 4 ≤ range.length)
    (hno : List.Chain' (fun a b => S.recalculate a ≠ S.recalculate b) range) :
    ∃ T, ring_tag.iterate S u c range side = some (c ++ T) ∧
      segment_edges T = range.zip range.tail ∧
      (segment_edges T).length = range.length - 1 ∧
      join_classifications T = range.length - 1 ∧
      (∃ front back M prev_perp1 prev_perp2, links T = Link.segment front back ::
        (M ++ [Link.join prev_perp1 prev_perp2 front back])) ∧
      List.Chain' Linked (links T) := by
  match range, hN, hno with
  | b :: rest, hN, hno =>
    have hcount : retained_edges S (b :: rest) = (b :: rest).length - 1 := by
      simp only [retained_edges, List.length_cons, Nat.add_sub_cancel]
      exact retained_from_chain S rest b hno
    have hpos : 0 < retained_edges S (b :: rest) := by
      rw [hcount]
      simp only [List.length_cons] at hN ⊢
      omega
    obtain ⟨T, hT, hloop, hch, hseg, hjoin, hedges⟩ :=
      ring_iterate_summary S u c (b :: rest) side hpos
    exact ⟨T, hT, hedges hno, by rw [hseg, hcount], by rw [hjoin, hcount], hloop, hch⟩

theorem ring_walk_segment_pieces_witness :
    4 ≤ square_cw.length ∧
    List.Chain' (fun a b => (cartesian 1 miter_join flat_end).recalculate a ≠
      (cartesian 1 miter_join flat_end).recalculate b) square_cw ∧
    ∃ T, ring_tag.iterate (cartesian 1 miter_join flat_end) unset_zero [] square_cw
        buffer_side_selector.buffer_side_left = some ([] ++ T) ∧
      segment_edges T = square_cw.zip square_cw.tail ∧
      (segment_edges T).length = square_cw.length - 1 ∧
      join_classifications T = square_cw.length - 1 ∧
      (∃ front back M prev_perp1 prev_perp2, links T = Link.segment front back ::
        (M ++ [Link.join prev_perp1 prev_perp2 front back])) ∧
      List.Chain' Linked (links T) :=
  have hno : List.Chain' (fun a b => (cartesian 1 miter_join flat_end).recalculate a ≠
      (cartesian 1 miter_join flat_end).recalculate b) square_cw := by
    norm_num [square_cw, cartesian]
  ⟨by simp [square_cw], hno,
    ring_walk_segment_pieces (cartesian 1 miter_join flat_end) unset_zero [] square_cw
      buffer_side_selector.buffer_side_left (by simp [square_cw]) hno⟩

/-- C11. For every point, every distance strategy (and whatever the cosine and
sine are), the point policy calls `start_new_ring`, asks the distance strategy
for the distance of the edge `(point, point)` on the left side, and then adds
exactly one circle piece and nothing else; the piece has 89 points whatever the
distance (88 generated vertices and one closing vertex), its first point is
vertex 0, `(x + d cos 0, y + d sin 0)`, and its last point equals its first. -/
theorem point_policy_one_circle (S : Strategies) (M : Trig) (u : Unset) (point : Point)
    (c : List Call) :
    ∃ range_out,
      point_tag.apply S M u point c =
        c ++ [Call.start_new_ring,
          Call.distance_apply point point buffer_side_selector.buffer_side_left,
          Call.add_piece_closed piece_type.buffered_circle range_out false] ∧
      range_out = buffer_point.generate_points M u point
        (S.distance_apply point point buffer_side_selector.buffer_side_left) [] ∧
      range_out.length = 89 ∧
      range_out.head? = some ⟨point.x +
          S.distance_apply point point buffer_side_selector.buffer_side_left * M.cos 0,
        point.y +
          S.distance_apply point point buffer_side_selector.buffer_side_left * M.sin 0⟩ ∧
      range_out.getLast? = range_out.head? ∧
      pieces (point_tag.apply S M u point []) = [Piece.circle] := by
  refine ⟨_, ?_, rfl, ?_, ?_, ?_, ?_⟩
  · simp [point_tag.apply, buffer_point.generate_circle, List.append_assoc]
  · simp only [buffer_point.generate_points, List.length_append, List.length_singleton,
      generate_points_loop_length]
    rfl
  · obtain ⟨added, h⟩ := generate_points_loop_keeps M point
      (S.distance_apply point point buffer_side_selector.buffer_side_left)
      (2 * M.pi / ((88 : Nat) : ℚ)) 87 1 (0 - 2 * M.pi / ((88 : Nat) : ℚ))
      ⟨point.x +
          S.distance_apply point point buffer_side_selector.buffer_side_left * M.cos 0,
        point.y +
          S.distance_apply point point buffer_side_selector.buffer_side_left * M.sin 0⟩
      ([] ++ [⟨point.x +
          S.distance_apply point point buffer_side_selector.buffer_side_left * M.cos 0,
        point.y +
          S.distance_apply point point buffer_side_selector.buffer_side_left * M.sin 0⟩])
    rw [generate_points_unfold, h]
    simp
  · have hfirst := generate_points_loop_first M point
      (S.distance_apply point point buffer_side_selector.buffer_side_left)
      (2 * M.pi / ((88 : Nat) : ℚ)) 87 1 (0 - 2 * M.pi / ((88 : Nat) : ℚ))
      ⟨point.x +
          S.distance_apply point point buffer_side_selector.buffer_side_left * M.cos 0,
        point.y +
          S.distance_apply point point buffer_side_selector.buffer_side_left * M.sin 0⟩
      ([] ++ [⟨point.x +
          S.distance_apply point point buffer_side_selector.buffer_side_left * M.cos 0,
        point.y +
          S.distance_apply point point buffer_side_selector.buffer_side_left * M.sin 0⟩])
      (by omega)
    obtain ⟨added, h⟩ := generate_points_loop_keeps M point
      (S.distance_apply point point buffer_side_selector.buffer_side_left)
      (2 * M.pi / ((88 : Nat) : ℚ)) 87 1 (0 - 2 * M.pi / ((88 : Nat) : ℚ))
      ⟨point.x +
          S.distance_apply point point buffer_side_selector.buffer_side_left * M.cos 0,
        point.y +
          S.distance_apply point point buffer_side_selector.buffer_side_left * M.sin 0⟩
      ([] ++ [⟨point.x +
          S.distance_apply point point buffer_side_selector.buffer_side_left * M.cos 0,
        point.y +
          S.distance_apply point point buffer_side_selector.buffer_side_left * M.sin 0⟩])
    rw [generate_points_unfold, hfirst, h]
    simp only [List.nil_append, List.singleton_append, List.cons_append, List.head?_cons]
    rw [← List.cons_append, List.getLast?_concat]
  · simp [point_tag.apply, buffer_point.generate_circle, pieces, Call.piece]

/-- C12. For a ring of 3 or fewer points the ring policy is a no-op: it
returns, with the collection exactly as it was, so it has added no piece and
has called no strategy, not even the simplification (every such call would have
been appended to the calls). -/
theorem ring_policy_small_ring_noop (S : Strategies) (u : Unset) (ring : List Point)
    (c : List Call) (h : ring.length ≤ 3) :
    ring_tag.apply S u ring c = some c := by
  have h' : ¬ ring.length > 3 := by omega
  simp only [ring_tag.apply, h', if_false]

theorem ring_policy_small_ring_noop_witness :
    triangle_open.length ≤ 3 ∧
    ring_tag.apply (cartesian 1 miter_join flat_end) unset_zero triangle_open
      [Call.start_new_ring] = some [Call.start_new_ring] :=
  ⟨by simp [triangle_open],
   ring_policy_small_ring_noop (cartesian 1 miter_join flat_end) unset_zero triangle_open
     [Call.start_new_ring] (by simp [triangle_open])⟩

/-- C13. For a linestring of 1 or 0 points the linestring policy is a no-op: it
returns, with the collection exactly as it was, so it has added no piece and no
end cap, has not started a new ring and has called no strategy (every such call
would have been appended to the calls). -/
theorem linestring_policy_short_noop (S : Strategies) (u : Unset)
    (linestring : List Point) (c : List Call) (h : linestring.length ≤ 1) :
    linestring_tag.apply S u linestring c = some c := by
  have h' : ¬ linestring.length > 1 := by omega
  simp only [linestring_tag.apply, h', if_false]

theorem linestring_policy_short_noop_witness :
    [(⟨2, 3⟩ : Point)].length ≤ 1 ∧
    linestring_tag.apply (cartesian 1 miter_join flat_end) unset_zero [⟨2, 3⟩]
      [Call.start_new_ring] = some [Call.start_new_ring] :=
  ⟨by simp,
   linestring_policy_short_noop (cartesian 1 miter_join flat_end) unset_zero [⟨2, 3⟩]
     [Call.start_new_ring] (by simp)⟩

/-- C14. For a polygon with exterior ring `E` and interior rings `H1..Hk` (for
each of which the ring policy returns, with the calls `RE` and `R1..Rk` when
run on an empty collection), the calls of the polygon policy are exactly:
`start_new_ring`, the ring policy's calls for `E`, then for each interior ring
in input order `start_new_ring` followed by the ring policy's calls for it.
`start_new_ring` is called exactly `k + 1` times, once before each ring, also
before a ring that contributes no call. -/
theorem polygon_policy_calls (S : Strategies) (u : Unset) (exterior : List Point)
    (interiors : List (List Point)) (c RE : List Call) (RHs : List (List Call))
    (hE : ring_tag.apply S u exterior [] = some RE)
    (hH : List.Forall₂ (fun ring R => ring_tag.apply S u ring [] = some R) interiors RHs) :
    polygon_tag.apply S u exterior interiors c =
      some (c ++ (Call.start_new_ring :: RE ++
        (RHs.map (fun R => Call.start_new_ring :: R)).flatten)) ∧
    (Call.start_new_ring :: RE ++
      (RHs.map (fun R => Call.start_new_ring :: R)).flatten).count Call.start_new_ring =
      interiors.length + 1 := by
  constructor
  · simp only [polygon_tag.apply, polygon_tag.apply_interior_rings]
    have happ := ring_apply_append S u exterior (c ++ [Call.start_new_ring]) []
    rw [List.append_nil, hE] at happ
    rw [happ]
    simp [polygon_iterate_calls S u interiors RHs hH, List.append_assoc]
  · have hRE : RE.count Call.start_new_ring = 0 :=
      List.count_eq_zero.mpr (ring_apply_no_start_new_ring S u exterior RE hE)
    have hRs : ∀ R ∈ RHs, Call.start_new_ring ∉ R := by
      intro R hR
      obtain ⟨ring, hring⟩ := forall₂_right_mem _ interiors RHs hH R hR
      exact ring_apply_no_start_new_ring S u ring R hring
    simp only [List.cons_append, List.count_cons_self, List.count_append, hRE,
      count_start_new_ring_flatten RHs hRs, hH.length_eq]
    omega

theorem polygon_policy_calls_witness :
    ring_tag.apply (cartesian 1 miter_join flat_end) unset_zero square_cw [] = some ((ring_tag.apply (cartesian 1 miter_join flat_end) unset_zero square_cw []).getD []) ∧
    List.Forall₂ (fun ring R => ring_tag.apply (cartesian 1 miter_join flat_end) unset_zero ring [] = some R)
      [triangle_open] [[]] ∧
    (polygon_tag.apply (cartesian 1 miter_join flat_end) unset_zero square_cw [triangle_open] [] =
      some ([] ++ (Call.start_new_ring :: ((ring_tag.apply (cartesian 1 miter_join flat_end) unset_zero square_cw []).getD []) ++
        ([[]].map (fun R => Call.start_new_ring :: R)).flatten)) ∧
    (Call.start_new_ring :: ((ring_tag.apply (cartesian 1 miter_join flat_end) unset_zero square_cw []).getD []) ++
      ([[]].map (fun R => Call.start_new_ring :: R)).flatten).count Call.start_new_ring =
      [triangle_open].length + 1) :=
  have hE : ring_tag.apply (cartesian 1 miter_join flat_end) unset_zero square_cw [] = some ((ring_tag.apply (cartesian 1 miter_join flat_end) unset_zero square_cw []).getD []) := by
    rw [square_cw_calls]; rfl
  have hH : List.Forall₂ (fun ring R => ring_tag.apply (cartesian 1 miter_join flat_end) unset_zero ring [] = some R)
      [triangle_open] [[]] :=
    List.Forall₂.cons rfl List.Forall₂.nil
  ⟨hE, hH, polygon_policy_calls (cartesian 1 miter_join flat_end) unset_zero square_cw [triangle_open] []
    ((ring_tag.apply (cartesian 1 miter_join flat_end) unset_zero square_cw []).getD []) [[]] hE hH⟩

/-- C15. For each kind of multi-geometry (multi-point, multi-linestring,
multi-polygon) the calls the multi policy makes on the shared collection are
the concatenation, in input order, of the calls the policy of the element kind
makes for each element (`Rs` being those calls, for elements on which the
element policy returns); processing the concatenation of two element lists is
processing the first list and then the second on the same collection; and an
empty multi-geometry leaves the collection unchanged. -/
theorem multi_policy_calls (S : Strategies) (M : Trig) (u : Unset) (c : List Call) :
    (∀ points : List Point,
      apply_by_tag S M u (Geometry.multi_point points) c =
        some (c ++ (points.map fun p => point_tag.apply S M u p []).flatten)) ∧
    (∀ (linestrings : List (List Point)) (Rs : List (List Call)),
      List.Forall₂ (fun l R => linestring_tag.apply S u l [] = some R) linestrings Rs →
      apply_by_tag S M u (Geometry.multi_linestring linestrings) c =
        some (c ++ Rs.flatten)) ∧
    (∀ (polygons : List (List Point × List (List Point))) (Rs : List (List Call)),
      List.Forall₂ (fun poly R => polygon_tag.apply S u poly.1 poly.2 [] = some R)
        polygons Rs →
      apply_by_tag S M u (Geometry.multi_polygon polygons) c = some (c ++ Rs.flatten)) ∧
    (∀ l1 l2 : List Point,
      apply_by_tag S M u (Geometry.multi_point (l1 ++ l2)) c =
        (apply_by_tag S M u (Geometry.multi_point l1) c).bind
          (apply_by_tag S M u (Geometry.multi_point l2))) ∧
    (∀ l1 l2 : List (List Point),
      apply_by_tag S M u (Geometry.multi_linestring (l1 ++ l2)) c =
        (apply_by_tag S M u (Geometry.multi_linestring l1) c).bind
          (apply_by_tag S M u (Geometry.multi_linestring l2))) ∧
    (∀ l1 l2 : List (List Point × List (List Point)),
      apply_by_tag S M u (Geometry.multi_polygon (l1 ++ l2)) c =
        (apply_by_tag S M u (Geometry.multi_polygon l1) c).bind
          (apply_by_tag S M u (Geometry.multi_polygon l2))) ∧
    apply_by_tag S M u (Geometry.multi_point []) c = some c ∧
    apply_by_tag S M u (Geometry.multi_linestring []) c = some c ∧
    apply_by_tag S M u (Geometry.multi_polygon []) c = some c := by
  refine ⟨?_, ?_, ?_, ?_, ?_, ?_, rfl, rfl, rfl⟩
  · intro points
    have h : List.Forall₂ (fun p R => (fun p c => some (point_tag.apply S M u p c)) p [] = some R)
        points (points.map fun p => point_tag.apply S M u p []) := by
      induction points with
      | nil => exact List.Forall₂.nil
      | cons p ps ih => exact List.Forall₂.cons rfl ih
    exact buffer_multi_apply_calls (fun p c => some (point_tag.apply S M u p c))
      (fun p c' => by
        have := point_apply_append S M u p c' []
        rw [List.append_nil] at this
        simp [this]) points _ h c
  · intro linestrings Rs h
    exact buffer_multi_apply_calls (fun l c => linestring_tag.apply S u l c)
      (fun l c' => by
        have := linestring_apply_append S u l c' []
        rw [List.append_nil] at this
        exact this) linestrings Rs h c
  · intro polygons Rs h
    exact buffer_multi_apply_calls (fun poly c => polygon_tag.apply S u poly.1 poly.2 c)
      (fun poly c' => by
        have := polygon_apply_append S u poly.1 poly.2 c' []
        rw [List.append_nil] at this
        exact this) polygons Rs h c
  · intro l1 l2; exact buffer_multi_apply_concat _ l1 l2 c
  · intro l1 l2; exact buffer_multi_apply_concat _ l1 l2 c
  · intro l1 l2; exact buffer_multi_apply_concat _ l1 l2 c

/-- C16. When the piece generation for the input returns (with the calls
`generated`), the top-level `buffer_inserter` invokes the piece visitor exactly
twice: with phase 0 after the piece generation and `get_turns` and before
`discard_rings`, `discard_turns`, `enrich` and `traverse`, and with phase 1 after
`assign`, as the last call; the piece generation itself never invokes it.  The
visitor never affects the result: the calls
are the same for every visitor and every state of it, and they are those of the
overload without a visitor, which passes the default visitor. -/
theorem visitor_invoked_twice {σ : Type} (S : Strategies) (M : Trig) (u : Unset)
    (geometry_input : Geometry) (V : VisitPiecesPolicy σ) (v : σ)
    (generated : List Call)
    (hgen : apply_by_tag S M u geometry_input [] = some generated) :
    (∃ calls, buffer_inserter S M u geometry_input V v =
        some (calls ++ [Call.visit_pieces 1],
          V.apply (V.apply v (generated ++ [Call.get_turns]) 0) calls 1) ∧
      calls = generated ++ [Call.get_turns, Call.visit_pieces 0, Call.discard_rings,
          Call.discard_turns, Call.enrich, Call.traverse] ++
        (if S.distance_negative && geometry_input.is_areal then [Call.reverse] else []) ++
        [Call.assign] ∧
      visits (calls ++ [Call.visit_pieces 1]) = [0, 1]) ∧
    (buffer_inserter S M u geometry_input V v).map Prod.fst =
      (buffer_inserter_default S M u geometry_input).map Prod.fst := by
  constructor
  · refine ⟨_, ?_, rfl, ?_⟩
    · simp only [buffer_inserter, hgen]
      cases S.distance_negative && geometry_input.is_areal <;>
        simp [List.append_assoc]
    · have hv : visits generated = [] :=
        visits_of_generation generated
          (apply_by_tag_not_top_level S M u geometry_input generated hgen)
      simp only [visits, List.filterMap_append] at hv ⊢
      rw [hv]
      cases S.distance_negative && geometry_input.is_areal <;> simp
  · simp only [buffer_inserter_default, buffer_inserter, hgen, Option.map_some']

theorem visitor_invoked_twice_witness :
    apply_by_tag (cartesian 1 miter_join flat_end) trig_example unset_zero
        (Geometry.ring triangle_open) [] = some [] ∧
    ((∃ calls, buffer_inserter (cartesian 1 miter_join flat_end) trig_example unset_zero
          (Geometry.ring triangle_open) recording_visitor [] =
        some (calls ++ [Call.visit_pieces 1],
          recording_visitor.apply
            (recording_visitor.apply [] ([] ++ [Call.get_turns]) 0) calls 1) ∧
      calls = [] ++ [Call.get_turns, Call.visit_pieces 0, Call.discard_rings,
          Call.discard_turns, Call.enrich, Call.traverse] ++
        (if (cartesian 1 miter_join flat_end).distance_negative &&
            (Geometry.ring triangle_open).is_areal then [Call.reverse] else []) ++
        [Call.assign] ∧
      visits (calls ++ [Call.visit_pieces 1]) = [0, 1]) ∧
    (buffer_inserter (cartesian 1 miter_join flat_end) trig_example unset_zero
        (Geometry.ring triangle_open) recording_visitor []).map Prod.fst =
      (buffer_inserter_default (cartesian 1 miter_join flat_end) trig_example unset_zero
        (Geometry.ring triangle_open)).map Prod.fst) :=
  ⟨rfl,
   visitor_invoked_twice (cartesian 1 miter_join flat_end) trig_example unset_zero
     (Geometry.ring triangle_open) recording_visitor [] [] rfl⟩

/-- C17. For every non-empty point sequence `b :: rest`, `buffer_range::iterate`
returns, only appends calls (`T`), and the segment pieces among them are exactly
those of the retained edges `E`, in order, the first flagged as first: the
retained edges end at the points whose robust image differs from that of their
predecessor in the sequence (none for a point with the robust image of its
predecessor), in increasing order; each starts at the last retained point (`b`
for the first); each segment piece carries the two offset end points the side
generator gives for its edge and side. -/
theorem iterate_segment_pieces (S : Strategies) (u : Unset) (c : List Call) (phase : Nat)
    (b : Point) (rest : List Point) (side : buffer_side_selector)
    (f1 f2 l1 l2 : Point) :
    ∃ w T E, buffer_range.iterate S u c phase (b :: rest) side f1 f2 l1 l2 = some w ∧
      w.collection = c ++ T ∧
      E.map Prod.snd = (((b :: rest).zip rest).filter fun e =>
        decide (S.recalculate e.1 ≠ S.recalculate e.2)).map Prod.snd ∧
      E.map Prod.fst = (b :: E.map Prod.snd).dropLast ∧
      T.filter Call.is_segment = segment_pieces S side E ∧
      segment_edges T = E ∧
      segment_offsets T = E.map fun e => S.buffer_side_apply e.1 e.2 side := by
  obtain ⟨w, hw, hc, -, -⟩ := iterate_trace S u c phase b rest side f1 f2 l1 l2
  refine ⟨w, _, retained_edge_list S b (S.recalculate b) rest, hw, hc,
    retained_edge_list_ends S rest b b, retained_edge_list_starts S rest b _,
    walk_calls_segments S u phase side _, (walk_calls_counts S u phase side _).1, ?_⟩
  have hseg : ∀ T : List Call, segment_offsets T =
      segment_offsets (T.filter Call.is_segment) := by
    intro T
    induction T with
    | nil => rfl
    | cons x T ih =>
      cases x <;> simp_all [segment_offsets, Call.is_segment, List.filter_cons]
  rw [hseg, walk_calls_segments]
  cases retained_edge_list S b (S.recalculate b) rest with
  | nil => rfl
  | cons e es =>
    simp only [segment_pieces, segment_offsets, List.filterMap_cons, segment_piece,
      List.map_cons, List.cons.injEq, true_and]
    induction es with
    | nil => rfl
    | cons e' es ih => simp [List.filterMap_cons, ih]

/-- C18. In `buffer_range::iterate` over `b :: rest`, with `E` the retained edges
of the input (they end at the points whose robust image differs from that of
their predecessor in the sequence, in order, each starts at the last retained
point, `b` for the first, and there are `retained_edges S (b :: rest)` of them;
consecutive ones share a vertex): the segment pieces and join classifications
among the calls are, in order, the segment piece of the first edge and then for
every further edge one join classification followed by the edge's segment
piece; the classification is on the start of the edge before, the shared vertex
and the end of the new edge, with the offset end points of the edge before and
of the new edge.  There are `k - 1` join classifications for `k` retained
edges, and all the calls are the walk calls of `E`: per edge the side generator,
then (not for the first edge) `add_join`, then the segment piece. -/
theorem iterate_join_classifications (S : Strategies) (u : Unset) (c : List Call)
    (phase : Nat) (b : Point) (rest : List Point) (side : buffer_side_selector)
    (f1 f2 l1 l2 : Point) :
    ∃ w T E, buffer_range.iterate S u c phase (b :: rest) side f1 f2 l1 l2 = some w ∧
      w.collection = c ++ T ∧
      E.map Prod.snd = (((b :: rest).zip rest).filter fun e =>
        decide (S.recalculate e.1 ≠ S.recalculate e.2)).map Prod.snd ∧
      E.map Prod.fst = (b :: E.map Prod.snd).dropLast ∧
      E.length = retained_edges S (b :: rest) ∧
      segment_edges T = E ∧
      List.Chain' (fun e e' : Point × Point => e.2 = e'.1) E ∧
      T.filter Call.is_skeleton = skeleton S phase side E ∧
      join_classifications T = E.length - 1 ∧
      join_classifications T = retained_edges S (b :: rest) - 1 ∧
      T = walk_calls S u phase side E := by
  obtain ⟨w, hw, hc, -, -⟩ := iterate_trace S u c phase b rest side f1 f2 l1 l2
  have hlen : (retained_edge_list S b (S.recalculate b) rest).length =
      retained_edges S (b :: rest) := retained_edge_list_length S rest b (S.recalculate b)
  refine ⟨w, _, retained_edge_list S b (S.recalculate b) rest, hw, hc,
    retained_edge_list_ends S rest b b, retained_edge_list_starts S rest b _, hlen,
    (walk_calls_counts S u phase side _).1, ?_, walk_calls_skeleton S u phase side _,
    (walk_calls_counts S u phase side _).2, ?_, rfl⟩
  · have hch := retained_edge_list_chain S rest b (S.recalculate b)
    cases hE : retained_edge_list S b (S.recalculate b) rest with
    | nil => exact List.chain'_nil
    | cons e es =>
      rw [hE] at hch
      cases hch with
      | cons h1 h2 => exact h2
  · rw [(walk_calls_counts S u phase side _).2, hlen]

/-- C19. When `buffer_range::iterate` retains at least one edge of `range`, it
returns with `first_p1`/`first_p2` the two offset end points of the first
retained edge (the edge of the first segment piece) and `last_p1`/`last_p2`
those of the last retained edge (the edge of the last segment piece); with
exactly one retained edge the two pairs are the same. -/
theorem iterate_first_last_offsets (S : Strategies) (u : Unset) (c : List Call)
    (phase : Nat) (range : List Point) (side : buffer_side_selector)
    (f1 f2 l1 l2 : Point) (h : 0 < retained_edges S range) :
    ∃ w T e_first e_last,
      buffer_range.iterate S u c phase range side f1 f2 l1 l2 = some w ∧
      w.collection = c ++ T ∧
      (segment_edges T).length = retained_edges S range ∧
      (segment_edges T).head? = some e_first ∧
      (segment_edges T).getLast? = some e_last ∧
      (w.first_p1, w.first_p2) = S.buffer_side_apply e_first.1 e_first.2 side ∧
      (w.last_p1, w.last_p2) = S.buffer_side_apply e_last.1 e_last.2 side ∧
      (retained_edges S range = 1 →
        e_first = e_last ∧ (w.first_p1, w.first_p2) = (w.last_p1, w.last_p2)) := by
  cases range with
  | nil => simp [retained_edges] at h
  | cons b rest =>
    obtain ⟨w, hw, hc, hf, hl⟩ := iterate_trace S u c phase b rest side f1 f2 l1 l2
    have hlen := retained_edge_list_length S rest b (S.recalculate b)
    have hse := (walk_calls_counts S u phase side
      (retained_edge_list S b (S.recalculate b) rest)).1
    simp only [retained_edges] at h ⊢
    cases hE : retained_edge_list S b (S.recalculate b) rest with
    | nil => rw [hE] at hlen; simp at hlen; omega
    | cons e es =>
      rw [hE] at hf hl hse hlen hc
      have hne : (e :: es) ≠ [] := by simp
      refine ⟨w, _, e, (e :: es).getLast hne, hw, hc, ?_, ?_, ?_, ?_, ?_, ?_⟩
      · rw [hse]; exact hlen
      · rw [hse]; rfl
      · rw [hse]; exact List.getLast?_eq_getLast _ hne
      · rw [hf]; rfl
      · rw [hl]; simp only [last_offsets, List.getLast?_eq_getLast _ hne]
      · intro h1
        have hes : es = [] := by
          rw [← hlen] at h1
          simpa using h1
        subst hes
        refine ⟨rfl, ?_⟩
        rw [hf, hl]
        rfl

theorem iterate_first_last_offsets_witness :
    0 < retained_edges (cartesian 1 miter_join flat_end) square_cw ∧
    (∃ w T e_first e_last,
      buffer_range.iterate (cartesian 1 miter_join flat_end) unset_zero [] 0 square_cw buffer_side_selector.buffer_side_left ⟨0, 0⟩ ⟨0, 0⟩ ⟨0, 0⟩ ⟨0, 0⟩ = some w ∧
      w.collection = [] ++ T ∧
      (segment_edges T).length = retained_edges (cartesian 1 miter_join flat_end) square_cw ∧
      (segment_edges T).head? = some e_first ∧
      (segment_edges T).getLast? = some e_last ∧
      (w.first_p1, w.first_p2) = (cartesian 1 miter_join flat_end).buffer_side_apply e_first.1 e_first.2 buffer_side_selector.buffer_side_left ∧
      (w.last_p1, w.last_p2) = (cartesian 1 miter_join flat_end).buffer_side_apply e_last.1 e_last.2 buffer_side_selector.buffer_side_left ∧
      (retained_edges (cartesian 1 miter_join flat_end) square_cw = 1 →
        e_first = e_last ∧ (w.first_p1, w.first_p2) = (w.last_p1, w.last_p2))) :=
  ⟨by norm_num [retained_edges, retained_from, cartesian, square_cw],
   iterate_first_last_offsets (cartesian 1 miter_join flat_end) unset_zero [] 0 square_cw
     buffer_side_selector.buffer_side_left ⟨0, 0⟩ ⟨0, 0⟩ ⟨0, 0⟩ ⟨0, 0⟩
     (by norm_num [retained_edges, retained_from, cartesian, square_cw])⟩

/-- C20 (the code at the failing input). On the clockwise ring
`(0,0), (0,4), (12/5,4), (12/5,0), (0,7/10), (0,0)`, at distance 1 with the
integer grid as robust policy, the walk retains four edges, the last being
`(12/5,0) → (0,7/10)` (the closing point `(0,0)` has the robust image of
`(0,7/10)` and is skipped) and the first `(0,0) → (0,4)`.  The closing join is
given the offset end points of these two edges, but it is classified on
`*(end - 2) = (0,7/10)`, `*(end - 1) = (0,0)`, `*(begin + 1) = (0,4)`: a spike,
which gets an end cap at `(0,0)`, where the triple of the last and first
retained edges, `(12/5,0), (0,7/10), (0,4)`, is a convex corner. -/
theorem closing_join_on_skipped_closing_point (u : Unset)
    (j : Point → Point → Point → Point → ℚ → List Point)
    (e : Point → Point → Point → Point → buffer_side_selector → List Point) :
    ring_tag.apply (cartesian 1 j e) u skipped_closing_ring [] = some
      (skipped_closing_ring_walk j ++
        [Call.add_join 0 ⟨0, 7 / 10⟩ ⟨0, 0⟩ ⟨53 / 25, -24 / 25⟩ ⟨-7 / 25, -13 / 50⟩ ⟨0, 4⟩
           ⟨-1, 0⟩ ⟨-1, 4⟩ buffer_side_selector.buffer_side_left,
         Call.end_apply ⟨0, 7 / 10⟩ ⟨-7 / 25, -13 / 50⟩ ⟨0, 0⟩ ⟨-1, 0⟩
           buffer_side_selector.buffer_side_left,
         Call.add_endcap (e ⟨0, 7 / 10⟩ ⟨-7 / 25, -13 / 50⟩ ⟨0, 0⟩ ⟨-1, 0⟩
           buffer_side_selector.buffer_side_left) ⟨0, 0⟩]) ∧
    segment_edges (skipped_closing_ring_walk j) =
      [(⟨0, 0⟩, ⟨0, 4⟩), (⟨0, 4⟩, ⟨12 / 5, 4⟩), (⟨12 / 5, 4⟩, ⟨12 / 5, 0⟩),
        (⟨12 / 5, 0⟩, ⟨0, 7 / 10⟩)] ∧
    (cartesian 1 j e).buffer_side_apply ⟨12 / 5, 0⟩ ⟨0, 7 / 10⟩
      buffer_side_selector.buffer_side_left = (⟨53 / 25, -24 / 25⟩, ⟨-7 / 25, -13 / 50⟩) ∧
    (cartesian 1 j e).buffer_side_apply ⟨0, 0⟩ ⟨0, 4⟩
      buffer_side_selector.buffer_side_left = (⟨-1, 0⟩, ⟨-1, 4⟩) ∧
    buffer_range.get_join_type (cartesian 1 j e) ⟨0, 7 / 10⟩ ⟨0, 0⟩ ⟨0, 4⟩ =
      join_selector.join_spike ∧
    buffer_range.get_join_type (cartesian 1 j e) ⟨12 / 5, 0⟩ ⟨0, 7 / 10⟩ ⟨0, 4⟩ =
      join_selector.join_convex ∧
    pieces
      [Call.add_join 0 ⟨0, 7 / 10⟩ ⟨0, 0⟩ ⟨53 / 25, -24 / 25⟩ ⟨-7 / 25, -13 / 50⟩ ⟨0, 4⟩
         ⟨-1, 0⟩ ⟨-1, 4⟩ buffer_side_selector.buffer_side_left,
       Call.end_apply ⟨0, 7 / 10⟩ ⟨-7 / 25, -13 / 50⟩ ⟨0, 0⟩ ⟨-1, 0⟩
         buffer_side_selector.buffer_side_left,
       Call.add_endcap (e ⟨0, 7 / 10⟩ ⟨-7 / 25, -13 / 50⟩ ⟨0, 0⟩ ⟨-1, 0⟩
         buffer_side_selector.buffer_side_left) ⟨0, 0⟩] = [Piece.endcap] := by
  refine ⟨skipped_closing_ring_calls u j e, ?_, ?_, ?_, ?_, ?_, ?_⟩
  · simp [segment_edges, skipped_closing_ring_walk]
  · norm_num [cartesian, buffer_side, sqrt_25_4]
  · norm_num [cartesian, buffer_side, sqrt_sixteen]
  · norm_num [buffer_range.get_join_type, cartesian, strategy.side.side_by_triangle,
      detail.buffer.parallel_continue]
  · norm_num [buffer_range.get_join_type, cartesian, strategy.side.side_by_triangle]
  · simp [pieces, Call.piece]

/-- C21 (as stated, refuted). The sliver ring `(0,0), (4,0), (4,1/200), (0,0)`
has four points; at distance 1 its simplification (tolerance `1/100`) leaves the
three points `(0,0), (4,0), (0,0)`.  The ring policy nevertheless runs the
offset walk and the closing join over them and adds four pieces: two segment
pieces and two end caps. -/
theorem sliver_ring_is_walked_after_simplification :
    (cartesian_radial 1 miter_join flat_end).simplify sliver_ring
      (cartesian_radial 1 miter_join flat_end).simplify_distance =
      [⟨0, 0⟩, ⟨4, 0⟩, ⟨0, 0⟩] ∧
    ((cartesian_radial 1 miter_join flat_end).simplify sliver_ring
      (cartesian_radial 1 miter_join flat_end).simplify_distance).length ≤ 3 ∧
    ∃ T, ring_tag.apply (cartesian_radial 1 miter_join flat_end) unset_zero sliver_ring []
        = some T ∧
      pieces T = [Piece.segment, Piece.endcap, Piece.segment, Piece.endcap] ∧
      join_classifications T = 2 := by
  have hs : (cartesian_radial 1 miter_join flat_end).simplify sliver_ring
      (cartesian_radial 1 miter_join flat_end).simplify_distance =
      [⟨0, 0⟩, ⟨4, 0⟩, ⟨0, 0⟩] := by
    norm_num [cartesian_radial, cartesian, simplify_radial, simplify_radial_from,
      sliver_ring]
  have hn : (cartesian_radial 1 miter_join flat_end).distance_negative = false := by
    norm_num [cartesian_radial, cartesian]
  refine ⟨hs, by rw [hs]; simp, ?_⟩
  have happly : ring_tag.apply (cartesian_radial 1 miter_join flat_end) unset_zero
      sliver_ring [] =
      ring_tag.iterate (cartesian_radial 1 miter_join flat_end) unset_zero
        [Call.simplify sliver_ring
          (cartesian_radial 1 miter_join flat_end).simplify_distance]
        [⟨0, 0⟩, ⟨4, 0⟩, ⟨0, 0⟩] buffer_side_selector.buffer_side_left := by
    unfold ring_tag.apply
    rw [hs, hn]
    simp [sliver_ring]
  rw [happly]
  simp [ring_tag.iterate, buffer_range.iterate, buffer_range.iterate_loop,
    buffer_range.iterate_body, buffer_range.add_join, buffer_range.get_join_type,
    cartesian_radial, cartesian, buffer_side, strategy.side.side_by_triangle,
    detail.buffer.parallel_continue, pieces, Call.piece, join_classifications]
  norm_num [sqrt_sixteen, pieces, Call.piece, join_classifications]
  simp [pieces, Call.piece, join_classifications]

/-- C21 (amended). The point-count guard of the ring policy is applied to the
input ring, before the simplification: for an input ring of 3 or fewer points
nothing is called (no simplification, no walk, no closing join, no piece).  For
an input ring of more than 3 points the ring is simplified and, when the
simplified sequence `b :: b1 :: rest` (taken backwards for a negative distance)
has at least two points, however few, the offset walk runs over it and the
closing join is made on `*(end - 2)`, `*(end - 1)`, `*(begin + 1)` with the
offsets the walk returned. -/
theorem ring_policy_guard_on_input (S : Strategies) (u : Unset) (ring : List Point)
    (c : List Call) :
    (ring.length ≤ 3 → ring_tag.apply S u ring c = some c) ∧
    (3 < ring.length → ∀ (b b1 : Point) (rest : List Point),
      (if S.distance_negative = true
        then (S.simplify ring S.simplify_distance).reverse
        else S.simplify ring S.simplify_distance) = b :: b1 :: rest →
      ∃ w end_2 end_1 T,
        buffer_range.iterate S u (c ++ [Call.simplify ring S.simplify_distance]) 0
          (b :: b1 :: rest)
          (if S.distance_negative = true then buffer_side_selector.buffer_side_right
            else buffer_side_selector.buffer_side_left)
          u.first_p1 u.first_p2 u.last_p1 u.last_p2 = some w ∧
        (b :: b1 :: rest).dropLast.getLast? = some end_2 ∧
        (b :: b1 :: rest).getLast? = some end_1 ∧
        ring_tag.apply S u ring c =
          some (buffer_range.add_join S u w.collection 0 end_2 end_1 w.last_p1 w.last_p2
            b1 w.first_p1 w.first_p2
            (if S.distance_negative = true then buffer_side_selector.buffer_side_right
              else buffer_side_selector.buffer_side_left)) ∧
        ring_tag.apply S u ring c =
          some (c ++ Call.simplify ring S.simplify_distance :: T) ∧
        0 < join_classifications T) := by
  constructor
  · intro h
    have h3 : ¬ ring.length > 3 := by omega
    simp [ring_tag.apply, h3]
  · intro h b b1 rest hsimp
    obtain ⟨e2, e1, h2, h1, hb⟩ := ends_of_range b b1 rest
    have hiter : ∀ side, ring_tag.iterate S u
        (c ++ [Call.simplify ring S.simplify_distance]) (b :: b1 :: rest) side =
        some (buffer_range.add_join S u
          (iterate_loop S u 0 side
            (walk_start S u (c ++ [Call.simplify ring S.simplify_distance]) b
              u.first_p1 u.first_p2 u.last_p1 u.last_p2) (b1 :: rest)).collection
          0 e2 e1
          (iterate_loop S u 0 side
            (walk_start S u (c ++ [Call.simplify ring S.simplify_distance]) b
              u.first_p1 u.first_p2 u.last_p1 u.last_p2) (b1 :: rest)).last_p1
          (iterate_loop S u 0 side
            (walk_start S u (c ++ [Call.simplify ring S.simplify_distance]) b
              u.first_p1 u.first_p2 u.last_p1 u.last_p2) (b1 :: rest)).last_p2
          b1
          (iterate_loop S u 0 side
            (walk_start S u (c ++ [Call.simplify ring S.simplify_distance]) b
              u.first_p1 u.first_p2 u.last_p1 u.last_p2) (b1 :: rest)).first_p1
          (iterate_loop S u 0 side
            (walk_start S u (c ++ [Call.simplify ring S.simplify_distance]) b
              u.first_p1 u.first_p2 u.last_p1 u.last_p2) (b1 :: rest)).first_p2 side) := by
      intro side
      simp only [ring_tag.iterate, iterate_cons, h2, h1, hb]
    have happly : ring_tag.apply S u ring c =
        ring_tag.iterate S u (c ++ [Call.simplify ring S.simplify_distance])
          (b :: b1 :: rest)
          (if S.distance_negative = true then buffer_side_selector.buffer_side_right
            else buffer_side_selector.buffer_side_left) := by
      unfold ring_tag.apply
      have h3 : ring.length > 3 := h
      cases hn : S.distance_negative
      · rw [hn] at hsimp
        simp only [Bool.false_eq_true, if_false] at hsimp
        simp only [h3, if_true, Bool.false_eq_true, if_false, hsimp]
      · rw [hn] at hsimp
        simp only [if_true] at hsimp
        simp only [h3, if_true, hsimp]
    obtain ⟨W, hW, -⟩ := iterate_loop_of_walk S u 0
      (if S.distance_negative = true then buffer_side_selector.buffer_side_right
        else buffer_side_selector.buffer_side_left) (b1 :: rest)
      (walk_start S u (c ++ [Call.simplify ring S.simplify_distance]) b
        u.first_p1 u.first_p2 u.last_p1 u.last_p2)
    obtain ⟨J, hJ, -, hJc⟩ := add_join_counts S u
      (iterate_loop S u 0
        (if S.distance_negative = true then buffer_side_selector.buffer_side_right
          else buffer_side_selector.buffer_side_left)
        (walk_start S u (c ++ [Call.simplify ring S.simplify_distance]) b
          u.first_p1 u.first_p2 u.last_p1 u.last_p2) (b1 :: rest)).collection
      0 e2 e1
      (iterate_loop S u 0
        (if S.distance_negative = true then buffer_side_selector.buffer_side_right
          else buffer_side_selector.buffer_side_left)
        (walk_start S u (c ++ [Call.simplify ring S.simplify_distance]) b
          u.first_p1 u.first_p2 u.last_p1 u.last_p2) (b1 :: rest)).last_p1
      (iterate_loop S u 0
        (if S.distance_negative = true then buffer_side_selector.buffer_side_right
          else buffer_side_selector.buffer_side_left)
        (walk_start S u (c ++ [Call.simplify ring S.simplify_distance]) b
          u.first_p1 u.first_p2 u.last_p1 u.last_p2) (b1 :: rest)).last_p2
      b1
      (iterate_loop S u 0
        (if S.distance_negative = true then buffer_side_selector.buffer_side_right
          else buffer_side_selector.buffer_side_left)
        (walk_start S u (c ++ [Call.simplify ring S.simplify_distance]) b
          u.first_p1 u.first_p2 u.last_p1 u.last_p2) (b1 :: rest)).first_p1
      (iterate_loop S u 0
        (if S.distance_negative = true then buffer_side_selector.buffer_side_right
          else buffer_side_selector.buffer_side_left)
        (walk_start S u (c ++ [Call.simplify ring S.simplify_distance]) b
          u.first_p1 u.first_p2 u.last_p1 u.last_p2) (b1 :: rest)).first_p2
      (if S.distance_negative = true then buffer_side_selector.buffer_side_right
        else buffer_side_selector.buffer_side_left)
    refine ⟨_, e2, e1, W ++ J, iterate_cons S u _ 0 b (b1 :: rest) _ _ _ _ _, h2, h1, ?_, ?_, ?_⟩
    · rw [happly, hiter]
    · rw [happly, hiter, hJ, hW]
      simp [walk_start, List.append_assoc]
    · rw [join_classifications_append, hJc]
      omega

/-- C22 (the code at the failing input). For the linestring
`(0,0), (4,0), (4,9/10)` at distance 1, with the integer grid as robust policy,
the last point has the robust image of `(4,0)`: phase 0 retains the one edge
`(0,0) → (4,0)`, and phase 1, over the reversed sequence, retains the one edge
`(4,9/10) → (0,0)`.  The end cap after phase 0 is given the last offset point
`(4,1)` of phase 0's segment piece, and as opposite-side point `(5, 9/10)`,
computed from the edge `(4,9/10) → (4,0)`; the first segment piece of phase 1
starts at `(173/41, -31/410)`, another point. -/
theorem end_cap_reference_on_skipped_end_point (u : Unset)
    (j : Point → Point → Point → Point → ℚ → List Point)
    (e : Point → Point → Point → Point → buffer_side_selector → List Point) :
    linestring_tag.apply (cartesian 1 j e) u skipped_end_line [] = some
      [Call.simplify skipped_end_line (1 / 100),
       Call.start_new_ring,
       Call.buffer_side_apply ⟨4, 9 / 10⟩ ⟨4, 0⟩ buffer_side_selector.buffer_side_right,
       Call.buffer_side_apply ⟨0, 0⟩ ⟨4, 0⟩ buffer_side_selector.buffer_side_left,
       Call.add_piece_segment piece_type.buffered_segment ⟨0, 0⟩ ⟨4, 0⟩ ⟨0, 1⟩ ⟨4, 1⟩ true,
       Call.end_apply ⟨4, 0⟩ ⟨4, 1⟩ ⟨4, 9 / 10⟩ ⟨5, 9 / 10⟩
         buffer_side_selector.buffer_side_left,
       Call.add_endcap (e ⟨4, 0⟩ ⟨4, 1⟩ ⟨4, 9 / 10⟩ ⟨5, 9 / 10⟩
         buffer_side_selector.buffer_side_left) ⟨4, 9 / 10⟩,
       Call.buffer_side_apply ⟨4, 9 / 10⟩ ⟨0, 0⟩ buffer_side_selector.buffer_side_right,
       Call.add_piece_segment piece_type.buffered_segment ⟨4, 9 / 10⟩ ⟨0, 0⟩
         ⟨173 / 41, -31 / 410⟩ ⟨9 / 41, -40 / 41⟩ true,
       Call.end_apply ⟨4, 0⟩ ⟨9 / 41, -40 / 41⟩ ⟨0, 0⟩ ⟨0, 1⟩
         buffer_side_selector.buffer_side_right,
       Call.add_endcap (e ⟨4, 0⟩ ⟨9 / 41, -40 / 41⟩ ⟨0, 0⟩ ⟨0, 1⟩
         buffer_side_selector.buffer_side_right) ⟨0, 0⟩] ∧
    linestring_tag.first_perpendicular_point (cartesian 1 j e) ⟨4, 9 / 10⟩ ⟨4, 0⟩ =
      ⟨5, 9 / 10⟩ ∧
    (cartesian 1 j e).buffer_side_apply ⟨4, 9 / 10⟩ ⟨0, 0⟩
      buffer_side_selector.buffer_side_right =
      (⟨173 / 41, -31 / 410⟩, ⟨9 / 41, -40 / 41⟩) ∧
    (cartesian 1 j e).recalculate ⟨4, 9 / 10⟩ = (cartesian 1 j e).recalculate ⟨4, 0⟩ ∧
    (⟨5, 9 / 10⟩ : Point) ≠ ⟨173 / 41, -31 / 410⟩ := by
  refine ⟨skipped_end_line_calls u j e, ?_, ?_, ?_, ?_⟩
  · norm_num [linestring_tag.first_perpendicular_point, cartesian, buffer_side, sqrt_81_100]
  · norm_num [cartesian, buffer_side, sqrt_1681_100]
  · norm_num [cartesian]
  · norm_num

/-- C23. For every concave triple (the side predicate of `input` relative to
`penultimate_input → previous_input` is `+1`), whatever the offset points are,
`get_join_type` gives `join_concave` and `add_join` adds exactly one piece, the
concave piece on `previous_input`, `prev_perp2`, `perp1` in that order: after
the classification it makes no other call (no line intersection, no distance,
join or end-cap strategy). -/
theorem concave_triple_gets_one_wedge (S : Strategies) (u : Unset) (c : List Call)
    (phase : Nat) (pen prev pp1 pp2 inp p1 p2 : Point) (side : buffer_side_selector)
    (h : S.side_apply pen prev inp = 1) :
    buffer_range.get_join_type S pen prev inp = join_selector.join_concave ∧
    buffer_range.add_join S u c phase pen prev pp1 pp2 inp p1 p2 side =
      c ++ [Call.add_join phase pen prev pp1 pp2 inp p1 p2 side,
        Call.add_piece_3 piece_type.buffered_concave prev pp2 p1] ∧
    pieces [Call.add_join phase pen prev pp1 pp2 inp p1 p2 side,
        Call.add_piece_3 piece_type.buffered_concave prev pp2 p1] = [Piece.concave] := by
  have hj : buffer_range.get_join_type S pen prev inp = join_selector.join_concave := by
    simp [buffer_range.get_join_type, h]
  refine ⟨hj, ?_, by simp [pieces, Call.piece]⟩
  unfold buffer_range.add_join
  simp [hj]

theorem concave_triple_gets_one_wedge_witness :
    (cartesian 1 miter_join flat_end).side_apply ⟨0, 0⟩ ⟨4, 0⟩ ⟨4, 4⟩ = 1 ∧
    (buffer_range.get_join_type (cartesian 1 miter_join flat_end) ⟨0, 0⟩ ⟨4, 0⟩ ⟨4, 4⟩ =
        join_selector.join_concave ∧
      buffer_range.add_join (cartesian 1 miter_join flat_end) unset_zero [] 0 ⟨0, 0⟩ ⟨4, 0⟩
          ⟨0, 1⟩ ⟨4, 1⟩ ⟨4, 4⟩ ⟨3, 0⟩ ⟨3, 4⟩ buffer_side_selector.buffer_side_left =
        [] ++ [Call.add_join 0 ⟨0, 0⟩ ⟨4, 0⟩ ⟨0, 1⟩ ⟨4, 1⟩ ⟨4, 4⟩ ⟨3, 0⟩ ⟨3, 4⟩
            buffer_side_selector.buffer_side_left,
          Call.add_piece_3 piece_type.buffered_concave ⟨4, 0⟩ ⟨4, 1⟩ ⟨3, 0⟩] ∧
      pieces [Call.add_join 0 ⟨0, 0⟩ ⟨4, 0⟩ ⟨0, 1⟩ ⟨4, 1⟩ ⟨4, 4⟩ ⟨3, 0⟩ ⟨3, 4⟩
            buffer_side_selector.buffer_side_left,
          Call.add_piece_3 piece_type.buffered_concave ⟨4, 0⟩ ⟨4, 1⟩ ⟨3, 0⟩] =
        [Piece.concave]) :=
  have hside : (cartesian 1 miter_join flat_end).side_apply ⟨0, 0⟩ ⟨4, 0⟩ ⟨4, 4⟩ = 1 := by
    norm_num [cartesian, strategy.side.side_by_triangle]
  ⟨hside, concave_triple_gets_one_wedge (cartesian 1 miter_join flat_end) unset_zero [] 0
    ⟨0, 0⟩ ⟨4, 0⟩ ⟨0, 1⟩ ⟨4, 1⟩ ⟨4, 4⟩ ⟨3, 0⟩ ⟨3, 4⟩ buffer_side_selector.buffer_side_left
    hside⟩

/-- C24. For every corner that `add_join` finally treats as convex
(`get_join_type` gives `join_convex` and so does the intersection of the two
offset segments), the calls after the classification and the intersection are:
the distance strategy for the new edge `previous_input → input` on the walked
side, the join strategy, once, with the intersection point, `previous_input`,
`prev_perp2`, `perp1` and that distance, in this order, and one join piece that
holds the points the join strategy produced, with `previous_input` as its
input point. -/
theorem convex_corner_join_strategy_call (S : Strategies) (u : Unset) (c : List Call)
    (phase : Nat) (pen prev pp1 pp2 inp p1 p2 : Point) (side : buffer_side_selector)
    (hj : buffer_range.get_join_type S pen prev inp = join_selector.join_convex)
    (hi : (S.line_line_intersection p1 p2 pp1 pp2 u.intersection_point).1 =
      join_selector.join_convex) :
    ∃ J, buffer_range.add_join S u c phase pen prev pp1 pp2 inp p1 p2 side = c ++ J ∧
      J = [Call.add_join phase pen prev pp1 pp2 inp p1 p2 side,
        Call.line_line_intersection p1 p2 pp1 pp2,
        Call.distance_apply prev inp side,
        Call.join_apply (S.line_line_intersection p1 p2 pp1 pp2 u.intersection_point).2
          prev pp2 p1 (S.distance_apply prev inp side),
        Call.add_piece_range piece_type.buffered_join prev
          (S.join_apply (S.line_line_intersection p1 p2 pp1 pp2 u.intersection_point).2
            prev pp2 p1 (S.distance_apply prev inp side))] ∧
      (J.filter fun x =>
        match x with
        | Call.join_apply _ _ _ _ _ => true
        | _ => false).length = 1 ∧
      pieces J = [Piece.join] := by
  refine ⟨_, add_join_convex_calls S u c phase pen prev pp1 pp2 inp p1 p2 side
    (S.line_line_intersection p1 p2 pp1 pp2 u.intersection_point).2 hj ?_, rfl, ?_, ?_⟩
  · rw [← hi]
  · simp [List.filter_cons]
  · simp [pieces, Call.piece]

theorem convex_corner_join_strategy_call_witness :
    buffer_range.get_join_type (cartesian 1 miter_join flat_end) ⟨0, 0⟩ ⟨0, 4⟩ ⟨4, 4⟩ = join_selector.join_convex ∧
    ((cartesian 1 miter_join flat_end).line_line_intersection ⟨0, 5⟩ ⟨4, 5⟩ ⟨-1, 0⟩ ⟨-1, 4⟩
        unset_zero.intersection_point).1 = join_selector.join_convex ∧
    (∃ J, buffer_range.add_join (cartesian 1 miter_join flat_end) unset_zero [] 0 ⟨0, 0⟩ ⟨0, 4⟩ ⟨-1, 0⟩ ⟨-1, 4⟩ ⟨4, 4⟩ ⟨0, 5⟩ ⟨4, 5⟩ buffer_side_selector.buffer_side_left = [] ++ J ∧
      J = [Call.add_join 0 ⟨0, 0⟩ ⟨0, 4⟩ ⟨-1, 0⟩ ⟨-1, 4⟩ ⟨4, 4⟩ ⟨0, 5⟩ ⟨4, 5⟩ buffer_side_selector.buffer_side_left,
        Call.line_line_intersection ⟨0, 5⟩ ⟨4, 5⟩ ⟨-1, 0⟩ ⟨-1, 4⟩,
        Call.distance_apply ⟨0, 4⟩ ⟨4, 4⟩ buffer_side_selector.buffer_side_left,
        Call.join_apply ((cartesian 1 miter_join flat_end).line_line_intersection ⟨0, 5⟩ ⟨4, 5⟩ ⟨-1, 0⟩ ⟨-1, 4⟩ unset_zero.intersection_point).2
          ⟨0, 4⟩ ⟨-1, 4⟩ ⟨0, 5⟩ ((cartesian 1 miter_join flat_end).distance_apply ⟨0, 4⟩ ⟨4, 4⟩ buffer_side_selector.buffer_side_left),
        Call.add_piece_range piece_type.buffered_join ⟨0, 4⟩
          ((cartesian 1 miter_join flat_end).join_apply ((cartesian 1 miter_join flat_end).line_line_intersection ⟨0, 5⟩ ⟨4, 5⟩ ⟨-1, 0⟩ ⟨-1, 4⟩ unset_zero.intersection_point).2
            ⟨0, 4⟩ ⟨-1, 4⟩ ⟨0, 5⟩ ((cartesian 1 miter_join flat_end).distance_apply ⟨0, 4⟩ ⟨4, 4⟩ buffer_side_selector.buffer_side_left))] ∧
      (J.filter fun x =>
        match x with
        | Call.join_apply _ _ _ _ _ => true
        | _ => false).length = 1 ∧
      pieces J = [Piece.join]) :=
  have hj : buffer_range.get_join_type (cartesian 1 miter_join flat_end) ⟨0, 0⟩ ⟨0, 4⟩ ⟨4, 4⟩ = join_selector.join_convex := by
    norm_num [buffer_range.get_join_type, cartesian, strategy.side.side_by_triangle]
  have hi : ((cartesian 1 miter_join flat_end).line_line_intersection ⟨0, 5⟩ ⟨4, 5⟩ ⟨-1, 0⟩ ⟨-1, 4⟩
        unset_zero.intersection_point).1 = join_selector.join_convex := by
    norm_num [cartesian, detail.buffer.line_line_intersection, detail.buffer.determinant]
  ⟨hj, hi, convex_corner_join_strategy_call (cartesian 1 miter_join flat_end) unset_zero [] 0
    ⟨0, 0⟩ ⟨0, 4⟩ ⟨-1, 0⟩ ⟨-1, 4⟩ ⟨4, 4⟩ ⟨0, 5⟩ ⟨4, 5⟩
    buffer_side_selector.buffer_side_left hj hi⟩

/-- C25. For every non-empty point sequence whose consecutive points are all
robust-equal (a one-point sequence included), `buffer_range::iterate` returns
and leaves the collection as it was (no piece, no call to the side generator or
to a distance, join or end-cap strategy) and the four output points
`first_p1`, `first_p2`, `last_p1`, `last_p2` as they were on entry. -/
theorem iterate_without_retained_edge (S : Strategies) (u : Unset) (c : List Call)
    (phase : Nat) (range : List Point) (side : buffer_side_selector)
    (f1 f2 l1 l2 : Point) (hne : range ≠ [])
    (h : List.Chain' (fun p q => S.recalculate p = S.recalculate q) range) :
    retained_edges S range = 0 ∧
    ∃ w, buffer_range.iterate S u c phase range side f1 f2 l1 l2 = some w ∧
      w.collection = c ∧
      w.first_p1 = f1 ∧ w.first_p2 = f2 ∧ w.last_p1 = l1 ∧ w.last_p2 = l2 := by
  cases range with
  | nil => exact absurd rfl hne
  | cons b rest =>
    have hE := retained_edge_list_of_equal S rest b b h
    obtain ⟨w, hw, hc, hf, hl⟩ := iterate_trace S u c phase b rest side f1 f2 l1 l2
    rw [hE] at hc hf hl
    simp only [walk_calls, List.append_nil] at hc
    simp only [first_offsets, List.head?_nil, Prod.mk.injEq] at hf
    simp only [last_offsets, List.getLast?_nil, Prod.mk.injEq] at hl
    refine ⟨?_, w, hw, hc, hf.1, hf.2, hl.1, hl.2⟩
    have hlen := retained_edge_list_length S rest b (S.recalculate b)
    rw [hE] at hlen
    simp only [retained_edges]
    exact hlen.symm

theorem iterate_without_retained_edge_witness :
    ([⟨0, 0⟩, ⟨1 / 2, 0⟩, ⟨0, 1 / 2⟩] : List Point) ≠ [] ∧
    List.Chain' (fun p q => (cartesian 1 miter_join flat_end).recalculate p =
      (cartesian 1 miter_join flat_end).recalculate q)
      [⟨0, 0⟩, ⟨1 / 2, 0⟩, ⟨0, 1 / 2⟩] ∧
    (retained_edges (cartesian 1 miter_join flat_end) [⟨0, 0⟩, ⟨1 / 2, 0⟩, ⟨0, 1 / 2⟩] = 0 ∧
    ∃ w, buffer_range.iterate (cartesian 1 miter_join flat_end) unset_zero [] 0
        [⟨0, 0⟩, ⟨1 / 2, 0⟩, ⟨0, 1 / 2⟩] buffer_side_selector.buffer_side_left
        ⟨1, 1⟩ ⟨2, 2⟩ ⟨3, 3⟩ ⟨4, 4⟩ = some w ∧
      w.collection = [] ∧
      w.first_p1 = ⟨1, 1⟩ ∧ w.first_p2 = ⟨2, 2⟩ ∧ w.last_p1 = ⟨3, 3⟩ ∧ w.last_p2 = ⟨4, 4⟩) :=
  have hch : List.Chain' (fun p q => (cartesian 1 miter_join flat_end).recalculate p =
      (cartesian 1 miter_join flat_end).recalculate q)
      [⟨0, 0⟩, ⟨1 / 2, 0⟩, ⟨0, 1 / 2⟩] := by
    norm_num [List.Chain', cartesian]
  ⟨by simp, hch,
    iterate_without_retained_edge (cartesian 1 miter_join flat_end) unset_zero [] 0
      [⟨0, 0⟩, ⟨1 / 2, 0⟩, ⟨0, 1 / 2⟩] buffer_side_selector.buffer_side_left
      ⟨1, 1⟩ ⟨2, 2⟩ ⟨3, 3⟩ ⟨4, 4⟩ (by simp) hch⟩

/-- C26. With `d` the distance the distance strategy gives for the edge
`(p, p)` on the left side, the circle piece of the point `p = (x, y)` holds, for
`i = 0..87`, vertex `i` at `(x + d cos (-i 2 pi / 88), y + d sin (-i 2 pi / 88))`,
and vertex 0 again at the end.  With `cos 0 = 1` and `sin 0 = 0` vertex 0 is
`(x + d, y)`; with `cos² + sin² = 1` every vertex lies at distance `|d|` from
`p`; with `pi > 0` the angles decrease from vertex to vertex, stay above
`-2 pi` and start at 0 (once round, clockwise). -/
theorem circle_vertices (S : Strategies) (M : Trig) (u : Unset) (point : Point)
    (c : List Call)
    (hcos : M.cos 0 = 1) (hsin : M.sin 0 = 0)
    (hpyth : ∀ a, M.cos a * M.cos a + M.sin a * M.sin a = 1) (hpi : 0 < M.pi) :
    ∃ range_out,
      point_tag.apply S M u point c =
        c ++ [Call.start_new_ring,
          Call.distance_apply point point buffer_side_selector.buffer_side_left,
          Call.add_piece_closed piece_type.buffered_circle range_out false] ∧
      range_out.length = 89 ∧
      (∀ i : Nat, i < 88 → range_out[i]? = some (circle_vertex M point
        (S.distance_apply point point buffer_side_selector.buffer_side_left) i)) ∧
      range_out[88]? = some (circle_vertex M point
        (S.distance_apply point point buffer_side_selector.buffer_side_left) 0) ∧
      circle_vertex M point
          (S.distance_apply point point buffer_side_selector.buffer_side_left) 0 =
        ⟨point.x + S.distance_apply point point buffer_side_selector.buffer_side_left,
          point.y⟩ ∧
      (∀ v ∈ range_out,
        (v.x - point.x) * (v.x - point.x) + (v.y - point.y) * (v.y - point.y) =
          |S.distance_apply point point buffer_side_selector.buffer_side_left| *
          |S.distance_apply point point buffer_side_selector.buffer_side_left|) ∧
      circle_angle M 0 = 0 ∧
      (∀ i : Nat, circle_angle M (i + 1) < circle_angle M i) ∧
      (∀ i : Nat, i < 88 → -(2 * M.pi) < circle_angle M i) := by
  have hv := generate_points_vertices M u point
    (S.distance_apply point point buffer_side_selector.buffer_side_left)
  have hdist : ∀ i : Nat,
      ((circle_vertex M point
          (S.distance_apply point point buffer_side_selector.buffer_side_left) i).x -
          point.x) *
        ((circle_vertex M point
          (S.distance_apply point point buffer_side_selector.buffer_side_left) i).x -
          point.x) +
      ((circle_vertex M point
          (S.distance_apply point point buffer_side_selector.buffer_side_left) i).y -
          point.y) *
        ((circle_vertex M point
          (S.distance_apply point point buffer_side_selector.buffer_side_left) i).y -
          point.y) =
      |S.distance_apply point point buffer_side_selector.buffer_side_left| *
        |S.distance_apply point point buffer_side_selector.buffer_side_left| := by
    intro i
    simp only [circle_vertex, abs_mul_abs_self]
    have hp := hpyth (circle_angle M i)
    linear_combination
      (S.distance_apply point point buffer_side_selector.buffer_side_left *
        S.distance_apply point point buffer_side_selector.buffer_side_left) * hp
  refine ⟨buffer_point.generate_points M u point
    (S.distance_apply point point buffer_side_selector.buffer_side_left) [],
    ?_, ?_, ?_, ?_, ?_, ?_, ?_, ?_, ?_⟩
  · simp [point_tag.apply, buffer_point.generate_circle, List.append_assoc]
  · rw [hv]; simp
  · intro i hi
    rw [hv, List.getElem?_append_left (by simpa using hi)]
    simp [hi]
  · rw [hv, List.getElem?_append_right (by simp)]
    simp
  · simp [circle_vertex, circle_angle, hcos, hsin]
  · intro v hvm
    rw [hv] at hvm
    simp only [List.mem_append, List.mem_map, List.mem_range, List.mem_singleton] at hvm
    rcases hvm with ⟨i, -, rfl⟩ | rfl
    · exact hdist i
    · exact hdist 0
  · simp [circle_angle]
  · intro i
    simp only [circle_angle]
    push_cast
    linarith
  · intro i hi
    simp only [circle_angle]
    have hi' : (i : ℚ) < 88 := by exact_mod_cast hi
    have : (i : ℚ) * M.pi < 88 * M.pi := by nlinarith
    linarith

theorem circle_vertices_witness :
    trig_rational.cos 0 = 1 ∧ trig_rational.sin 0 = 0 ∧
    (∀ a, trig_rational.cos a * trig_rational.cos a +
      trig_rational.sin a * trig_rational.sin a = 1) ∧
    0 < trig_rational.pi ∧
    (∃ range_out,
      point_tag.apply (cartesian 1 miter_join flat_end) trig_rational unset_zero ⟨2, 3⟩ [] =
        [] ++ [Call.start_new_ring,
          Call.distance_apply ⟨2, 3⟩ ⟨2, 3⟩ buffer_side_selector.buffer_side_left,
          Call.add_piece_closed piece_type.buffered_circle range_out false] ∧
      range_out.length = 89 ∧
      (∀ i : Nat, i < 88 → range_out[i]? = some (circle_vertex trig_rational ⟨2, 3⟩
        ((cartesian 1 miter_join flat_end).distance_apply ⟨2, 3⟩ ⟨2, 3⟩
          buffer_side_selector.buffer_side_left) i)) ∧
      range_out[88]? = some (circle_vertex trig_rational ⟨2, 3⟩
        ((cartesian 1 miter_join flat_end).distance_apply ⟨2, 3⟩ ⟨2, 3⟩
          buffer_side_selector.buffer_side_left) 0) ∧
      circle_vertex trig_rational ⟨2, 3⟩
          ((cartesian 1 miter_join flat_end).distance_apply ⟨2, 3⟩ ⟨2, 3⟩
            buffer_side_selector.buffer_side_left) 0 =
        ⟨(⟨2, 3⟩ : Point).x + (cartesian 1 miter_join flat_end).distance_apply ⟨2, 3⟩ ⟨2, 3⟩
            buffer_side_selector.buffer_side_left,
          (⟨2, 3⟩ : Point).y⟩ ∧
      (∀ v ∈ range_out,
        (v.x - (⟨2, 3⟩ : Point).x) * (v.x - (⟨2, 3⟩ : Point).x) +
            (v.y - (⟨2, 3⟩ : Point).y) * (v.y - (⟨2, 3⟩ : Point).y) =
          |(cartesian 1 miter_join flat_end).distance_apply ⟨2, 3⟩ ⟨2, 3⟩
            buffer_side_selector.buffer_side_left| *
          |(cartesian 1 miter_join flat_end).distance_apply ⟨2, 3⟩ ⟨2, 3⟩
            buffer_side_selector.buffer_side_left|) ∧
      circle_angle trig_rational 0 = 0 ∧
      (∀ i : Nat, circle_angle trig_rational (i + 1) < circle_angle trig_rational i) ∧
      (∀ i : Nat, i < 88 → -(2 * trig_rational.pi) < circle_angle trig_rational i)) :=
  have hcos : trig_rational.cos 0 = 1 := by norm_num [trig_rational]
  have hsin : trig_rational.sin 0 = 0 := by norm_num [trig_rational]
  have hpyth : ∀ a, trig_rational.cos a * trig_rational.cos a +
      trig_rational.sin a * trig_rational.sin a = 1 := by
    intro a
    have h : (1 + a * a) ≠ 0 := ne_of_gt (by nlinarith [mul_self_nonneg a])
    simp only [trig_rational]
    field_simp
    ring
  have hpi : 0 < trig_rational.pi := by norm_num [trig_rational]
  ⟨hcos, hsin, hpyth, hpi,
    circle_vertices (cartesian 1 miter_join flat_end) trig_rational unset_zero ⟨2, 3⟩ []
      hcos hsin hpyth hpi⟩

/-- C27. In `buffer_range::iterate` over `b :: rest` (robust equality being
equality of the robust images), at the start of every loop iteration, and after
the last, the stored previous robust point is the robust image of the last
retained point `*prev`.  So the edges the side generator is called for are the
edges of the segment pieces, and each of them has end points with different
robust images, hence different end points and a squared length that is not
zero; the length by which the side generator of the spec divides is not zero
either. -/
theorem iterate_previous_robust_invariant (S : Strategies) (u : Unset) (c : List Call)
    (phase : Nat) (b : Point) (rest : List Point) (side : buffer_side_selector)
    (f1 f2 l1 l2 : Point) :
    (∀ k : Nat,
      (iterate_loop S u phase side (walk_start S u c b f1 f2 l1 l2)
          (rest.take k)).previous_robust_input =
        S.recalculate (iterate_loop S u phase side (walk_start S u c b f1 f2 l1 l2)
          (rest.take k)).prev) ∧
    ∃ w T, buffer_range.iterate S u c phase (b :: rest) side f1 f2 l1 l2 = some w ∧
      w.collection = c ++ T ∧
      side_generator_edges T = segment_edges T ∧
      ∀ e ∈ segment_edges T,
        S.recalculate e.1 ≠ S.recalculate e.2 ∧ e.1 ≠ e.2 ∧
        (e.2.x - e.1.x) * (e.2.x - e.1.x) + (e.2.y - e.1.y) * (e.2.y - e.1.y) ≠ 0 ∧
        Rat.sqrt ((e.2.x - e.1.x) * (e.2.x - e.1.x) +
          (e.2.y - e.1.y) * (e.2.y - e.1.y)) ≠ 0 := by
  constructor
  · intro k
    exact iterate_loop_previous_robust S u phase side (rest.take k) _ rfl
  · obtain ⟨w, hw, hc, -, -⟩ := iterate_trace S u c phase b rest side f1 f2 l1 l2
    refine ⟨w, _, hw, hc, ?_, ?_⟩
    · rw [walk_calls_side_generator, (walk_calls_counts S u phase side _).1]
    · rw [(walk_calls_counts S u phase side _).1]
      intro e he
      have hr := retained_edge_list_distinct S rest b e he
      have hne : e.1 ≠ e.2 := fun heq => hr (by rw [heq])
      have hpos := sum_squares_pos_of_ne e.1 e.2 hne
      exact ⟨hr, hne, ne_of_gt hpos, rat_sqrt_ne_zero _ hpos⟩

/-- C28. With the parallel test of the spec (the sign of the dot product of the
two edge vectors) and a side predicate that changes sign when the triple is
reversed: `get_join_type (p2, p1, p0)` is concave when
`get_join_type (p0, p1, p2)` is convex, convex when it is concave, and continue
or spike when it is continue or spike.  A corner that is not collinear (side
`1` or `-1`) is classified convex in exactly one of the two directions.  The
classification takes no side, and the kinds of the pieces `add_join` adds for
the triple are the same on both sides. -/
theorem reversed_triple_mirrors_join_type (S : Strategies) (p0 p1 p2 : Point)
    (hpar : S.parallel_continue = detail.buffer.parallel_continue)
    (hside : S.side_apply p2 p1 p0 = -S.side_apply p0 p1 p2) :
    (buffer_range.get_join_type S p0 p1 p2 = join_selector.join_convex →
      buffer_range.get_join_type S p2 p1 p0 = join_selector.join_concave) ∧
    (buffer_range.get_join_type S p0 p1 p2 = join_selector.join_concave →
      buffer_range.get_join_type S p2 p1 p0 = join_selector.join_convex) ∧
    (buffer_range.get_join_type S p0 p1 p2 = join_selector.join_continue →
      buffer_range.get_join_type S p2 p1 p0 = join_selector.join_continue) ∧
    (buffer_range.get_join_type S p0 p1 p2 = join_selector.join_spike →
      buffer_range.get_join_type S p2 p1 p0 = join_selector.join_spike) ∧
    (S.side_apply p0 p1 p2 = 1 ∨ S.side_apply p0 p1 p2 = -1 →
      (buffer_range.get_join_type S p0 p1 p2 = join_selector.join_convex ↔
        buffer_range.get_join_type S p2 p1 p0 ≠ join_selector.join_convex)) ∧
    (∀ (u : Unset) (phase : Nat) (pp1 pp2 q1 q2 : Point) (s1 s2 : buffer_side_selector),
      pieces (buffer_range.add_join S u [] phase p0 p1 pp1 pp2 p2 q1 q2 s1) =
        pieces (buffer_range.add_join S u [] phase p0 p1 pp1 pp2 p2 q1 q2 s2)) := by
  have hdot : detail.buffer.parallel_continue (p0.x - p1.x) (p0.y - p1.y) (p1.x - p2.x)
      (p1.y - p2.y) =
      detail.buffer.parallel_continue (p2.x - p1.x) (p2.y - p1.y) (p1.x - p0.x)
        (p1.y - p0.y) := by
    unfold detail.buffer.parallel_continue
    congr 1
    apply propext
    constructor <;> intro h <;> nlinarith [h]
  have key : ∀ s : Int, S.side_apply p0 p1 p2 = s →
      buffer_range.get_join_type S p2 p1 p0 =
        (if s = 1 then join_selector.join_convex
         else if s = -1 then join_selector.join_concave
         else buffer_range.get_join_type S p0 p1 p2) := by
    intro s hs
    unfold buffer_range.get_join_type
    simp only [hside, hs, hpar, hdot]
    by_cases h1 : s = 1
    · subst h1; simp
    · by_cases h2 : s = -1
      · subst h2; simp
      · have h3 : ¬ -s = -1 := by omega
        have h4 : ¬ -s = 1 := by omega
        simp [h1, h2, h3, h4]
  have hfw : ∀ s : Int, S.side_apply p0 p1 p2 = s →
      buffer_range.get_join_type S p0 p1 p2 =
        (if s = -1 then join_selector.join_convex
         else if s = 1 then join_selector.join_concave
         else if detail.buffer.parallel_continue (p2.x - p1.x) (p2.y - p1.y) (p1.x - p0.x)
            (p1.y - p0.y) = true then join_selector.join_continue
         else join_selector.join_spike) := by
    intro s hs
    unfold buffer_range.get_join_type
    simp only [hs, hpar]
  have k := key _ rfl
  have f := hfw _ rfl
  refine ⟨?_, ?_, ?_, ?_, ?_, fun u phase pp1 pp2 q1 q2 s1 s2 =>
    add_join_pieces_side S u phase p0 p1 pp1 pp2 p2 q1 q2 s1 s2⟩
  · intro h
    by_cases h1 : S.side_apply p0 p1 p2 = -1
    · rw [k]; simp [h1]
    · rw [f] at h
      by_cases h2 : S.side_apply p0 p1 p2 = 1
      · simp [h1, h2] at h
      · simp only [h1, h2, if_false] at h
        split at h <;> simp at h
  · intro h
    by_cases h2 : S.side_apply p0 p1 p2 = 1
    · rw [k]; simp [h2]
    · rw [f] at h
      by_cases h1 : S.side_apply p0 p1 p2 = -1
      · simp [h1] at h
      · simp only [h1, h2, if_false] at h
        split at h <;> simp at h
  · intro h
    by_cases h1 : S.side_apply p0 p1 p2 = -1
    · rw [f] at h; simp [h1] at h
    · by_cases h2 : S.side_apply p0 p1 p2 = 1
      · rw [f] at h; simp [h1, h2] at h
      · rw [k]; simp [h1, h2, h]
  · intro h
    by_cases h1 : S.side_apply p0 p1 p2 = -1
    · rw [f] at h; simp [h1] at h
    · by_cases h2 : S.side_apply p0 p1 p2 = 1
      · rw [f] at h; simp [h1, h2] at h
      · rw [k]; simp [h1, h2, h]
  · intro h
    rcases h with h | h
    · rw [k, f]; simp [h]
    · rw [k, f]; simp [h]

theorem reversed_triple_mirrors_join_type_witness :
    (cartesian 1 miter_join flat_end).parallel_continue = detail.buffer.parallel_continue ∧
    (cartesian 1 miter_join flat_end).side_apply ⟨4, 4⟩ ⟨0, 4⟩ ⟨0, 0⟩ =
      -(cartesian 1 miter_join flat_end).side_apply ⟨0, 0⟩ ⟨0, 4⟩ ⟨4, 4⟩ ∧
    ((buffer_range.get_join_type (cartesian 1 miter_join flat_end) ⟨0, 0⟩ ⟨0, 4⟩ ⟨4, 4⟩ = join_selector.join_convex →
      buffer_range.get_join_type (cartesian 1 miter_join flat_end) ⟨4, 4⟩ ⟨0, 4⟩ ⟨0, 0⟩ = join_selector.join_concave) ∧
    (buffer_range.get_join_type (cartesian 1 miter_join flat_end) ⟨0, 0⟩ ⟨0, 4⟩ ⟨4, 4⟩ = join_selector.join_concave →
      buffer_range.get_join_type (cartesian 1 miter_join flat_end) ⟨4, 4⟩ ⟨0, 4⟩ ⟨0, 0⟩ = join_selector.join_convex) ∧
    (buffer_range.get_join_type (cartesian 1 miter_join flat_end) ⟨0, 0⟩ ⟨0, 4⟩ ⟨4, 4⟩ = join_selector.join_continue →
      buffer_range.get_join_type (cartesian 1 miter_join flat_end) ⟨4, 4⟩ ⟨0, 4⟩ ⟨0, 0⟩ = join_selector.join_continue) ∧
    (buffer_range.get_join_type (cartesian 1 miter_join flat_end) ⟨0, 0⟩ ⟨0, 4⟩ ⟨4, 4⟩ = join_selector.join_spike →
      buffer_range.get_join_type (cartesian 1 miter_join flat_end) ⟨4, 4⟩ ⟨0, 4⟩ ⟨0, 0⟩ = join_selector.join_spike) ∧
    ((cartesian 1 miter_join flat_end).side_apply ⟨0, 0⟩ ⟨0, 4⟩ ⟨4, 4⟩ = 1 ∨ (cartesian 1 miter_join flat_end).side_apply ⟨0, 0⟩ ⟨0, 4⟩ ⟨4, 4⟩ = -1 →
      (buffer_range.get_join_type (cartesian 1 miter_join flat_end) ⟨0, 0⟩ ⟨0, 4⟩ ⟨4, 4⟩ = join_selector.join_convex ↔
        buffer_range.get_join_type (cartesian 1 miter_join flat_end) ⟨4, 4⟩ ⟨0, 4⟩ ⟨0, 0⟩ ≠ join_selector.join_convex)) ∧
    (∀ (u : Unset) (phase : Nat) (pp1 pp2 q1 q2 : Point) (s1 s2 : buffer_side_selector),
      pieces (buffer_range.add_join (cartesian 1 miter_join flat_end) u [] phase ⟨0, 0⟩ ⟨0, 4⟩ pp1 pp2 ⟨4, 4⟩ q1 q2 s1) =
        pieces (buffer_range.add_join (cartesian 1 miter_join flat_end) u [] phase ⟨0, 0⟩ ⟨0, 4⟩ pp1 pp2 ⟨4, 4⟩ q1 q2 s2))) :=
  have hside : (cartesian 1 miter_join flat_end).side_apply ⟨4, 4⟩ ⟨0, 4⟩ ⟨0, 0⟩ =
      -(cartesian 1 miter_join flat_end).side_apply ⟨0, 0⟩ ⟨0, 4⟩ ⟨4, 4⟩ := by
    norm_num [cartesian, strategy.side.side_by_triangle]
  ⟨rfl, hside,
    reversed_triple_mirrors_join_type (cartesian 1 miter_join flat_end)
      ⟨0, 0⟩ ⟨0, 4⟩ ⟨4, 4⟩ rfl hside⟩

/-- C29. The calls `J` of `add_join` hold the intersection of the two offset
segments exactly when `get_join_type` classified the triple as convex, and then
once.  In that case `add_join` acts on the kind the intersection returns: on
`join_continue` it makes no further call (no piece), on `join_spike` it calls
the end-cap strategy and adds one end cap (no join piece), on `join_convex` it
calls the distance and join strategies and adds one join piece.  A triple that
`get_join_type` classified concave, continue or spike is acted on as
classified, without the intersection: a concave piece, nothing, an end cap. -/
theorem add_join_consults_intersection (S : Strategies) (u : Unset) (c : List Call)
    (phase : Nat) (pen prev pp1 pp2 inp p1 p2 : Point) (side : buffer_side_selector) :
    ∃ J, buffer_range.add_join S u c phase pen prev pp1 pp2 inp p1 p2 side = c ++ J ∧
      (Call.line_line_intersection p1 p2 pp1 pp2 ∈ J ↔
        buffer_range.get_join_type S pen prev inp = join_selector.join_convex) ∧
      (J.filter fun x =>
        match x with
        | Call.line_line_intersection _ _ _ _ => true
        | _ => false) =
        (if buffer_range.get_join_type S pen prev inp = join_selector.join_convex
          then [Call.line_line_intersection p1 p2 pp1 pp2] else []) ∧
      (buffer_range.get_join_type S pen prev inp = join_selector.join_convex →
        ((S.line_line_intersection p1 p2 pp1 pp2 u.intersection_point).1 =
            join_selector.join_continue →
          J = [Call.add_join phase pen prev pp1 pp2 inp p1 p2 side,
            Call.line_line_intersection p1 p2 pp1 pp2] ∧ pieces J = []) ∧
        ((S.line_line_intersection p1 p2 pp1 pp2 u.intersection_point).1 =
            join_selector.join_spike →
          J = [Call.add_join phase pen prev pp1 pp2 inp p1 p2 side,
            Call.line_line_intersection p1 p2 pp1 pp2,
            Call.end_apply pen pp2 prev p1 side,
            Call.add_endcap (S.end_apply pen pp2 prev p1 side) prev] ∧
          pieces J = [Piece.endcap]) ∧
        ((S.line_line_intersection p1 p2 pp1 pp2 u.intersection_point).1 =
            join_selector.join_convex →
          J = [Call.add_join phase pen prev pp1 pp2 inp p1 p2 side,
            Call.line_line_intersection p1 p2 pp1 pp2,
            Call.distance_apply prev inp side,
            Call.join_apply
              (S.line_line_intersection p1 p2 pp1 pp2 u.intersection_point).2
              prev pp2 p1 (S.distance_apply prev inp side),
            Call.add_piece_range piece_type.buffered_join prev
              (S.join_apply
                (S.line_line_intersection p1 p2 pp1 pp2 u.intersection_point).2
                prev pp2 p1 (S.distance_apply prev inp side))] ∧
          pieces J = [Piece.join])) ∧
      (buffer_range.get_join_type S pen prev inp = join_selector.join_concave →
        J = [Call.add_join phase pen prev pp1 pp2 inp p1 p2 side,
          Call.add_piece_3 piece_type.buffered_concave prev pp2 p1]) ∧
      (buffer_range.get_join_type S pen prev inp = join_selector.join_continue →
        J = [Call.add_join phase pen prev pp1 pp2 inp p1 p2 side]) ∧
      (buffer_range.get_join_type S pen prev inp = join_selector.join_spike →
        J = [Call.add_join phase pen prev pp1 pp2 inp p1 p2 side,
          Call.end_apply pen pp2 prev p1 side,
          Call.add_endcap (S.end_apply pen pp2 prev p1 side) prev]) := by
  obtain ⟨k1, k2, k3⟩ := add_join_calls_by_kind S u c phase pen prev pp1 pp2 inp p1 p2 side
  cases hj : buffer_range.get_join_type S pen prev inp with
  | join_continue =>
    exact ⟨_, k2 hj, by simp, by simp [List.filter_cons], by simp, by simp, by simp, by simp⟩
  | join_concave =>
    exact ⟨_, k1 hj, by simp, by simp [List.filter_cons], by simp, by simp, by simp, by simp⟩
  | join_spike =>
    exact ⟨_, k3 hj, by simp, by simp [List.filter_cons], by simp, by simp, by simp, by simp⟩
  | join_convex =>
    obtain ⟨i1, i2, i3, i4⟩ :=
      add_join_calls_by_intersection S u c phase pen prev pp1 pp2 inp p1 p2 side hj
    cases hi : (S.line_line_intersection p1 p2 pp1 pp2 u.intersection_point).1 with
    | join_continue =>
      exact ⟨_, i1 hi, by simp, by simp [List.filter_cons],
        by simp [pieces, Call.piece], by simp, by simp, by simp⟩
    | join_concave =>
      exact ⟨_, i3 hi, by simp, by simp [List.filter_cons],
        by simp [pieces, Call.piece], by simp, by simp, by simp⟩
    | join_spike =>
      exact ⟨_, i2 hi, by simp, by simp [List.filter_cons],
        by simp [pieces, Call.piece], by simp, by simp, by simp⟩
    | join_convex =>
      refine ⟨_, i4 hi, by simp, by simp [List.filter_cons], ?_, by simp, by simp, by simp⟩
      intro _
      refine ⟨by simp, by simp, ?_⟩
      intro _
      rw [hi] at *
      exact ⟨rfl, by simp [pieces, Call.piece]⟩

/-- C30. When the piece generation returns, the steps of the top-level
`buffer_inserter` on the collection are, in order, `get_turns`,
`discard_rings`, `discard_turns`, `enrich`, `traverse`, then `reverse` if and
only if the distance strategy reports negative and the input is areal, then
`assign`: each once, `reverse` once or not at all, and never for a point or
linear input or a distance that is not negative.  The areal inputs are ring,
polygon and multi-polygon. -/
theorem orientation_correction {σ : Type} (S : Strategies) (M : Trig) (u : Unset)
    (geometry_input : Geometry) (V : VisitPiecesPolicy σ) (v : σ) (generated : List Call)
    (hgen : apply_by_tag S M u geometry_input [] = some generated) :
    (∃ calls st, buffer_inserter S M u geometry_input V v = some (calls, st) ∧
      calls.filter Call.is_assembly =
        [Call.get_turns, Call.discard_rings, Call.discard_turns, Call.enrich,
          Call.traverse] ++
        (if S.distance_negative = true ∧ geometry_input.is_areal = true
          then [Call.reverse] else []) ++ [Call.assign] ∧
      calls.count Call.reverse =
        (if S.distance_negative = true ∧ geometry_input.is_areal = true then 1 else 0)) ∧
    (geometry_input.is_areal = true ↔
      (∃ r, geometry_input = Geometry.ring r) ∨
      (∃ e i, geometry_input = Geometry.polygon e i) ∨
      (∃ ps, geometry_input = Geometry.multi_polygon ps)) := by
  have hno := apply_by_tag_not_top_level S M u geometry_input generated hgen
  have hfilter : generated.filter Call.is_assembly = [] := by
    rw [List.filter_eq_nil_iff]
    intro x hx
    have := hno x hx
    cases x <;> simp_all [Call.is_assembly, Call.is_top_level]
  have hcount : generated.count Call.reverse = 0 := by
    rw [List.count_eq_zero]
    intro hx
    have := hno _ hx
    simp [Call.is_top_level] at this
  constructor
  · simp only [buffer_inserter, hgen]
    cases hn : S.distance_negative <;> cases ha : geometry_input.is_areal <;>
      simp [List.filter_append, hfilter, List.filter_cons, Call.is_assembly,
        List.count_append, hcount, List.count_cons]
  · cases geometry_input <;> simp [Geometry.is_areal]

theorem orientation_correction_witness :
    apply_by_tag (cartesian (-1) miter_join flat_end) trig_example unset_zero
        (Geometry.ring triangle_open) [] = some [] ∧
    ((∃ calls st, buffer_inserter (cartesian (-1) miter_join flat_end) trig_example
          unset_zero (Geometry.ring triangle_open) recording_visitor [] =
        some (calls, st) ∧
      calls.filter Call.is_assembly =
        [Call.get_turns, Call.discard_rings, Call.discard_turns, Call.enrich,
          Call.traverse] ++
        (if (cartesian (-1) miter_join flat_end).distance_negative = true ∧
            (Geometry.ring triangle_open).is_areal = true
          then [Call.reverse] else []) ++ [Call.assign] ∧
      calls.count Call.reverse =
        (if (cartesian (-1) miter_join flat_end).distance_negative = true ∧
            (Geometry.ring triangle_open).is_areal = true then 1 else 0)) ∧
    ((Geometry.ring triangle_open).is_areal = true ↔
      (∃ r, Geometry.ring triangle_open = Geometry.ring r) ∨
      (∃ e i, Geometry.ring triangle_open = Geometry.polygon e i) ∨
      (∃ ps, Geometry.ring triangle_open = Geometry.multi_polygon ps))) :=
  ⟨rfl,
   orientation_correction (cartesian (-1) miter_join flat_end) trig_example unset_zero
     (Geometry.ring triangle_open) recording_visitor [] [] rfl⟩

/-- C31. The ring policy never starts a new output ring.  For every ring and
every strategy set, with `R` the calls of `buffer_inserter<ring_tag>::apply` on
an empty collection: on any collection `c` the policy appends exactly `R`;
`start_new_ring` is not among them, and those of them that are operations of the
collection are `add_piece` and `add_endcap` only.  The policy returns on a ring
of at most 3 points and on a ring whose simplification has at least 2 points.
Buffering the ring directly through the top-level `buffer_inserter` therefore
starts no ring at all.  The point policy starts one ring, the linestring policy
one when it runs (more than 1 point), the polygon policy at least one. -/
theorem ring_policy_never_starts_ring (S : Strategies) (M : Trig) (u : Unset)
    (ring : List Point) (c R : List Call)
    (h : ring_tag.apply S u ring [] = some R) :
    ring_tag.apply S u ring c = some (c ++ R) ∧
    Call.start_new_ring ∉ R ∧
    (∀ x ∈ R, x.on_collection = true → x.is_add_piece = true ∨ x.is_add_endcap = true) ∧
    (ring.length ≤ 3 ∨ 2 ≤ (S.simplify ring S.simplify_distance).length →
      ∃ R0, ring_tag.apply S u ring [] = some R0) ∧
    (∀ {σ : Type} (V : VisitPiecesPolicy σ) (v : σ),
      ∃ calls st, buffer_inserter S M u (Geometry.ring ring) V v = some (calls, st) ∧
        Call.start_new_ring ∉ calls) ∧
    (∀ p : Point, (point_tag.apply S M u p []).count Call.start_new_ring = 1) ∧
    (∀ (l : List Point) (L : List Call), linestring_tag.apply S u l [] = some L →
      L.count Call.start_new_ring = if l.length > 1 then 1 else 0) ∧
    (∀ (e : List Point) (i : List (List Point)) (P : List Call),
      polygon_tag.apply S u e i [] = some P → Call.start_new_ring ∈ P) := by
  have hno := ring_apply_no_start_new_ring S u ring R h
  refine ⟨?_, hno, ?_, fun hr => ring_apply_returns S u ring [] hr, ?_, ?_,
    fun l L hL => linestring_apply_start_count S u l L hL,
    fun e i P hP => polygon_apply_starts_ring S u e i P hP⟩
  · have happ := ring_apply_append S u ring c []
    rw [List.append_nil, h] at happ
    rw [happ]
    rfl
  · intro x hx hc
    rcases ring_apply_calls S u ring R h x hx with ⟨d, rfl⟩ | ⟨side, hs⟩
    · simp [Call.on_collection] at hc
    · exact of_walk_on_collection side x hs hc
  · intro σ V v
    have hgen : apply_by_tag S M u (Geometry.ring ring) [] = some R := h
    simp only [buffer_inserter, hgen]
    refine ⟨_, _, rfl, ?_⟩
    cases S.distance_negative && (Geometry.ring ring).is_areal <;> simp [hno]
  · intro p
    simp [point_tag.apply, buffer_point.generate_circle, List.count_cons]

theorem ring_policy_never_starts_ring_witness :
    ring_tag.apply (cartesian 1 miter_join flat_end) unset_zero square_cw [] =
      some ((ring_tag.apply (cartesian 1 miter_join flat_end) unset_zero square_cw []).getD
        []) ∧
    (ring_tag.apply (cartesian 1 miter_join flat_end) unset_zero square_cw
        [Call.start_new_ring] =
      some ([Call.start_new_ring] ++
        (ring_tag.apply (cartesian 1 miter_join flat_end) unset_zero square_cw []).getD
          []) ∧
    Call.start_new_ring ∉
      (ring_tag.apply (cartesian 1 miter_join flat_end) unset_zero square_cw []).getD [] ∧
    (∀ x ∈ (ring_tag.apply (cartesian 1 miter_join flat_end) unset_zero square_cw []).getD
        [],
      x.on_collection = true → x.is_add_piece = true ∨ x.is_add_endcap = true) ∧
    (square_cw.length ≤ 3 ∨
        2 ≤ ((cartesian 1 miter_join flat_end).simplify square_cw
          (cartesian 1 miter_join flat_end).simplify_distance).length →
      ∃ R0, ring_tag.apply (cartesian 1 miter_join flat_end) unset_zero square_cw [] =
        some R0) ∧
    (∀ {σ : Type} (V : VisitPiecesPolicy σ) (v : σ),
      ∃ calls st, buffer_inserter (cartesian 1 miter_join flat_end) trig_example unset_zero
          (Geometry.ring square_cw) V v = some (calls, st) ∧
        Call.start_new_ring ∉ calls) ∧
    (∀ p : Point, (point_tag.apply (cartesian 1 miter_join flat_end) trig_example
      unset_zero p []).count Call.start_new_ring = 1) ∧
    (∀ (l : List Point) (L : List Call),
      linestring_tag.apply (cartesian 1 miter_join flat_end) unset_zero l [] = some L →
      L.count Call.start_new_ring = if l.length > 1 then 1 else 0) ∧
    (∀ (e : List Point) (i : List (List Point)) (P : List Call),
      polygon_tag.apply (cartesian 1 miter_join flat_end) unset_zero e i [] = some P →
      Call.start_new_ring ∈ P)) :=
  have hE : ring_tag.apply (cartesian 1 miter_join flat_end) unset_zero square_cw [] =
      some ((ring_tag.apply (cartesian 1 miter_join flat_end) unset_zero square_cw []).getD
        []) := by
    rw [square_cw_calls]; rfl
  ⟨hE, ring_policy_never_starts_ring (cartesian 1 miter_join flat_end) trig_example
    unset_zero square_cw [Call.start_new_ring]
    ((ring_tag.apply (cartesian 1 miter_join flat_end) unset_zero square_cw []).getD [])
    hE⟩

end boost.geometry
